import Mathlib

/-!
Verification of the tracing / partial-evaluation engine of this repository
(`jax/interpreters/partial_eval.py`, `jax/lax/lax_parallel.py`).

The Python code is shallowly embedded: concrete array values become an
inductive `Val`, abstract values (`ShapedArray`, `ConcreteArray`,
`AbstractTuple`) become `AVal`, partial values become pairs of a `PV`
("pv" component: `None`, an abstract value, or a `JaxprTracerTuple`) and a
known constant.  Tracer object graphs are embedded as arenas (lists of
tracer records addressed by index, replacing Python object identity, as
the design notes of the specification suggest).  Python exceptions become
`Except`/`Option` failures.

Functions living in files of the repository that are not part of the
sources given here (`core.py`, `util.py`, `abstract_arrays.py`) are
modelled from the specification and are marked as such in their doc
comments.
-/

namespace PE

/-- A concrete value: an array (shape, dtype, opaque data) or a `JaxTuple`
of values.  Embeds the concrete payloads `partial_eval.py` manipulates. -/
inductive Val where
  | arr (shape : List Nat) (dtype : Nat) (data : List Int)
  | tup (elts : List Val)

mutual

def Val.decEq : (a b : Val) → Decidable (a = b)
  | .arr s t d, .arr s' t' d' =>
      if h : s = s' ∧ t = t' ∧ d = d' then
        isTrue (by obtain ⟨h1, h2, h3⟩ := h; subst h1; subst h2; subst h3; rfl)
      else isFalse (by intro hc; cases hc; exact h ⟨rfl, rfl, rfl⟩)
  | .arr _ _ _, .tup _ => isFalse (by intro hc; cases hc)
  | .tup _, .arr _ _ _ => isFalse (by intro hc; cases hc)
  | .tup vs, .tup ws =>
      match Val.decEqList vs ws with
      | isTrue hl => isTrue (by rw [hl])
      | isFalse hl => isFalse (by intro hc; cases hc; exact hl rfl)

def Val.decEqList : (a b : List Val) → Decidable (a = b)
  | [], [] => isTrue rfl
  | [], _ :: _ => isFalse (by intro hc; cases hc)
  | _ :: _, [] => isFalse (by intro hc; cases hc)
  | x :: xs, y :: ys =>
      match Val.decEq x y, Val.decEqList xs ys with
      | isTrue h1, isTrue h2 => isTrue (by rw [h1, h2])
      | isFalse h1, _ => isFalse (by intro hc; cases hc; exact h1 rfl)
      | _, isFalse h2 => isFalse (by intro hc; cases hc; exact h2 rfl)

end

instance : DecidableEq Val := Val.decEq

/-- Modelled from the spec: the sentinel `unit` filling the unused slot of
a `PartialVal` (`core.unit`, an empty `JaxTuple`). -/
def unitVal : Val := .tup []

/-- An `AbstractValue`: `ShapedArray` (shape + dtype, no data),
`ConcreteArray` (a refinement also carrying the memoized value's data), or
`AbstractTuple`. -/
inductive AVal where
  | shaped (shape : List Nat) (dtype : Nat)
  | conc (shape : List Nat) (dtype : Nat) (data : List Int)
  | atuple (elts : List AVal)

mutual

def AVal.decEq : (a b : AVal) → Decidable (a = b)
  | .shaped s t, .shaped s' t' =>
      if h : s = s' ∧ t = t' then
        isTrue (by obtain ⟨h1, h2⟩ := h; subst h1; subst h2; rfl)
      else isFalse (by intro hc; cases hc; exact h ⟨rfl, rfl⟩)
  | .conc s t d, .conc s' t' d' =>
      if h : s = s' ∧ t = t' ∧ d = d' then
        isTrue (by obtain ⟨h1, h2, h3⟩ := h; subst h1; subst h2; subst h3; rfl)
      else isFalse (by intro hc; cases hc; exact h ⟨rfl, rfl, rfl⟩)
  | .atuple xs, .atuple ys =>
      match AVal.decEqList xs ys with
      | isTrue h => isTrue (by rw [h])
      | isFalse h => isFalse (by intro hc; cases hc; exact h rfl)
  | .shaped _ _, .conc _ _ _ => isFalse (by intro hc; cases hc)
  | .shaped _ _, .atuple _ => isFalse (by intro hc; cases hc)
  | .conc _ _ _, .shaped _ _ => isFalse (by intro hc; cases hc)
  | .conc _ _ _, .atuple _ => isFalse (by intro hc; cases hc)
  | .atuple _, .shaped _ _ => isFalse (by intro hc; cases hc)
  | .atuple _, .conc _ _ _ => isFalse (by intro hc; cases hc)

def AVal.decEqList : (a b : List AVal) → Decidable (a = b)
  | [], [] => isTrue rfl
  | [], _ :: _ => isFalse (by intro hc; cases hc)
  | _ :: _, [] => isFalse (by intro hc; cases hc)
  | x :: xs, y :: ys =>
      match AVal.decEq x y, AVal.decEqList xs ys with
      | isTrue h1, isTrue h2 => isTrue (by rw [h1, h2])
      | isFalse h1, _ => isFalse (by intro hc; cases hc; exact h1 rfl)
      | _, isFalse h2 => isFalse (by intro hc; cases hc; exact h2 rfl)

end

instance : DecidableEq AVal := AVal.decEq

/-- The "pv" component of a `PartialVal`: Python `None` (value is known),
an `AbstractValue` (value is unknown, only typed), or a
`JaxprTracerTuple` of element pvs. -/
inductive PV where
  | known
  | aval (a : AVal)
  | jtt (elts : List PV)

mutual

def PV.decEq : (a b : PV) → Decidable (a = b)
  | .known, .known => isTrue rfl
  | .aval a, .aval b =>
      match AVal.decEq a b with
      | isTrue h => isTrue (by rw [h])
      | isFalse h => isFalse (by intro hc; cases hc; exact h rfl)
  | .jtt xs, .jtt ys =>
      match PV.decEqList xs ys with
      | isTrue h => isTrue (by rw [h])
      | isFalse h => isFalse (by intro hc; cases hc; exact h rfl)
  | .known, .aval _ => isFalse (by intro hc; cases hc)
  | .known, .jtt _ => isFalse (by intro hc; cases hc)
  | .aval _, .known => isFalse (by intro hc; cases hc)
  | .aval _, .jtt _ => isFalse (by intro hc; cases hc)
  | .jtt _, .known => isFalse (by intro hc; cases hc)
  | .jtt _, .aval _ => isFalse (by intro hc; cases hc)

def PV.decEqList : (a b : List PV) → Decidable (a = b)
  | [], [] => isTrue rfl
  | [], _ :: _ => isFalse (by intro hc; cases hc)
  | _ :: _, [] => isFalse (by intro hc; cases hc)
  | x :: xs, y :: ys =>
      match PV.decEq x y, PV.decEqList xs ys with
      | isTrue h1, isTrue h2 => isTrue (by rw [h1, h2])
      | isFalse h1, _ => isFalse (by intro hc; cases hc; exact h1 rfl)
      | _, isFalse h2 => isFalse (by intro hc; cases hc; exact h2 rfl)

end

instance : DecidableEq PV := PV.decEq

/-- A `PartialVal`: the pair `(pv, const)`.  `pv = known` means the
constant slot holds the value; otherwise the constant slot holds the
sentinel `unit` (or, in tuple mixtures, a tuple of slots). -/
structure PartialVal where
  pv : PV
  const : Val
deriving DecidableEq

/-- Modelled from the spec: `core.get_aval` maps a concrete value to its
abstract value — a `ConcreteArray` for an array (a refinement of
`AbstractValue` memoizing the value), an `AbstractTuple` elementwise for a
tuple. -/
def get_aval : Val → AVal
  | .arr s t d => .conc s t d
  | .tup vs => .atuple (vs.attach.map fun v => get_aval v.1)
decreasing_by
  have := List.sizeOf_lt_of_mem v.2
  simp only [Val.tup.sizeOf_spec]
  omega

mutual

/-- Modelled from the spec: `core.lattice_join` returns the most specific
common abstraction of two abstract values: identical shape+dtype gives
that shape/dtype (two equal concrete arrays join to themselves, unequal
ones demote to a `ShapedArray`); tuples join elementwise with matching
arity; fundamentally incompatible abstractions fail. -/
def lattice_join : AVal → AVal → Option AVal
  | .conc s t d, .conc s' t' d' =>
      if s = s' ∧ t = t' then (if d = d' then some (.conc s t d) else some (.shaped s t))
      else none
  | .conc s t _, .shaped s' t' => if s = s' ∧ t = t' then some (.shaped s t) else none
  | .shaped s t, .conc s' t' _ => if s = s' ∧ t = t' then some (.shaped s t) else none
  | .shaped s t, .shaped s' t' => if s = s' ∧ t = t' then some (.shaped s t) else none
  | .atuple xs, .atuple ys =>
      if xs.length = ys.length then (lattice_join_list xs ys).map .atuple else none
  | _, _ => none
termination_by a _ => sizeOf a

/-- Elementwise `lattice_join` of the members of two `AbstractTuple`s. -/
def lattice_join_list : List AVal → List AVal → Option (List AVal)
  | [], [] => some []
  | x :: xs, y :: ys => do
      let a ← lattice_join x y
      let rest ← lattice_join_list xs ys
      pure (a :: rest)
  | _, _ => none
termination_by xs _ => sizeOf xs

end

/-- Nesting depth of an abstract value (used only to size the fuel of
`join_pvals`; not part of the source). -/
def AVal.depth : AVal → Nat
  | .shaped _ _ => 0
  | .conc _ _ _ => 0
  | .atuple xs => (xs.attach.map fun a => a.1.depth).foldr max 0 + 1
decreasing_by
  have := List.sizeOf_lt_of_mem a.2
  simp only [AVal.atuple.sizeOf_spec]
  omega

/-- Nesting depth of a pv (fuel sizing only). -/
def PV.depth : PV → Nat
  | .known => 0
  | .aval a => a.depth
  | .jtt xs => (xs.attach.map fun p => p.1.depth).foldr max 0 + 1
decreasing_by
  have := List.sizeOf_lt_of_mem p.2
  simp only [PV.jtt.sizeOf_spec]
  omega

/-- Python `len()` of a pv, as used by the `[None] * len(...)` expansion in
`join_pvals`: tuple-like pvs have a length, array-like ones do not. -/
def pvLen? : PV → Option Nat
  | .jtt xs => some xs.length
  | .aval (.atuple xs) => some xs.length
  | _ => none

/-- Iterating a tuple-like pv, as `zip(pv, const)` does in `join_pvals`:
a `JaxprTracerTuple` yields its element pvs, an `AbstractTuple` yields its
element abstract values; array-like pvs are not iterable. -/
def pvElems? : PV → Option (List PV)
  | .jtt xs => some xs
  | .aval (.atuple xs) => some (xs.map .aval)
  | _ => none

/-- Iterating a constant slot: a `JaxTuple` yields its elements (the
`unit` sentinel is the empty tuple); an array is not treated as a sequence
of element constants here. -/
def valElems? : Val → Option (List Val)
  | .tup vs => some vs
  | .arr _ _ _ => none

/-- If every pv in the list is an abstract value, return those abstract
values (the `all(isinstance(pv, AbstractValue) ...)` test of
`join_pvals`, fused with the `AbstractTuple(join_pvs)` construction). -/
def allAVals? : List PV → Option (List AVal)
  | [] => some []
  | .aval a :: rest => (allAVals? rest).map (a :: ·)
  | _ :: _ => none

mutual

/-- `join_pvals` (partial_eval.py lines 277-306), with explicit fuel for
the recursion of its tuple-mixture branch.  Python exceptions
(`lattice_join` type mismatches, `safe_zip`/`safe_map` length assertion
failures, iterating a non-tuple) are `none`. -/
def joinF : Nat → PartialVal → PartialVal → Option PartialVal
  | 0, _, _ => none
  | fuel+1, ⟨pv1, const1⟩, ⟨pv2, const2⟩ =>
    match pv1, pv2 with
    | .known, .known =>
        let aval1 := get_aval const1
        let aval2 := get_aval const2
        if aval1 = aval2 then
          some ⟨.known, const1⟩  -- both pvals known, equal constants
        else
          -- both pvals known, different constants
          (lattice_join aval1 aval2).map fun aval => ⟨.aval aval, unitVal⟩
    | .known, .aval a => some ⟨.aval a, unitVal⟩  -- first pval known, second not known
    | .aval a, .known => some ⟨.aval a, unitVal⟩  -- first pval not known, second known
    | .aval a1, .aval a2 =>
        -- neither is known
        (lattice_join a1 a2).map fun aval => ⟨.aval aval, unitVal⟩
    | pv1, pv2 => do
        -- the pvals are tuples with some mixtures of known/unknown;
        -- at least one side is a JaxprTracerTuple here.  The `[None] *
        -- len(...)` expansion of a fully-known side happens first.
        let es1 ← match pv1 with
          | .known => (pvLen? pv2).map (List.replicate · .known)
          | _ => pvElems? pv1
        let es2 ← match pv2 with
          | .known => some (List.replicate es1.length .known)
          | _ => pvElems? pv2
        joinTuple fuel es1 const1 es2 const2
termination_by fuel _ _ => (fuel, 0)

/-- The tail of the tuple-mixture branch of `join_pvals`: zip the element
pvs with the element constants (`safe_zip` asserts equal lengths), join
elementwise (`safe_map` asserts equal lengths), and promote the result to
an `AbstractTuple` partial value when every joined element is abstract. -/
def joinTuple (fuel : Nat) (es1 : List PV) (const1 : Val)
    (es2 : List PV) (const2 : Val) : Option PartialVal := do
  let cs1 ← valElems? const1
  let cs2 ← valElems? const2
  if es1.length = cs1.length ∧ es2.length = cs2.length ∧ es1.length = es2.length then
    let pairs := (es1.zip cs1).zip (es2.zip cs2)
    let joins ← pairs.mapM fun q => joinF fuel ⟨q.1.1, q.1.2⟩ ⟨q.2.1, q.2.2⟩
    match allAVals? (joins.map (·.pv)) with
    | some joinAvals => some ⟨.aval (.atuple joinAvals), .tup (joins.map (·.const))⟩
    | none => some ⟨.jtt (joins.map (·.pv)), .tup (joins.map (·.const))⟩
  else none
termination_by (fuel, 1)

end

/-- `join_pvals`, fuelled with one more than the (sufficient) nesting
depth of its arguments. -/
def join_pvals (p1 p2 : PartialVal) : Option PartialVal :=
  joinF (max p1.pv.depth p2.pv.depth + 1) p1 p2

/-- Well-formedness of a `PartialVal`, following the invariant in the
spec's data model: an abstract pv carries the `unit` sentinel; a
`JaxprTracerTuple` pv carries a matching tuple of constant slots with
well-formed elements and is not entirely abstract (an all-abstract tuple
is canonically an `AbstractTuple`, as `pack_pvals` and `join_pvals`
produce). -/
def wfPV : PV → Val → Bool
  | .known, _ => true
  | .aval _, c => c = unitVal
  | .jtt xs, .tup cs =>
      xs.length = cs.length
      && (xs.zip cs).attach.all (fun q => wfPV q.1.1 q.1.2)
      && !(xs.all fun x => match x with | .aval _ => true | _ => false)
  | .jtt _, .arr _ _ _ => false
termination_by pv _ => sizeOf pv
decreasing_by
  obtain ⟨⟨q1, q2⟩, hq⟩ := q
  have hm := List.of_mem_zip hq
  have h1 := List.sizeOf_lt_of_mem hm.1
  simp only [PV.jtt.sizeOf_spec]
  omega

/-- A well-formed partial value. -/
def WFPartial (p : PartialVal) : Prop := wfPV p.pv p.const = true

instance (p : PartialVal) : Decidable (WFPartial p) := by
  unfold WFPartial; infer_instance

/-- Primitive names.  The concrete implementations (`Primitive.impl`) and
abstract evaluation rules (`Primitive.abstract_eval`) are supplied as
environment functions where needed. -/
abbrev PrimName := Nat

/-- `core.identity_p`, the primitive of the shared destructuring equation
built by `JaxprTracer.unpack`. -/
def identity_p : PrimName := 0

/-- `core.pack_p`, the primitive of the equation built by
`JaxprTrace.pack`. -/
def pack_p : PrimName := 1

/-- Variables of a finalized program: gensym-numbered variables plus the
distinguished `core.unitvar`. -/
inductive Var where
  | v (n : Nat)
  | unitvar
deriving DecidableEq

/-- An equation recipe held by a tracer (a `JaxprEqn` whose inputs are
tracers): input tracer ids (arena indices stand in for Python object
identity), the number of output slots (`len(eqn.outvars)`, used by
destructuring equations; plain equations have `outvars = None`), the
primitive and the destructure flag.  Static params and call-style bound
sub-jaxprs are not represented; the verified claims concern
primitive-only programs. -/
structure EqnRec where
  invars : List Nat
  nouts : Nat
  prim : PrimName
  destructure : Bool
deriving DecidableEq

/-- Tracer provenance: `LambdaBinding`, `FreeVar`, `ConstVar`, a
`JaxprEqn`, a `Destructuring` (element index, shared equation, shared
identity key), or the `unit` recipe that `new_const` installs. -/
inductive Recipe where
  | lambdaBinding
  | freeVar (v : Val)
  | constVar (v : Val)
  | eqnR (e : EqnRec)
  | destructuringR (i : Nat) (e : EqnRec) (key : Nat)
  | unitR
deriving DecidableEq

/-- One tracer record: its partial value and its recipe. -/
structure TRec where
  pv : PV
  const : Val
  recipe : Recipe
deriving DecidableEq

/-- The arena of tracers created by one trace; ids are list indices and
are allocated in creation order, so recipes reference strictly smaller
ids. -/
abbrev Arena := List TRec

/-- Python exception classes raised by the engine. -/
inductive Err where
  | typeError
  | assertionError
  | exceptionErr
deriving DecidableEq

/-- `JaxprTrace.new_const` (lines 45-48): a known (`(None, val)`) tracer
with the `unit` recipe. -/
def new_const_rec (v : Val) : TRec := ⟨.known, v, .unitR⟩

/-- `JaxprTrace.new_instantiated_const` (lines 50-51): an abstract tracer
carrying `get_aval(val)` and a `ConstVar` recipe. -/
def new_instantiated_const_rec (v : Val) : TRec :=
  ⟨.aval (get_aval v), unitVal, .constVar v⟩

/-- `JaxprTrace.new_arg` (lines 53-55): a `LambdaBinding` tracer carrying
the given partial value. -/
def new_arg_rec (pval : PartialVal) : TRec := ⟨pval.pv, pval.const, .lambdaBinding⟩

/-- Append a tracer to the arena, returning its id. -/
def alloc (st : Arena) (r : TRec) : Nat × Arena := (st.length, st ++ [r])

/-- Append several tracers. -/
def allocList : Arena → List TRec → List Nat × Arena
  | st, [] => ([], st)
  | st, r :: rs =>
      let a1 := alloc st r
      let a2 := allocList a1.2 rs
      (a1.1 :: a2.1, a2.2)

/-- `pack_pvals` (lines 326-334): all pvs `None` gives a known tuple; all
abstract gives an `AbstractTuple`; otherwise a `JaxprTracerTuple`; the
constant slot is the packed (`JaxTuple`) list of element slots. -/
def pack_pvals (pvals : List PartialVal) : PartialVal :=
  let pvs := pvals.map (·.pv)
  let consts := pvals.map (·.const)
  let pv_out : PV :=
    if pvs.all fun pv => match pv with | .known => true | _ => false then .known
    else
      match allAVals? pvs with
      | some avals => .aval (.atuple avals)
      | none => .jtt pvs
  ⟨pv_out, .tup consts⟩

/-- `JaxprTrace.pack` (lines 79-82): build a `pack_p` equation over the
given tracers and allocate a tracer carrying `pack_pvals` of their
pvals. -/
def trace_pack (st : Arena) (ids : List Nat) : Option (Nat × Arena) :=
  match ids.mapM st.get? with
  | none => none
  | some recs =>
      let pval := pack_pvals (recs.map fun r => ⟨r.pv, r.const⟩)
      some (alloc st ⟨pval.pv, pval.const, .eqnR ⟨ids, 0, pack_p, false⟩⟩)

/-- `partial_val_aval` (lines 316-324): the abstract value of a tracer
from its pv and constant slot. -/
def partial_val_aval : PV → Val → Option AVal
  | .aval a, _ => some a
  | .known, c => some (get_aval c)
  | .jtt ps, .tup cs =>
      if ps.length = cs.length then
        ((ps.zip cs).attach.mapM fun q => partial_val_aval q.1.1 q.1.2).map .atuple
      else none
  | .jtt _, .arr _ _ _ => none
termination_by pv _ => sizeOf pv
decreasing_by
  obtain ⟨⟨q1, q2⟩, hq⟩ := q
  have hm := List.of_mem_zip hq
  have h1 := List.sizeOf_lt_of_mem hm.1
  simp only [PV.jtt.sizeOf_spec]
  omega

/-- `merge_pvals(val, pval)` (lines 266-275): keep the computed value
where the pval is abstract, substitute the known constant where it is
known, and recurse elementwise (packing a `JaxTuple`) through tuple
mixtures. -/
def merge_pvals : Val → PartialVal → Option Val
  | v, ⟨.aval _, _⟩ => some v
  | _, ⟨.known, c⟩ => some c
  | .tup vs, ⟨.jtt ps, .tup cs⟩ =>
      if ps.length = cs.length ∧ vs.length = ps.length then
        ((vs.zip (ps.zip cs)).attach.mapM fun q =>
          merge_pvals q.1.1 ⟨q.1.2.1, q.1.2.2⟩).map .tup
      else none
  | _, ⟨.jtt _, _⟩ => none
termination_by v _ => sizeOf v
decreasing_by
  obtain ⟨⟨q1, q2⟩, hq⟩ := q
  have hm := List.of_mem_zip hq
  have h1 := List.sizeOf_lt_of_mem hm.1
  simp only [Val.tup.sizeOf_spec]
  omega

/-- Parents of a tracer in the dependency graph (`JaxprTracer.parents`,
lines 212-219): the inputs of its equation, also for a destructuring's
shared equation; terminal recipes have no parents. -/
def parentsOf (st : Arena) (i : Nat) : List Nat :=
  match st.get? i with
  | some r =>
      match r.recipe with
      | .eqnR e => e.invars
      | .destructuringR _ e _ => e.invars
      | _ => []
  | none => []

/-- Reachability from the output tracer through parents (the set of
tracers the reverse topological traversal visits). -/
inductive Reach (st : Arena) (out : Nat) : Nat → Prop where
  | base : Reach st out out
  | parent {j p} : Reach st out j → p ∈ parentsOf st j → Reach st out p

/-- One downward sweep collecting parents; since recipes reference
strictly smaller ids, a single pass from high ids to low ids reaches
everything. -/
def reachDown (st : Arena) : Nat → List Nat → List Nat
  | 0, S => S
  | i+1, S => reachDown st i (if S.contains i then S ++ parentsOf st i else S)

/-- Modelled from the spec: `util.toposort` — the reverse topological
traversal from the output tracer visits exactly the tracers reachable
from it, producers before consumers; here they are listed in increasing
id (creation) order, a valid topological order because every recipe
references strictly older tracers. -/
def toposortIds (st : Arena) (out : Nat) : List Nat :=
  let S := reachDown st st.length [out]
  (List.range st.length).filter fun i => S.contains i

/-- A finalized equation (`JaxprEqn` with variables substituted for
tracers). -/
structure JEqn where
  invars : List Var
  outvars : List Var
  prim : PrimName
  destructure : Bool
deriving DecidableEq

/-- A finalized program (`core.Jaxpr`). -/
structure Jaxpr where
  constvars : List Var
  freevars : List Var
  invars : List Var
  outvar : Var
  eqns : List JEqn
deriving DecidableEq

/-- State of the `tracers_to_jaxpr` loop: the `t_to_var` map (later
entries shadow earlier ones), the gensym counter, and the accumulating
equations, environment bindings, constant bindings and destructuring
table. -/
structure TJState where
  varmap : List (Nat × Var)
  counter : Nat
  eqns : List JEqn
  env : List (Var × Val)
  consts : List (Var × Val)
  dvars : List (Nat × List Var)

def lookupVar (s : TJState) (tid : Nat) : Option Var :=
  (s.varmap.find? fun q => q.1 = tid).map (·.2)

/-- `var(t)`: `t_to_var` is a `defaultdict` of a gensym — look the tracer
up, or assign the next fresh variable. -/
def getVar (s : TJState) (tid : Nat) : Var × TJState :=
  match lookupVar s tid with
  | some v => (v, s)
  | none => (.v s.counter,
      { s with varmap := (tid, .v s.counter) :: s.varmap, counter := s.counter + 1 })

def getVars : TJState → List Nat → List Var × TJState
  | s, [] => ([], s)
  | s, i :: is =>
      let g1 := getVar s i
      let g2 := getVars g1.2 is
      (g1.1 :: g2.1, g2.2)

/-- Overwrite the variable of a tracer (`t_to_var[id(t)] = ...`). -/
def setVar (s : TJState) (tid : Nat) (v : Var) : TJState :=
  { s with varmap := (tid, v) :: s.varmap }

/-- Fresh output variables for a destructuring equation
(`[newvar() for _ in eqn.outvars]`). -/
def freshVars (s : TJState) (n : Nat) : List Var × TJState :=
  ((List.range n).map fun j => .v (s.counter + j), { s with counter := s.counter + n })

/-- One step of the `tracers_to_jaxpr` loop (lines 390-412), with
`eqn_tracer_to_var` (lines 371-377) fused in: dispatch on the recipe of
the sorted tracer. -/
def tjStep (st : Arena) (in_tracers : List Nat) (s : TJState) (t : Nat) :
    Except Err TJState :=
  match st.get? t with
  | none => .error .assertionError
  | some r =>
    match r.recipe with
    | .eqnR e =>
        let g1 := getVar s t
        let g2 := getVars g1.2 e.invars
        .ok { g2.2 with eqns := g2.2.eqns ++ [⟨g2.1, [g1.1], e.prim, e.destructure⟩] }
    | .lambdaBinding =>
        if in_tracers.isEmpty then .error .assertionError else .ok s
    | .freeVar v =>
        let g1 := getVar s t
        .ok { g1.2 with env := g1.2.env ++ [(g1.1, v)] }
    | .constVar v =>
        let g1 := getVar s t
        .ok { g1.2 with consts := g1.2.consts ++ [(g1.1, v)] }
    | .destructuringR i e key =>
        match s.dvars.find? fun q => q.1 = key with
        | none =>
            let f1 := freshVars s e.nouts
            let g2 := getVars f1.2 e.invars
            let s3 := { g2.2 with eqns := g2.2.eqns ++ [⟨g2.1, f1.1, e.prim, e.destructure⟩],
                                  dvars := g2.2.dvars ++ [(key, f1.1)] }
            match f1.1.get? i with
            | some vi => .ok (setVar s3 t vi)
            | none => .error .assertionError
        | some q =>
            match q.2.get? i with
            | some vi => .ok (setVar s t vi)
            | none => .error .assertionError
    | .unitR => .ok (setVar s t .unitvar)

/-- `tracers_to_jaxpr` (lines 380-418): assign variables to the declared
input tracers, process the reverse topological traversal, and assemble
the program, its constant values and its free-variable values. -/
def tracers_to_jaxpr (st : Arena) (in_tracers : List Nat) (out : Nat) :
    Except Err (Jaxpr × List Val × List Val) := do
  let s0 : TJState := ⟨[], 0, [], [], [], []⟩
  let g0 := getVars s0 in_tracers
  let sorted := toposortIds st out
  let sF ← sorted.foldlM (tjStep st in_tracers) g0.2
  let gOut := getVar sF out
  .ok (⟨gOut.2.consts.map (·.1), gOut.2.env.map (·.1), g0.1, gOut.1, gOut.2.eqns⟩,
       gOut.2.consts.map (·.2), gOut.2.env.map (·.2))

/-- A tracer id or a raw (lowered) value, as produced by iterating a
tracer (`JaxprTracer.unpack` lowers fully-known children to their raw
constants via `full_lower`). -/
inductive TorV where
  | tr (id : Nat)
  | v (val : Val)

/-- Trace state: the tracer arena and the counter generating fresh
destructuring keys (`key = object()`). -/
structure TraceSt where
  arena : Arena
  keyCtr : Nat

/-- The children construction of `JaxprTracer.unpack` (lines 238-243):
child `i` carries element pval `(pval_i, c_i)` and a `Destructuring`
recipe with the shared equation and key; `full_lower` turns fully-known
children into raw values. -/
def unpackChildren (eqn : EqnRec) (key : Nat) : Nat → List (PV × Val) → TraceSt →
    List TorV × TraceSt
  | _, [], ts => ([], ts)
  | i, (p, c) :: rest, ts =>
      match p with
      | .known =>
          let u1 := unpackChildren eqn key (i+1) rest ts
          (.v c :: u1.1, u1.2)
      | _ =>
          let a1 := alloc ts.arena ⟨p, c, .destructuringR i eqn key⟩
          let u1 := unpackChildren eqn key (i+1) rest { ts with arena := a1.2 }
          (.tr a1.1 :: u1.1, u1.2)

/-- `JaxprTracer.unpack` (lines 232-247) for a tuple-valued tracer: build
the shared `identity_p` destructure equation and the sibling children
(an `AbstractTuple` pv takes `unit` element constants; a
`JaxprTracerTuple` pv zips against its constant tuple, `safe_map`
asserting matching lengths).  A non-tuple pv cannot be iterated. -/
def unpack (ts : TraceSt) (tid : Nat) : Except Err (List TorV × TraceSt) :=
  match ts.arena.get? tid with
  | none => .error .assertionError
  | some r =>
    match r.pv with
    | .aval (.atuple as) =>
        let eqn : EqnRec := ⟨[tid], as.length, identity_p, true⟩
        let pairs := (as.map (PV.aval ·)).zip (List.replicate as.length unitVal)
        .ok (unpackChildren eqn ts.keyCtr 0 pairs { ts with keyCtr := ts.keyCtr + 1 })
    | .jtt ps =>
        match r.const with
        | .tup cs =>
            if ps.length = cs.length then
              let eqn : EqnRec := ⟨[tid], ps.length, identity_p, true⟩
              .ok (unpackChildren eqn ts.keyCtr 0 (ps.zip cs)
                    { ts with keyCtr := ts.keyCtr + 1 })
            else .error .assertionError
        | .arr _ _ _ => .error .assertionError
    | .aval _ => .error .typeError
    | .known => .error .typeError

/-- Modelled from the spec: `Trace.full_raise` at the single tracing
level — a raw value is lifted by `pure` (that is, `new_const`); a tracer
of this trace is returned unchanged. -/
def full_raise (ts : TraceSt) : TorV → Nat × TraceSt
  | .tr id => (id, ts)
  | .v val =>
      let a1 := alloc ts.arena (new_const_rec val)
      (a1.1, { ts with arena := a1.2 })

mutual

/-- `JaxprTrace.instantiate_const` (lines 57-66), fuelled: an abstract
tracer is returned unchanged; a known tracer becomes a fresh
instantiated-constant tracer; a composite (`JaxprTracerTuple`) tracer is
unpacked, each child full-raised and instantiated, and the results
packed (`pack` dispatches back to `JaxprTrace.pack`).  The final
`raise TypeError(pv)` branch of the source is unreachable here because
the pv type of the model only has the three legal shapes. -/
def instantiate_const : Nat → TraceSt → Nat → Except Err (Nat × TraceSt)
  | 0, _, _ => .error .assertionError
  | fuel+1, ts, tid =>
    match ts.arena.get? tid with
    | none => .error .assertionError
    | some r =>
      match r.pv with
      | .aval _ => .ok (tid, ts)
      | .known =>
          let a1 := alloc ts.arena (new_instantiated_const_rec r.const)
          .ok (a1.1, { ts with arena := a1.2 })
      | .jtt _ => do
          let u ← unpack ts tid
          let il ← instantiateList fuel u.2 u.1
          match trace_pack il.2.arena il.1 with
          | some pr => .ok (pr.1, { il.2 with arena := pr.2 })
          | none => .error .assertionError
termination_by fuel _ _ => (fuel, 0)

/-- `map(lambda t: self.instantiate_const(self.full_raise(t)), tracer)`. -/
def instantiateList : Nat → TraceSt → List TorV → Except Err (List Nat × TraceSt)
  | _, ts, [] => .ok ([], ts)
  | fuel, ts, c :: rest => do
      let fr := full_raise ts c
      let i1 ← instantiate_const fuel fr.2 fr.1
      let i2 ← instantiateList fuel i1.2 rest
      .ok (i1.1 :: i2.1, i2.2)
termination_by fuel _ cs => (fuel, cs.length + 1)

end

/-- The largest pv nesting depth in the arena (fuel sizing for
`instantiate_const`; children pvals are strictly shallower than their
parents, so one more than this bound is ample). -/
def arenaDepth (st : Arena) : Nat := (st.map fun r => r.pv.depth).foldr max 0

/-- `JaxprTrace.process_primitive` (lines 68-77) with no custom partial
evaluation rule registered (`custom_partial_eval_rules` is empty in this
repository): instantiate the argument tracers, compute the output
abstract value by the primitive's abstract-evaluation rule (a `none`
from the rule is the type error of the spec), and allocate the equation
tracer with an abstract output pval. -/
def process_primitive (absEval : PrimName → List AVal → Option AVal)
    (ts : TraceSt) (p : PrimName) (argIds : List Nat) :
    Except Err (Nat × TraceSt) := do
  let il ← instantiateList (arenaDepth ts.arena + 2) ts (argIds.map .tr)
  match il.1.mapM il.2.arena.get? with
  | none => .error .assertionError
  | some recs =>
    match recs.mapM fun r => partial_val_aval r.pv r.const with
    | none => .error .typeError
    | some avals =>
      match absEval p avals with
      | none => .error .typeError
      | some out_aval =>
          let a1 := alloc il.2.arena ⟨.aval out_aval, unitVal, .eqnR ⟨il.1, 0, p, false⟩⟩
          .ok (a1.1, { il.2 with arena := a1.2 })

/-- A function built only from primitive operations (no control-flow or
call primitives): the deep embedding of the traced Python callables of
the round-trip claim — the bound input, a literal constant, or a
primitive applied to such functions. -/
inductive Expr where
  | input
  | lit (c : Val)
  | prim (p : PrimName) (args : List Expr)

mutual

/-- Direct, untraced evaluation of a primitive-only function at a
concrete input: each primitive call runs its concrete implementation. -/
def evalExpr (impl : PrimName → List Val → Option Val) (x : Val) : Expr → Option Val
  | .input => some x
  | .lit c => some c
  | .prim p args =>
      match evalExprs impl x args with
      | none => none
      | some vs => impl p vs

def evalExprs (impl : PrimName → List Val → Option Val) (x : Val) :
    List Expr → Option (List Val)
  | [] => some []
  | e :: es =>
      match evalExpr impl x e with
      | none => none
      | some v =>
          match evalExprs impl x es with
          | none => none
          | some vs => some (v :: vs)

end

mutual

/-- Tracing a primitive-only function body under a `JaxprTrace`: the
input is the pre-created argument tracer (id 0); a literal meets `bind`
as a raw constant and is lifted by `pure`/`new_const`; a primitive
application goes through `process_primitive`. -/
def traceExpr (absEval : PrimName → List AVal → Option AVal) (ts : TraceSt) :
    Expr → Except Err (Nat × TraceSt)
  | .input => .ok (0, ts)
  | .lit c =>
      let a1 := alloc ts.arena (new_const_rec c)
      .ok (a1.1, { ts with arena := a1.2 })
  | .prim p args => do
      let tr ← traceExprs absEval ts args
      process_primitive absEval tr.2 p tr.1

def traceExprs (absEval : PrimName → List AVal → Option AVal) (ts : TraceSt) :
    List Expr → Except Err (List Nat × TraceSt)
  | [] => .ok ([], ts)
  | e :: es => do
      let t1 ← traceExpr absEval ts e
      let t2 ← traceExprs absEval t1.2 es
      .ok (t1.1 :: t2.1, t2.2)

end

/-- The outcome of `trace_to_jaxpr`: the program, the output tracer's
residual partial value, and the constant values. -/
structure TraceResult where
  jaxpr : Jaxpr
  out_pval : PartialVal
  consts : List Val

/-- `trace_to_jaxpr` (lines 344-352) composed with `trace_to_subjaxpr`
(lines 354-364) for a one-argument function: create the argument tracer,
run the body, full-raise the output (tracing always yields a tracer id
here), build the program with `tracers_to_jaxpr`, and assert that the
environment of free variables is empty. -/
def trace_to_jaxpr (absEval : PrimName → List AVal → Option AVal)
    (inPval : PartialVal) (e : Expr) : Except Err TraceResult := do
  let ts0 : TraceSt := ⟨[new_arg_rec inPval], 0⟩
  let t1 ← traceExpr absEval ts0 e
  let w ← tracers_to_jaxpr t1.2.arena [0] t1.1
  match t1.2.arena.get? t1.1 with
  | some r =>
      if w.2.2.isEmpty then .ok ⟨w.1, ⟨r.pv, r.const⟩, w.2.1⟩
      else .error .assertionError
  | none => .error .assertionError

/-- Environment lookup during replay (the most recent write wins). -/
def envRead (env : List (Var × Val)) (v : Var) : Option Val :=
  (env.find? fun q => q.1 = v).map (·.2)

/-- `safe_zip`: zip, asserting equal lengths. -/
def zipStrict {α β : Type} (xs : List α) (ys : List β) : Option (List (α × β)) :=
  if xs.length = ys.length then some (xs.zip ys) else none

/-- The equation loop of `eval_jaxpr_raw` (lines 461-469): read the input
values, run the primitive's concrete implementation, destructure the
answer when the equation is a destructuring one (`list(ans)`), and write
the outputs.  Only primitive equations occur in this model's programs,
so the `bound_subjaxprs` list contributes no sub-functions. -/
def evalEqns (impl : PrimName → List Val → Option Val) :
    List JEqn → List (Var × Val) → Option (List (Var × Val))
  | [], env => some env
  | eqn :: rest, env => do
      let in_vals ← eqn.invars.mapM (envRead env)
      let ans ← impl eqn.prim in_vals
      let outvals ← if eqn.destructure then valElems? ans else some [ans]
      let pairs ← zipStrict eqn.outvars outvals
      evalEqns impl rest (pairs.reverse ++ env)

/-- `eval_jaxpr_raw` (lines 445-470): write `unitvar`, the constants, the
arguments and the free-variable values (`safe_map(write, ...)` asserts
matching lengths), execute every equation in list order, and read the
output variable. -/
def eval_jaxpr_raw (impl : PrimName → List Val → Option Val) (j : Jaxpr)
    (consts freevar_vals args : List Val) : Option Val := do
  let e1 ← zipStrict j.constvars consts
  let e2 ← zipStrict j.invars args
  let e3 ← zipStrict j.freevars freevar_vals
  let env0 := e3.reverse ++ e2.reverse ++ e1.reverse ++ [(Var.unitvar, unitVal)]
  let envF ← evalEqns impl j.eqns env0
  envRead envF j.outvar

/-- The reference denotation of a tracer: its value at trace input `x`,
computed through the primitives' concrete implementations by structural
recursion over the (id-decreasing) recipe graph. -/
def tval (impl : PrimName → List Val → Option Val) (st : Arena) (x : Val) :
    Nat → Nat → Option Val
  | 0, _ => none
  | fuel+1, i =>
    match st.get? i with
    | none => none
    | some r =>
      match r.recipe with
      | .lambdaBinding => some x
      | .unitR => some r.const
      | .constVar v => some v
      | .eqnR e => (e.invars.mapM (tval impl st x fuel)).bind (impl e.prim)
      | _ => none

/-- `remove_axis_from_aval` (lines 143-150): drop the leading dimension
of every array shape (`shape[1:]`; a `ConcreteArray` is a `ShapedArray`,
so it also becomes a `ShapedArray`), recursing through tuples. -/
def remove_axis_from_aval : AVal → AVal
  | .atuple as => .atuple (as.attach.map fun a => remove_axis_from_aval a.1)
  | .shaped s t => .shaped s.tail t
  | .conc s t _ => .shaped s.tail t
decreasing_by
  have := List.sizeOf_lt_of_mem a.2
  simp only [AVal.atuple.sizeOf_spec]
  omega

/-- `remove_axis_from_pv` (lines 133-141). -/
def remove_axis_from_pv : PV → PV
  | .known => .known
  | .aval a => .aval (remove_axis_from_aval a)
  | .jtt ps => .jtt (ps.attach.map fun p => remove_axis_from_pv p.1)
decreasing_by
  have := List.sizeOf_lt_of_mem p.2
  simp only [PV.jtt.sizeOf_spec]
  omega

/-- `add_axis_to_aval` (lines 162-168): prepend a leading dimension of
the given size to every array shape (`(size,) + shape`). -/
def add_axis_to_aval (size : Nat) : AVal → AVal
  | .atuple as => .atuple (as.attach.map fun a => add_axis_to_aval size a.1)
  | .shaped s t => .shaped (size :: s) t
  | .conc s t _ => .shaped (size :: s) t
decreasing_by
  have := List.sizeOf_lt_of_mem a.2
  simp only [AVal.atuple.sizeOf_spec]
  omega

/-- `add_axis_to_pv` (lines 152-160). -/
def add_axis_to_pv (size : Nat) : PV → PV
  | .known => .known
  | .aval a => .aval (add_axis_to_aval size a)
  | .jtt ps => .jtt (ps.attach.map fun p => add_axis_to_pv size p.1)
decreasing_by
  have := List.sizeOf_lt_of_mem p.2
  simp only [PV.jtt.sizeOf_spec]
  omega

/-- The outcome of the recursive partial evaluation of the mapped
function (`partial_eval(f, self, reduced_pvs)` + `call_primitive.bind` +
`aux()` in lines 100-102), supplied as an oracle function of the reduced
input pvs: the reduced output pv, the known output constant, the
constants, the traced sub-program and the environment values. -/
structure SubTrace where
  out_pv : PV
  out_const : Val
  consts : List Val
  jaxpr : Jaxpr
  env : List Val

/-- `JaxprTrace.process_map` (lines 97-112): strip the leading axis from
every input abstraction, trace the callee on the reduced pvs (the oracle
`sub` receives exactly `map(remove_axis_from_pv, in_pvs)`), re-add a
leading axis of the map's static size (`params['axis_size']`) to the
output abstraction, instantiate the sub-trace constants, lift its
constvars into invars, and allocate the call equation whose tracer
carries `(out_pv, out_const)`.  The converted sub-program is returned
alongside. -/
def process_map (sub : List PV → SubTrace) (axis_size : Nat) (call_prim : PrimName)
    (ts : TraceSt) (argIds : List Nat) : Except Err (Nat × TraceSt × Jaxpr) :=
  match argIds.mapM ts.arena.get? with
  | none => .error .assertionError
  | some recs =>
      let in_pvs := recs.map (·.pv)
      let reduced_pvs := in_pvs.map remove_axis_from_pv
      let r := sub reduced_pvs
      let out_pv := add_axis_to_pv axis_size r.out_pv
      let alc := allocList ts.arena (r.consts.map new_instantiated_const_rec)
      let alc2 := allocList alc.2 (r.env.map new_const_rec)
      let jaxpr_converted : Jaxpr :=
        { r.jaxpr with constvars := [], invars := r.jaxpr.constvars ++ r.jaxpr.invars }
      let eqn : EqnRec := ⟨alc.1 ++ argIds, 0, call_prim, false⟩
      let outAlloc := alloc alc2.2 ⟨out_pv, r.out_const, .eqnR eqn⟩
      .ok (outAlloc.1, { ts with arena := outAlloc.2 }, jaxpr_converted)

end PE

namespace Lv

mutual

/-- A `JaxprTracer` in the leveled model: the owning trace's level, the
pv component, the known-constant slot (which may itself hold a tracer
from an enclosing trace), and the provenance recipe. -/
inductive JTracer where
  | mk (level : Nat) (pv : PE.PV) (const : TConst) (recipe : LRecipe)

/-- The known-constant slot of a leveled partial value. -/
inductive TConst where
  | val (v : PE.Val)
  | tracer (t : JTracer)

/-- Recipes, as relevant to the leveled model. -/
inductive LRecipe where
  | unitR
  | lambdaR
  | freeVarR (t : JTracer)
  | constVarR (c : TConst)
  | eqnRecipe

end

def JTracer.level : JTracer → Nat
  | .mk l _ _ _ => l

def JTracer.pvOf : JTracer → PE.PV
  | .mk _ p _ _ => p

def JTracer.constSlot : JTracer → TConst
  | .mk _ _ c _ => c

/-- The level of a constant slot, when it is a tracer. -/
def TConst.level? : TConst → Option Nat
  | .val _ => none
  | .tracer t => some t.level

/-- `JaxprTracer.__init__` (partial_eval.py lines 195-202): constructing
a tracer asserts that, whenever the known component of the partial value
is itself a tracer, the inner tracer belongs to a strictly lower trace
level; a violated assertion raises. -/
def mkTracer (trace_level : Nat) (pv : PE.PV) (const : TConst) (recipe : LRecipe) :
    Option JTracer :=
  match const with
  | .tracer t =>
      if t.level < trace_level then some (.mk trace_level pv const recipe) else none
  | .val _ => some (.mk trace_level pv const recipe)

/-- `JaxprTrace.new_const` (lines 45-48): raise if the value is a tracer
of this very level, then build the `(None, val)` tracer through the
checked constructor. -/
def new_const (trace_level : Nat) (v : TConst) : Option JTracer :=
  match v with
  | .tracer t =>
      if t.level = trace_level then none else mkTracer trace_level .known v .unitR
  | .val _ => mkTracer trace_level .known v .unitR

/-- `JaxprTrace.pure` (lines 36-37). -/
def trace_pure (trace_level : Nat) (v : TConst) : Option JTracer :=
  new_const trace_level v

/-- `JaxprTrace.lift` (lines 39-40). -/
def trace_lift (trace_level : Nat) (v : TConst) : Option JTracer :=
  new_const trace_level v

/-- `JaxprTrace.sublift` (lines 42-43): wrap a tracer from an enclosing
level as a `FreeVar` tracer at this level, carrying its pval. -/
def sublift (trace_level : Nat) (t : JTracer) : Option JTracer :=
  mkTracer trace_level t.pvOf t.constSlot (.freeVarR t)

mutual

/-- `JaxprTracer.full_lower` (lines 225-230): a pure tracer (pv `None`)
unwraps to `core.full_lower` of its constant; otherwise the tracer
itself is returned. -/
def full_lower_tracer : JTracer → TConst
  | .mk l pv c r =>
      match pv with
      | .known => core_full_lower c
      | _ => .tracer (.mk l pv c r)

/-- Modelled from the spec: `core.full_lower` — a non-tracer value is
returned unchanged; a tracer is lowered recursively. -/
def core_full_lower : TConst → TConst
  | .val v => .val v
  | .tracer t => full_lower_tracer t

end

/-- The one-level invariant of the claim: a known-constant slot that is
itself a tracer belongs to a strictly lower level. -/
def inv1 : JTracer → Prop
  | .mk l _ (.tracer t) _ => t.level < l
  | .mk _ _ (.val _) _ => True

/-- The invariant, extended recursively through nested tracer
constants. -/
def DeepInv : JTracer → Prop
  | .mk l _ (.tracer t) _ => t.level < l ∧ DeepInv t
  | .mk _ _ (.val _) _ => True

/-- Tracers produced by the `JaxprTrace` operations: every one of them
(`pure`, `lift`, `sublift`, `new_const`, `new_instantiated_const`,
`new_arg`, `process_primitive`, `process_call`, `process_map`, `pack`)
constructs its result through the checked `JaxprTracer.__init__`, with
constant slots whose own tracers were built the same way. -/
inductive Built : JTracer → Prop where
  | of_mk {lvl pv c r t} : mkTracer lvl pv c r = some t →
      (∀ t', c = .tracer t' → Built t') → Built t

end Lv

namespace Par

/-- Python exceptions of the collective-primitive layer. -/
inductive PError where
  | nameError (msg : String)
deriving DecidableEq

/-- A primitive of `lax_parallel.py`: its name and concrete
implementation (receiving the operand and the `axis_name` keyword). -/
structure Primitive where
  name : String
  impl : PE.Val → String → Except PError PE.Val

/-- `_unbound_name_error` (lax_parallel.py lines 68-71): raise a
`NameError` whose message names the unbound axis name and the
primitive. -/
def unbound_name_error (primitive_name : String) (axis_name : String) : PError :=
  .nameError ("axis name \x27" ++ axis_name ++ "\x27 is unbound for primitive "
    ++ primitive_name ++ ".")

/-- `PmapPrimitive(name)` (lines 73-77): a primitive whose default
implementation raises the unbound-axis-name error. -/
def PmapPrimitive (name : String) : Primitive :=
  { name := name,
    impl := fun _ axis_name => .error (unbound_name_error name axis_name) }

/-- Modelled from the spec: `Primitive.bind` with no enclosing
transformation binding any axis dispatches straight to the primitive's
concrete implementation. -/
def bindNoTrace (p : Primitive) (x : PE.Val) (axis_name : String) :
    Except PError PE.Val :=
  p.impl x axis_name

/-- `psum_p` (lines 94-95; `def_impl` installs the unbound-name error). -/
def psum_p : Primitive := PmapPrimitive "psum"

/-- `pmax_p` (lines 108-109). -/
def pmax_p : Primitive := PmapPrimitive "pmax"

/-- `psum(x, axis_name)` (lines 30-31). -/
def psum (x : PE.Val) (axis_name : String) : Except PError PE.Val :=
  bindNoTrace psum_p x axis_name

/-- `pmax(x, axis_name)` (lines 33-34). -/
def pmax (x : PE.Val) (axis_name : String) : Except PError PE.Val :=
  bindNoTrace pmax_p x axis_name

end Par

namespace PE

/-- A tracer-or-value over an arena whose tracer part is an abstract
(already instantiated or equation-produced) tracer — the shape of the
children that `unpack` yields for legal composite pvals. -/
def GoodChild (ar : Arena) : TorV → Prop
  | .v _ => True
  | .tr id => ∃ a c r, ar.get? id = some ⟨.aval a, c, r⟩

end PE

namespace PE

/-- The binding categories of the topological-validity claim for an
equation input of the equation at position `q`: a declared input, a free
variable, a constant, the output of a strictly earlier equation — or
(the amendment) the distinguished unit variable. -/
def BoundVar (j : Jaxpr) (q : Nat) (v : Var) : Prop :=
  v ∈ j.invars ∨ v ∈ j.freevars ∨ v ∈ j.constvars ∨
    (∃ q' eqn', q' < q ∧ j.eqns.get? q' = some eqn' ∧ v ∈ eqn'.outvars) ∨
    v = .unitvar

/-- Well-formedness of a tracer arena: recipes reference strictly older
tracers (object creation order — guaranteed by construction in the
tracing layer), and `LambdaBinding` tracers are declared inputs. -/
structure ArenaWF (st : Arena) (in_tracers : List Nat) : Prop where
  parents_lt : ∀ i, ∀ p ∈ parentsOf st i, p < i
  lambda_in : ∀ i r, st.get? i = some r → r.recipe = .lambdaBinding → i ∈ in_tracers

/-- A variable bound by the current `tracers_to_jaxpr` state: a declared
input, a collected constant or environment binding, an output of an
emitted equation, or the unit variable. -/
def SBound (invars0 : List Var) (s : TJState) (v : Var) : Prop :=
  v ∈ invars0 ∨ v ∈ s.consts.map (·.1) ∨ v ∈ s.env.map (·.1) ∨
    (∃ eqn ∈ s.eqns, v ∈ eqn.outvars) ∨ v = .unitvar

/-- Invariant of the `tracers_to_jaxpr` loop for the topological-validity
claim, after processing the tracers of `P`. -/
structure S3 (st : Arena) (in_tracers : List Nat) (invars0 : List Var)
    (P : List Nat) (s : TJState) : Prop where
  dom : ∀ i, i ∈ in_tracers ∨ i ∈ P → ∃ v, lookupVar s i = some v
  dom_inv : ∀ i v, lookupVar s i = some v → i ∈ in_tracers ∨ i ∈ P
  bound_all : ∀ i v, lookupVar s i = some v → SBound invars0 s v
  dvars_link : ∀ kv ∈ s.dvars, ∃ eqn ∈ s.eqns, kv.2 = eqn.outvars
  eqn_bound : ∀ q eqn, s.eqns.get? q = some eqn → ∀ v ∈ eqn.invars,
    v ∈ invars0 ∨ v ∈ s.consts.map (·.1) ∨ v ∈ s.env.map (·.1) ∨
      (∃ q' eqn', q' < q ∧ s.eqns.get? q' = some eqn' ∧ v ∈ eqn'.outvars) ∨
      v = .unitvar

/-- The binding disjunction used by the `eqn_bound` invariant field,
abstracted over the state. -/
def EBound (invars0 : List Var) (s : TJState) (q : Nat) (v : Var) : Prop :=
  v ∈ invars0 ∨ v ∈ s.consts.map (·.1) ∨ v ∈ s.env.map (·.1) ∨
    (∃ q' eqn', q' < q ∧ s.eqns.get? q' = some eqn' ∧ v ∈ eqn'.outvars) ∨
    v = .unitvar

/-- The binding categories exactly as the specification words them: an
input, free or constant variable, or an output of a strictly earlier
equation — with no allowance for the unit variable. -/
def BoundVarStrict (j : Jaxpr) (q : Nat) (v : Var) : Prop :=
  v ∈ j.invars ∨ v ∈ j.freevars ∨ v ∈ j.constvars ∨
    (∃ q' eqn', q' < q ∧ j.eqns.get? q' = some eqn' ∧ v ∈ eqn'.outvars)

/-- The pack-of-a-constant scenario: tracer 0 is a lambda-bound unknown,
tracer 1 is the unit tracer, and tracer 2 is the output of a `pack`
equation recording the non-instantiated constant operand (line 80:
`eqn = JaxprEqn(tracers, ...)` with the known operand not instantiated,
so `eqn_tracer_to_var` maps it to `unitvar`). -/
def cexArena : Arena :=
  [⟨.aval (.shaped [] 0), unitVal, .lambdaBinding⟩,
   ⟨.known, .arr [] 0 [3], .unitR⟩,
   ⟨.jtt [.aval (.shaped [] 0), .known], .tup [unitVal, .arr [] 0 [3]],
     .eqnR ⟨[0, 1], 0, pack_p, false⟩⟩]

/-- A two-output operation unpacked into two sibling tracers (the
recipes `JaxprTracer.unpack` builds: a shared `Destructuring` equation
`⟨[1], 2, identity_p, true⟩` under one key), both consumed by a final
equation. -/
def dedupArena : Arena :=
  [⟨.aval (.shaped [] 0), unitVal, .lambdaBinding⟩,
   ⟨.jtt [.aval (.shaped [] 0), .aval (.shaped [] 0)], .tup [unitVal, unitVal],
     .eqnR ⟨[0], 0, 5, false⟩⟩,
   ⟨.aval (.shaped [] 0), unitVal,
     .destructuringR 0 ⟨[1], 2, identity_p, true⟩ 0⟩,
   ⟨.aval (.shaped [] 0), unitVal,
     .destructuringR 1 ⟨[1], 2, identity_p, true⟩ 0⟩,
   ⟨.aval (.shaped [] 0), unitVal, .eqnR ⟨[2, 3], 0, 6, false⟩⟩]

/-- The seed tracer of a `jit`-style trace: index 0 is the lambda-bound
argument tracer with abstract value `a`. -/
def Seed (a : AVal) (st : Arena) : Prop :=
  st.get? 0 = some ⟨.aval a, unitVal, .lambdaBinding⟩

/-- Well-formedness of an arena produced by tracing a primitive-only
function: every tracer is abstract or a known constant with the unit
recipe; equations are non-destructuring with strictly older, abstract,
in-arena inputs; there are no destructuring or free-variable tracers;
and only index 0 is lambda-bound. -/
def TrWF (st : Arena) : Prop :=
  ∀ i r, st.get? i = some r →
    ((∃ av, r.pv = .aval av) ∨ (r.pv = .known ∧ r.recipe = .unitR)) ∧
    (∀ e, r.recipe = .eqnR e → e.destructure = false ∧
      ∀ p ∈ e.invars, p < i ∧ ∃ q av, st.get? p = some q ∧ q.pv = .aval av) ∧
    (∀ i2 e2 k2, ¬ r.recipe = .destructuringR i2 e2 k2) ∧
    (∀ v, ¬ r.recipe = .freeVar v) ∧
    (r.recipe = .lambdaBinding → i = 0) ∧
    (r.recipe = .unitR → r.pv = .known)

/-- Every tracer of the arena has a defined reference denotation. -/
def DefinedAll (impl : PrimName → List Val → Option Val) (x : Val)
    (st : Arena) : Prop :=
  ∀ t r, st.get? t = some r → (tval impl st x (t + 1) t).isSome

/-- The replay environment before the equations run: the unit variable,
the traced argument, and the collected constants are readable. -/
def PreEnv (st : Arena) (x : Val) (s : TJState)
    (env : List (Var × Val)) : Prop :=
  envRead env .unitvar = some unitVal ∧
  ∀ t v r, lookupVar s t = some v → st.get? t = some r →
    (r.recipe = .lambdaBinding → envRead env v = some x) ∧
    (∀ c, r.recipe = .constVar c → envRead env v = some c)

/-- After the equations run, the variable of every abstract tracer reads
back its reference denotation. -/
def EnvReads (st : Arena) (impl : PrimName → List Val → Option Val)
    (x : Val) (s : TJState) (env : List (Var × Val)) : Prop :=
  envRead env .unitvar = some unitVal ∧
  ∀ t v r av, lookupVar s t = some v → st.get? t = some r →
    r.pv = .aval av → envRead env v = tval impl st x (t + 1) t

/-- The replay invariant of the `tracers_to_jaxpr` fold for the
round-trip claim. -/
structure RInv (st : Arena) (impl : PrimName → List Val → Option Val)
    (x : Val) (s : TJState) : Prop where
  env_nil : s.env = []
  ctr_pos : 1 ≤ s.counter
  look0 : lookupVar s 0 = some (.v 0)
  consts_keys : ∀ p ∈ s.consts, ∃ k, p.1 = Var.v k ∧ 1 ≤ k ∧ k < s.counter
  consts_nodup : s.consts.Pairwise fun p q => p.1 ≠ q.1
  vars_lt : ∀ t v, lookupVar s t = some v →
    v = .unitvar ∨ ∃ k, v = .v k ∧ k < s.counter
  const_link : ∀ t v r c, lookupVar s t = some v → st.get? t = some r →
    r.recipe = .constVar c → (v, c) ∈ s.consts
  known_link : ∀ t v r, lookupVar s t = some v → st.get? t = some r →
    r.recipe = .unitR → v = .unitvar
  eqn_outs : ∀ eqn ∈ s.eqns, ∃ k, eqn.outvars = [Var.v k] ∧ k < s.counter
  replay : ∀ env0, PreEnv st x s env0 →
    ∃ envF, evalEqns impl s.eqns env0 = some envF ∧
      EnvReads st impl x s envF ∧
      ∃ add, envF = add ++ env0 ∧
        ∀ pr ∈ add, ∃ eqn ∈ s.eqns, pr.1 ∈ eqn.outvars

end PE

-- (more definitions are inserted above this marker) --

namespace PE

theorem get_aval_tup (vs : List Val) :
    get_aval (.tup vs) = .atuple (vs.map get_aval) := by
  rw [get_aval]
  congr 1
  exact List.attach_map_coe vs get_aval

theorem get_aval_inj : ∀ (a b : Val), get_aval a = get_aval b → a = b
  | .arr s t d, .arr s' t' d', h => by
      simp only [get_aval] at h
      cases h
      rfl
  | .arr _ _ _, .tup ws, h => by
      rw [get_aval_tup] at h
      simp [get_aval] at h
  | .tup vs, .arr _ _ _, h => by
      rw [get_aval_tup] at h
      simp [get_aval] at h
  | .tup [], .tup [], _ => rfl
  | .tup [], .tup (w :: ws), h => by
      rw [get_aval_tup, get_aval_tup] at h
      simp at h
  | .tup (v :: vs), .tup [], h => by
      rw [get_aval_tup, get_aval_tup] at h
      simp at h
  | .tup (v :: vs), .tup (w :: ws), h => by
      rw [get_aval_tup, get_aval_tup] at h
      injection h with h
      injection h with h1 h2
      have e1 := get_aval_inj v w h1
      have e2 := get_aval_inj (.tup vs) (.tup ws)
        (by rw [get_aval_tup, get_aval_tup, h2])
      injection e2 with e2
      rw [e1, e2]
termination_by a _ _ => sizeOf a

mutual

theorem lattice_join_comm : ∀ (a b : AVal), lattice_join a b = lattice_join b a
  | .conc s t d, .conc s' t' d' => by
      simp only [lattice_join]
      by_cases h : s = s' ∧ t = t'
      · obtain ⟨rfl, rfl⟩ := h
        simp only [and_self, if_true]
        by_cases hd : d = d'
        · subst hd; simp
        · rw [if_neg hd, if_neg (fun hc => hd hc.symm)]
      · rw [if_neg h, if_neg (fun hc => h ⟨hc.1.symm, hc.2.symm⟩)]
  | .conc s t d, .shaped s' t' => by
      simp only [lattice_join]
      by_cases h : s = s' ∧ t = t'
      · obtain ⟨rfl, rfl⟩ := h; simp
      · rw [if_neg h, if_neg (fun hc => h ⟨hc.1.symm, hc.2.symm⟩)]
  | .shaped s t, .conc s' t' d' => by
      simp only [lattice_join]
      by_cases h : s = s' ∧ t = t'
      · obtain ⟨rfl, rfl⟩ := h; simp
      · rw [if_neg h, if_neg (fun hc => h ⟨hc.1.symm, hc.2.symm⟩)]
  | .shaped s t, .shaped s' t' => by
      simp only [lattice_join]
      by_cases h : s = s' ∧ t = t'
      · obtain ⟨rfl, rfl⟩ := h; simp
      · rw [if_neg h, if_neg (fun hc => h ⟨hc.1.symm, hc.2.symm⟩)]
  | .atuple xs, .atuple ys => by
      simp only [lattice_join]
      by_cases h : xs.length = ys.length
      · rw [if_pos h, if_pos h.symm, lattice_join_list_comm xs ys]
      · rw [if_neg h, if_neg (fun hc => h hc.symm)]
  | .conc _ _ _, .atuple _ => by simp [lattice_join]
  | .atuple _, .conc _ _ _ => by simp [lattice_join]
  | .shaped _ _, .atuple _ => by simp [lattice_join]
  | .atuple _, .shaped _ _ => by simp [lattice_join]
termination_by a _ => sizeOf a

theorem lattice_join_list_comm : ∀ (xs ys : List AVal),
    lattice_join_list xs ys = lattice_join_list ys xs
  | [], [] => rfl
  | [], _ :: _ => by simp [lattice_join_list]
  | _ :: _, [] => by simp [lattice_join_list]
  | x :: xs, y :: ys => by
      simp only [lattice_join_list]
      rw [lattice_join_comm x y, lattice_join_list_comm xs ys]
termination_by xs _ => sizeOf xs

end

mutual

theorem lattice_join_self : ∀ (a : AVal), lattice_join a a = some a
  | .conc s t d => by simp [lattice_join]
  | .shaped s t => by simp [lattice_join]
  | .atuple xs => by
      simp only [lattice_join, if_pos rfl]
      rw [lattice_join_list_self xs]
      rfl
termination_by a => sizeOf a

theorem lattice_join_list_self : ∀ (xs : List AVal),
    lattice_join_list xs xs = some xs
  | [] => by simp [lattice_join_list]
  | x :: xs => by
      simp only [lattice_join_list]
      rw [lattice_join_self x, lattice_join_list_self xs]
      rfl
termination_by xs => sizeOf xs

end

theorem le_foldr_max {l : List Nat} {a : Nat} (h : a ∈ l) : a ≤ l.foldr max 0 := by
  induction l with
  | nil => cases h
  | cons x xs ih =>
    rcases List.mem_cons.mp h with rfl | hm
    · exact Nat.le_max_left _ _
    · exact le_trans (ih hm) (Nat.le_max_right _ _)

theorem depth_jtt (xs : List PV) :
    PV.depth (.jtt xs) = (xs.map PV.depth).foldr max 0 + 1 := by
  rw [PV.depth]
  congr 2
  exact List.attach_map_coe xs PV.depth

theorem depth_lt_of_mem_jtt {xs : List PV} {x : PV} (h : x ∈ xs) :
    x.depth < PV.depth (.jtt xs) := by
  rw [depth_jtt]
  have : x.depth ∈ xs.map PV.depth := List.mem_map_of_mem _ h
  exact Nat.lt_succ_of_le (le_foldr_max this)

theorem mapM_congr_some {α β : Type} (l : List α) (f : α → Option β) (g : α → β)
    (h : ∀ a ∈ l, f a = some (g a)) : l.mapM f = some (l.map g) := by
  induction l with
  | nil => rfl
  | cons x xs ih =>
    rw [List.mapM_cons, h x (List.mem_cons_self x xs),
      ih fun a ha => h a (List.mem_cons_of_mem _ ha)]
    rfl

theorem zip_self {α : Type} (l : List α) : l.zip l = l.map fun e => (e, e) := by
  induction l with
  | nil => rfl
  | cons x xs ih => simp [List.zip_cons_cons, ih]

theorem allAVals?_eq_none {xs : List PV}
    (h : (xs.all fun x => match x with | .aval _ => true | _ => false) = false) :
    allAVals? xs = none := by
  induction xs with
  | nil => simp at h
  | cons x xs ih =>
    cases x with
    | aval a =>
      simp only [List.all_cons, Bool.and_eq_false_iff] at h
      rcases h with h | h
      · cases h
      · simp [allAVals?, ih h]
    | known => simp [allAVals?]
    | jtt _ => simp [allAVals?]

theorem wfPV_jtt_elim {xs : List PV} {cs : List Val}
    (h : wfPV (.jtt xs) (.tup cs) = true) :
    xs.length = cs.length ∧ (∀ q ∈ xs.zip cs, wfPV q.1 q.2 = true) ∧
      (xs.all fun x => match x with | .aval _ => true | _ => false) = false := by
  rw [wfPV] at h
  simp only [Bool.and_eq_true, Bool.not_eq_true', decide_eq_true_eq,
    List.all_eq_true] at h
  refine ⟨h.1.1, fun q hq => ?_, h.2⟩
  exact h.1.2 ⟨q, hq⟩ (List.mem_attach _ _)

theorem mapM_joinF_swap (fuel : Nat)
    (ih : ∀ p q, joinF fuel p q = joinF fuel q p) :
    ∀ (l1 l2 : List (PV × Val)),
      ((l1.zip l2).mapM fun q => joinF fuel ⟨q.1.1, q.1.2⟩ ⟨q.2.1, q.2.2⟩)
        = ((l2.zip l1).mapM fun q => joinF fuel ⟨q.1.1, q.1.2⟩ ⟨q.2.1, q.2.2⟩) := by
  intro l1
  induction l1 with
  | nil => intro l2; simp
  | cons a l1 ih1 =>
    intro l2
    cases l2 with
    | nil => simp
    | cons b l2 =>
      simp only [List.zip_cons_cons, List.mapM_cons]
      rw [ih ⟨a.1, a.2⟩ ⟨b.1, b.2⟩, ih1 l2]

theorem joinTuple_comm (fuel : Nat)
    (ih : ∀ p q, joinF fuel p q = joinF fuel q p)
    (es1 es2 : List PV) (c1 c2 : Val) :
    joinTuple fuel es1 c1 es2 c2 = joinTuple fuel es2 c2 es1 c1 := by
  rw [joinTuple, joinTuple]
  cases hc1 : valElems? c1 with
  | none => cases hc2 : valElems? c2 <;> simp
  | some cs1 =>
    cases hc2 : valElems? c2 with
    | none => simp
    | some cs2 =>
      simp only [Option.bind_eq_bind, Option.some_bind]
      by_cases h : es1.length = cs1.length ∧ es2.length = cs2.length ∧
          es1.length = es2.length
      · rw [if_pos h, if_pos ⟨h.2.1, h.1, h.2.2.symm⟩,
          mapM_joinF_swap fuel ih (es1.zip cs1) (es2.zip cs2)]
      · rw [if_neg h, if_neg fun hc => h ⟨hc.2.1, hc.1, hc.2.2.symm⟩]

theorem joinF_comm : ∀ (fuel : Nat) (p1 p2 : PartialVal),
    joinF fuel p1 p2 = joinF fuel p2 p1 := by
  intro fuel
  induction fuel with
  | zero => intro p1 p2; simp [joinF]
  | succ n ih =>
    intro ⟨pv1, c1⟩ ⟨pv2, c2⟩
    cases pv1 with
    | known =>
      cases pv2 with
      | known =>
        simp only [joinF]
        by_cases h : get_aval c1 = get_aval c2
        · rw [if_pos h, if_pos h.symm]
          cases get_aval_inj _ _ h
          rfl
        · rw [if_neg h, if_neg fun hc => h hc.symm, lattice_join_comm]
      | aval a => simp [joinF]
      | jtt ys =>
        simp only [joinF, pvLen?, pvElems?, Option.map_some', Option.bind_eq_bind,
          Option.some_bind]
        exact joinTuple_comm n ih _ _ _ _
    | aval a =>
      cases pv2 with
      | known => simp [joinF]
      | aval b => simp only [joinF]; rw [lattice_join_comm]
      | jtt ys =>
        simp only [joinF, pvElems?]
        cases a with
        | atuple as_ =>
          simp only [Option.bind_eq_bind, Option.some_bind]
          exact joinTuple_comm n ih _ _ _ _
        | shaped s t => simp
        | conc s t d => simp
    | jtt xs =>
      cases pv2 with
      | known =>
        simp only [joinF, pvLen?, pvElems?, Option.map_some', Option.bind_eq_bind,
          Option.some_bind]
        exact joinTuple_comm n ih _ _ _ _
      | aval b =>
        simp only [joinF, pvElems?]
        cases b with
        | atuple bs =>
          simp only [Option.bind_eq_bind, Option.some_bind]
          exact joinTuple_comm n ih _ _ _ _
        | shaped s t => simp
        | conc s t d => simp
      | jtt ys =>
        simp only [joinF, pvElems?, Option.bind_eq_bind, Option.some_bind]
        exact joinTuple_comm n ih _ _ _ _

theorem joinF_self : ∀ (fuel : Nat) (p : PartialVal),
    p.pv.depth < fuel → wfPV p.pv p.const = true → joinF fuel p p = some p := by
  intro fuel
  induction fuel with
  | zero => intro p hd _; cases Nat.not_lt_zero _ hd
  | succ n ih =>
    intro ⟨pv, c⟩ hd hwf
    cases pv with
    | known => simp [joinF]
    | aval a =>
      rw [wfPV] at hwf
      simp only [decide_eq_true_eq] at hwf
      subst hwf
      simp only [joinF]
      rw [lattice_join_self]
      rfl
    | jtt xs =>
      cases c with
      | arr s t d => rw [wfPV] at hwf; cases hwf
      | tup cs =>
        obtain ⟨hlen, helts, hnotall⟩ := wfPV_jtt_elim hwf
        simp only [joinF, pvElems?, Option.bind_eq_bind, Option.some_bind]
        rw [joinTuple]
        simp only [valElems?, Option.bind_eq_bind, Option.some_bind]
        rw [if_pos ⟨hlen, hlen, trivial⟩]
        have hd' : PV.depth (.jtt xs) < n + 1 := hd
        have hdep : ∀ q ∈ xs.zip cs, PV.depth q.1 < n := by
          intro q hq
          have h1 := (List.of_mem_zip hq).1
          have h2 := @depth_lt_of_mem_jtt xs _ h1
          omega
        rw [zip_self]
        have hjoins : (((xs.zip cs).map fun e => (e, e)).mapM fun q =>
            joinF n ⟨q.1.1, q.1.2⟩ ⟨q.2.1, q.2.2⟩)
            = some ((xs.zip cs).map fun e => (⟨e.1, e.2⟩ : PartialVal)) := by
          rw [mapM_congr_some _ _ (fun q => (⟨q.1.1, q.1.2⟩ : PartialVal))
            (fun q hq => by
              obtain ⟨e, he, rfl⟩ := List.mem_map.mp hq
              exact ih ⟨e.1, e.2⟩ (hdep e he) (helts e he))]
          rw [List.map_map]
          rfl
        rw [hjoins]
        simp only [Option.bind_eq_bind, Option.some_bind]
        have hfst : (((xs.zip cs).map fun e => (⟨e.1, e.2⟩ : PartialVal)).map (·.pv))
            = xs := by
          rw [List.map_map]
          exact List.map_fst_zip xs cs (by omega)
        have hsnd : (((xs.zip cs).map fun e => (⟨e.1, e.2⟩ : PartialVal)).map (·.const))
            = cs := by
          rw [List.map_map]
          exact List.map_snd_zip xs cs (by omega)
        rw [hfst, hsnd, allAVals?_eq_none hnotall]


/-- C2: `join_pvals(p1, p2)` implements the 2x2 case analysis — both
known with equal concrete representation returns the first unchanged;
both known with different concrete values returns an unknown partial
value carrying the lattice join of the two abstractions; one known / one
abstract returns that abstraction as an unknown partial value; both
abstract returns their lattice join as an unknown partial value. -/
theorem join_pvals_case_analysis (c1 c2 u1 u2 : Val) (a a1 a2 : AVal) :
    (get_aval c1 = get_aval c2 →
      join_pvals ⟨.known, c1⟩ ⟨.known, c2⟩ = some ⟨.known, c1⟩) ∧
    (get_aval c1 ≠ get_aval c2 →
      join_pvals ⟨.known, c1⟩ ⟨.known, c2⟩
        = (lattice_join (get_aval c1) (get_aval c2)).map fun v => ⟨.aval v, unitVal⟩) ∧
    join_pvals ⟨.known, c1⟩ ⟨.aval a, u2⟩ = some ⟨.aval a, unitVal⟩ ∧
    join_pvals ⟨.aval a, u1⟩ ⟨.known, c2⟩ = some ⟨.aval a, unitVal⟩ ∧
    join_pvals ⟨.aval a1, u1⟩ ⟨.aval a2, u2⟩
      = (lattice_join a1 a2).map fun v => ⟨.aval v, unitVal⟩ := by
  refine ⟨fun h => ?_, fun h => ?_, ?_, ?_, ?_⟩
  · rw [join_pvals]
    simp only [joinF, if_pos h]
  · rw [join_pvals]
    simp only [joinF, if_neg h]
  · rw [join_pvals]
    simp only [joinF]
  · rw [join_pvals]
    simp only [joinF]
  · rw [join_pvals]
    simp only [joinF]

/-- Witness for C2: joining two distinct known scalars produces the
demoted abstract partial value. -/
theorem join_pvals_case_analysis_witness :
    join_pvals ⟨.known, .arr [] 0 [1]⟩ ⟨.known, .arr [] 0 [2]⟩
      = some ⟨.aval (.shaped [] 0), unitVal⟩ := by
  have h := (join_pvals_case_analysis (.arr [] 0 [1]) (.arr [] 0 [2]) unitVal unitVal
      (.shaped [] 0) (.shaped [] 0) (.shaped [] 0)).2.1 (by simp [get_aval])
  rw [h]
  simp [get_aval, lattice_join]

/-- C4 (amended): `join_pvals` is commutative for all partial values, and
joining a well-formed partial value with itself is a no-op.
Associativity, however, fails (see the counterexample). -/
theorem join_pvals_comm_self (p1 p2 p : PartialVal) (hp : WFPartial p) :
    join_pvals p1 p2 = join_pvals p2 p1 ∧ join_pvals p p = some p := by
  constructor
  · rw [join_pvals, join_pvals, Nat.max_comm]
    exact joinF_comm _ _ _
  · rw [join_pvals]
    exact joinF_self _ p (by rw [Nat.max_self]; exact Nat.lt_succ_self _) hp

/-- Witness for C4: a concrete known partial value is well-formed and
self-join keeps it unchanged. -/
theorem join_pvals_comm_self_witness :
    WFPartial ⟨.known, unitVal⟩ ∧
      join_pvals ⟨.known, unitVal⟩ ⟨.known, unitVal⟩ = some ⟨.known, unitVal⟩ :=
  ⟨by rw [WFPartial, wfPV],
   (join_pvals_comm_self ⟨.known, unitVal⟩ ⟨.known, unitVal⟩ ⟨.known, unitVal⟩
      (by rw [WFPartial, wfPV])).2⟩

/-- Counterexample for C4: `join_pvals` is not associative.  Joining two
distinct known scalars first demotes to a `ShapedArray`; joining with a
`ConcreteArray`-abstracted partial value afterwards keeps the
`ShapedArray`.  In the other association the known/abstract case simply
returns the `ConcreteArray` abstraction, so the two associations differ. -/
theorem join_pvals_assoc_cex :
    ((join_pvals ⟨.known, .arr [] 0 [1]⟩ ⟨.known, .arr [] 0 [2]⟩).bind
        fun q => join_pvals q ⟨.aval (.conc [] 0 [3]), unitVal⟩)
      ≠ ((join_pvals ⟨.known, .arr [] 0 [2]⟩ ⟨.aval (.conc [] 0 [3]), unitVal⟩).bind
        fun q => join_pvals ⟨.known, .arr [] 0 [1]⟩ q) := by
  simp [join_pvals, joinF, get_aval, lattice_join, unitVal, PV.depth, AVal.depth]

end PE

namespace Par

/-- C9: invoking a collective primitive (`psum` or `pmax`) with an axis
name that has no enclosing transformation binding it raises a
`NameError` whose message names the unbound axis name and the
primitive. -/
theorem unbound_axis_name_error (x : PE.Val) (axis_name : String) :
    psum x axis_name = .error (.nameError ("axis name \x27" ++ axis_name ++
        "\x27 is unbound for primitive " ++ "psum" ++ ".")) ∧
    pmax x axis_name = .error (.nameError ("axis name \x27" ++ axis_name ++
        "\x27 is unbound for primitive " ++ "pmax" ++ ".")) :=
  ⟨rfl, rfl⟩

end Par

namespace Lv

/-- C7: lifting a fully-known non-tracer value into a `JaxprTrace` with
`new_const` and applying `full_lower` yields the plain value back, and
lowering the result once more is a no-op. -/
theorem full_lower_new_const (lvl : Nat) (v : PE.Val) :
    ∃ t, new_const lvl (.val v) = some t ∧ full_lower_tracer t = .val v ∧
      core_full_lower (full_lower_tracer t) = .val v := by
  refine ⟨.mk lvl .known (.val v) .unitR, rfl, ?_, ?_⟩ <;>
    simp [full_lower_tracer, core_full_lower]

theorem mkTracer_inv1 (lvl : Nat) (pv : PE.PV) (c : TConst) (r : LRecipe)
    (t : JTracer) (h : mkTracer lvl pv c r = some t) : inv1 t := by
  cases c with
  | tracer t' =>
    rw [mkTracer] at h
    by_cases hl : t'.level < lvl
    · rw [if_pos hl] at h
      cases h
      exact hl
    · rw [if_neg hl] at h
      cases h
  | val v =>
    rw [mkTracer] at h
    cases h
    trivial

theorem built_DeepInv : ∀ t, Built t → DeepInv t := by
  intro t hb
  induction hb with
  | of_mk hmk hc ih =>
    rename_i lvl pv c r t'
    cases c with
    | tracer tin =>
      rw [mkTracer] at hmk
      by_cases hl : tin.level < lvl
      · rw [if_pos hl] at hmk
        cases hmk
        exact ⟨hl, ih tin rfl⟩
      · rw [if_neg hl] at hmk
        cases hmk
    | val v =>
      rw [mkTracer] at hmk
      cases hmk
      trivial

/-- C10: the checked `JaxprTracer` constructor enforces that a tracer
held as the known constant belongs to a strictly lower level; the
invariant holds recursively of every tracer the `JaxprTrace` operations
build (they all construct through that checked constructor); and
`new_const` refuses a tracer of its own or a higher level, so no
operation ever produces a tracer holding a same- or higher-level tracer
as its known constant. -/
theorem tracer_level_invariant :
    (∀ lvl pv c r t, mkTracer lvl pv c r = some t → inv1 t) ∧
    (∀ t, Built t → DeepInv t) ∧
    (∀ lvl t', lvl ≤ t'.level → new_const lvl (.tracer t') = none) ∧
    (∀ lvl t' t, sublift lvl t' = some t → inv1 t) := by
  refine ⟨mkTracer_inv1, built_DeepInv, ?_, ?_⟩
  · intro lvl t' hle
    rw [new_const]
    by_cases he : t'.level = lvl
    · rw [if_pos he]
    · rw [if_neg he, mkTracer, if_neg (by omega)]
  · intro lvl t' t h
    exact mkTracer_inv1 _ _ _ _ _ h

/-- Witness for C10: a constant tracer at level 1 satisfies the deep
invariant, and `new_const` rejects a same-level tracer constant. -/
theorem tracer_level_invariant_witness :
    DeepInv (.mk 1 .known (.val PE.unitVal) .unitR) ∧
    new_const 1 (.tracer (.mk 1 .known (.val PE.unitVal) .unitR)) = none := by
  constructor
  · exact tracer_level_invariant.2.1 _
      (@Built.of_mk 1 .known (.val PE.unitVal) .unitR _ rfl
        (fun t' h => TConst.noConfusion h))
  · exact tracer_level_invariant.2.2.1 1 _ (le_refl 1)

end Lv

namespace PE

theorem get?_concat (st : Arena) (r : TRec) : (st ++ [r]).get? st.length = some r := by
  rw [List.get?_eq_getElem?]
  exact List.getElem?_concat_length st r

/-- C5: for a mapped call of static axis size `N`, `process_map` strips
the leading axis from every input abstraction before recursing (a
`ShapedArray` of shape `s` becomes shape `s[1:]`) and afterwards
prepends a leading axis of size `N` to the output abstraction (`s'`
becomes `(N,) + s'`), so the output has exactly one more leading
dimension, of size `N`, than the abstract output of the axis-stripped
recursive call. -/
theorem process_map_axis_bookkeeping
    (sub : List PV → SubTrace) (N : Nat) (call_prim : PrimName)
    (ts : TraceSt) (argIds : List Nat) (recs : List TRec)
    (s' : List Nat) (t' : Nat)
    (hargs : argIds.mapM ts.arena.get? = some recs)
    (hsub : (sub ((recs.map (·.pv)).map remove_axis_from_pv)).out_pv
      = .aval (.shaped s' t')) :
    (∀ (s : List Nat) (dt : Nat),
      remove_axis_from_pv (.aval (.shaped s dt)) = .aval (.shaped s.tail dt)) ∧
    ((N :: s').length = s'.length + 1) ∧
    ∃ id ts' j, process_map sub N call_prim ts argIds = .ok (id, ts', j) ∧
      (ts'.arena.get? id).map (·.pv) = some (.aval (.shaped (N :: s') t')) := by
  refine ⟨?_, rfl, ?_⟩
  · intro s dt
    simp [remove_axis_from_pv, remove_axis_from_aval]
  · rw [process_map, hargs]
    dsimp only
    refine ⟨_, _, _, rfl, ?_⟩
    simp only [alloc]
    rw [get?_concat]
    rw [Option.map_some', hsub]
    simp [add_axis_to_pv, add_axis_to_aval]

/-- Witness for C5: a single mapped argument of shape `(2, 3)` is
reduced to shape `(3,)`, and the output abstraction of shape `(3,)` is
recovered with the mapped leading axis as `(2, 3)`. -/
theorem process_map_axis_bookkeeping_witness :
    ∃ id ts' j,
      process_map (fun _ => ⟨.aval (.shaped [3] 0), unitVal, [], ⟨[], [], [], .unitvar, []⟩, []⟩)
        2 7 ⟨[⟨.aval (.shaped (2 :: [3]) 0), unitVal, .lambdaBinding⟩], 0⟩ [0]
        = .ok (id, ts', j) ∧
      (ts'.arena.get? id).map (·.pv) = some (.aval (.shaped (2 :: [3]) 0)) := by
  have h := process_map_axis_bookkeeping
    (fun _ => ⟨.aval (.shaped [3] 0), unitVal, [], ⟨[], [], [], .unitvar, []⟩, []⟩)
    2 7 ⟨[⟨.aval (.shaped (2 :: [3]) 0), unitVal, .lambdaBinding⟩], 0⟩ [0]
    [⟨.aval (.shaped (2 :: [3]) 0), unitVal, .lambdaBinding⟩] [3] 0
    rfl rfl
  exact h.2.2

end PE

namespace PE

theorem exc_bind_ok {ε α β : Type} (a : α) (f : α → Except ε β) :
    (Except.ok a >>= f : Except ε β) = f a := rfl

theorem exc_bind_err {ε α β : Type} (e : ε) (f : α → Except ε β) :
    ((Except.error e : Except ε α) >>= f) = Except.error e := rfl

theorem get?_lt {st : Arena} {i : Nat} {r : TRec} (h : st.get? i = some r) :
    i < st.length := by
  obtain ⟨h1, -⟩ := List.get?_eq_some.mp h
  exact h1

theorem get?_extend {st : Arena} {i : Nat} {r : TRec} (h : st.get? i = some r)
    (d : Arena) : (st ++ d).get? i = some r := by
  rw [List.get?_append (get?_lt h)]
  exact h

theorem get?_of_lt {st : Arena} {i : Nat} (h : i < st.length) :
    ∃ r, st.get? i = some r :=
  ⟨st.get ⟨i, h⟩, List.get?_eq_get h⟩

theorem goodChild_extend {ar d : Arena} {c : TorV} (h : GoodChild ar c) :
    GoodChild (ar ++ d) c := by
  cases c with
  | v val => trivial
  | tr id =>
    obtain ⟨a, c0, r0, hg⟩ := h
    exact ⟨a, c0, r0, get?_extend hg d⟩

theorem unpackChildren_good :
    ∀ (pairs : List (PV × Val)) (eqn : EqnRec) (key i : Nat) (ts : TraceSt),
    (∀ q ∈ pairs, q.1 = .known ∨ ∃ a, q.1 = .aval a) →
    ∃ d, (unpackChildren eqn key i pairs ts).2.arena = ts.arena ++ d ∧
      ∀ ch ∈ (unpackChildren eqn key i pairs ts).1,
        GoodChild (unpackChildren eqn key i pairs ts).2.arena ch := by
  intro pairs
  induction pairs with
  | nil =>
    intro eqn key i ts _
    exact ⟨[], by simp [unpackChildren], by simp [unpackChildren]⟩
  | cons q rest ih =>
    intro eqn key i ts hflat
    obtain ⟨p, c⟩ := q
    rcases hflat (p, c) (List.mem_cons_self _ _) with hp | ⟨a, hp⟩ <;> subst hp
    · rw [unpackChildren]
      obtain ⟨d, hd, hgood⟩ := ih eqn key (i+1) ts
        (fun q hq => hflat q (List.mem_cons_of_mem _ hq))
      refine ⟨d, hd, ?_⟩
      intro ch hch
      rcases List.mem_cons.mp hch with rfl | hch
      · trivial
      · exact hgood ch hch
    · rw [unpackChildren]
      simp only [alloc]
      set rec : TRec := ⟨.aval a, c, .destructuringR i eqn key⟩ with hrec
      obtain ⟨d, hd, hgood⟩ := ih eqn key (i+1)
        { arena := ts.arena ++ [rec], keyCtr := ts.keyCtr }
        (fun q hq => hflat q (List.mem_cons_of_mem _ hq))
      refine ⟨[rec] ++ d, ?_, ?_⟩
      · rw [hd]
        simp
      · intro ch hch
        rcases List.mem_cons.mp hch with rfl | hch
        · refine ⟨a, c, .destructuringR i eqn key, ?_⟩
          rw [hd]
          exact get?_extend (get?_concat ts.arena rec) d
        · exact hgood ch hch
      · intro h
        cases h

theorem instantiateList_good :
    ∀ (children : List TorV) (fuel : Nat) (ts : TraceSt),
    (∀ ch ∈ children, GoodChild ts.arena ch) →
    ∃ ids ts', instantiateList (fuel+1) ts children = .ok (ids, ts') ∧
      ∃ d, ts'.arena = ts.arena ++ d ∧ ∀ id ∈ ids, id < ts'.arena.length := by
  intro children
  induction children with
  | nil =>
    intro fuel ts _
    exact ⟨[], ts, by rw [instantiateList], [], by simp, by simp⟩
  | cons ch rest ih =>
    intro fuel ts hgood
    cases ch with
    | v val =>
      rw [instantiateList]
      obtain ⟨ids', ts', hlist, d, hd, hvalid⟩ := ih fuel
        ⟨ts.arena ++ [⟨.known, val, .unitR⟩] ++ [new_instantiated_const_rec val], ts.keyCtr⟩
        (fun c hc => by
          have := @goodChild_extend _
            ([(⟨.known, val, .unitR⟩ : TRec)] ++ [new_instantiated_const_rec val]) _
            (hgood c (List.mem_cons_of_mem _ hc))
          simpa [List.append_assoc] using this)
      simp only [full_raise, alloc, instantiate_const, new_const_rec, get?_concat,
        exc_bind_ok]
      rw [hlist, exc_bind_ok]
      refine ⟨(ts.arena ++ [(⟨.known, val, .unitR⟩ : TRec)]).length :: ids', ts', rfl,
        [(⟨.known, val, .unitR⟩ : TRec)] ++ [new_instantiated_const_rec val] ++ d, ?_, ?_⟩
      · rw [hd]
        simp
      · intro id hid
        rcases List.mem_cons.mp hid with rfl | hid
        · rw [hd]
          simp
        · exact hvalid id hid
    | tr id0 =>
      rw [instantiateList]
      obtain ⟨a, c0, r0, hg⟩ := hgood (.tr id0) (List.mem_cons_self _ _)
      obtain ⟨ids', ts', hlist, d, hd, hvalid⟩ := ih fuel ts
        (fun c hc => hgood c (List.mem_cons_of_mem _ hc))
      simp only [full_raise, instantiate_const, hg, exc_bind_ok]
      rw [hlist, exc_bind_ok]
      refine ⟨id0 :: ids', ts', rfl, d, hd, ?_⟩
      intro id hid
      rcases List.mem_cons.mp hid with rfl | hid
      · have := get?_lt hg
        rw [hd]
        simp only [List.length_append]
        omega
      · exact hvalid id hid

theorem mapM_get?_valid : ∀ (ids : List Nat) (st : Arena),
    (∀ id ∈ ids, id < st.length) → ∃ rs, ids.mapM st.get? = some rs := by
  intro ids
  induction ids with
  | nil => intro st _; exact ⟨[], rfl⟩
  | cons i is ih =>
    intro st hv
    obtain ⟨r, hr⟩ := get?_of_lt (hv i (List.mem_cons_self _ _))
    obtain ⟨rs, hrs⟩ := ih st (fun id hid => hv id (List.mem_cons_of_mem _ hid))
    refine ⟨r :: rs, ?_⟩
    rw [List.mapM_cons, hr, hrs]
    rfl

/-- C8 (amended): `instantiate_const` on a tracer whose pv is a composite
(`JaxprTracerTuple`) of known/abstract elements with a matching constant
tuple does not raise a `TypeError` — it unpacks the composite,
full-raises and instantiates each element, and packs the results.  The
`raise TypeError(pv)` branch of the source concerns only pv objects that
are not legal partial-value shapes at all. -/
theorem instantiate_const_composite (fuel : Nat) (ts : TraceSt) (tid : Nat)
    (ps : List PV) (cs : List Val) (rcp : Recipe)
    (hget : ts.arena.get? tid = some ⟨.jtt ps, .tup cs, rcp⟩)
    (hlen : ps.length = cs.length)
    (hflat : ∀ p ∈ ps, p = .known ∨ ∃ a, p = .aval a) :
    ∃ pr, instantiate_const (fuel + 2) ts tid = .ok pr := by
  rw [show fuel + 2 = (fuel + 1) + 1 from rfl, instantiate_const]
  simp only [hget]
  rw [unpack]
  simp only [hget, if_pos hlen]
  rw [exc_bind_ok]
  have hflatz : ∀ q ∈ ps.zip cs, q.1 = PV.known ∨ ∃ a, q.1 = PV.aval a :=
    fun q hq => hflat q.1 (List.of_mem_zip hq).1
  obtain ⟨d, hd, hgood⟩ := unpackChildren_good (ps.zip cs)
    ⟨[tid], ps.length, identity_p, true⟩ ts.keyCtr 0 { ts with keyCtr := ts.keyCtr + 1 }
    hflatz
  obtain ⟨ids, ts', hlist, d', hd', hvalid⟩ := instantiateList_good _ fuel _ hgood
  rw [hlist, exc_bind_ok]
  obtain ⟨rs, hrs⟩ := mapM_get?_valid ids ts'.arena hvalid
  rw [trace_pack, hrs]
  exact ⟨_, rfl⟩

/-- Witness for C8 (amended): a two-element composite of known constants
is instantiated successfully. -/
theorem instantiate_const_composite_witness :
    ∃ pr, instantiate_const (0 + 2) ⟨[⟨.jtt [.known, .known],
        .tup [.arr [] 0 [1], .arr [] 0 [2]], .unitR⟩], 0⟩ 0 = .ok pr :=
  instantiate_const_composite 0 _ 0 [.known, .known] [.arr [] 0 [1], .arr [] 0 [2]]
    .unitR rfl rfl
    (by
      intro p hp
      rcases List.mem_cons.mp hp with rfl | hp
      · exact Or.inl rfl
      · rcases List.mem_cons.mp hp with rfl | hp
        · exact Or.inl rfl
        · cases hp)

/-- Counterexample for C8: `instantiate_const` applied to a tracer whose
partial value is a composite (`JaxprTracerTuple`) does not raise a
`TypeError` — it returns the packed elementwise instantiation. -/
theorem instantiate_const_composite_cex :
    instantiate_const 2 ⟨[⟨.jtt [.known, .known],
        .tup [.arr [] 0 [1], .arr [] 0 [2]], .unitR⟩], 0⟩ 0
      ≠ .error .typeError := by
  simp [instantiate_const, instantiateList, unpack, unpackChildren, full_raise,
    alloc, trace_pack, pack_pvals, allAVals?, new_const_rec,
    new_instantiated_const_rec, get_aval, unitVal,
    exc_bind_ok, exc_bind_err, List.mapM.loop]

end PE

namespace PE

theorem lookupVar_setVar_self (s : TJState) (t : Nat) (v : Var) :
    lookupVar (setVar s t v) t = some v := by
  unfold lookupVar setVar
  rw [List.find?_cons_of_pos _ (by simp)]
  rfl

theorem lookupVar_setVar_ne (s : TJState) (t j : Nat) (v : Var) (h : j ≠ t) :
    lookupVar (setVar s t v) j = lookupVar s j := by
  unfold lookupVar setVar
  rw [List.find?_cons_of_neg _ (by simpa using fun he => (h he.symm).elim)]

theorem lookupVar_setVar_inv {s : TJState} {t j : Nat} {v w : Var}
    (h : lookupVar (setVar s t v) j = some w) :
    (j = t ∧ w = v) ∨ lookupVar s j = some w := by
  by_cases hjt : j = t
  · subst hjt
    rw [lookupVar_setVar_self] at h
    exact Or.inl ⟨rfl, (Option.some.inj h).symm⟩
  · rw [lookupVar_setVar_ne _ _ _ _ hjt] at h
    exact Or.inr h

theorem getVar_fields (s : TJState) (i : Nat) :
    (getVar s i).2.eqns = s.eqns ∧ (getVar s i).2.consts = s.consts ∧
      (getVar s i).2.env = s.env ∧ (getVar s i).2.dvars = s.dvars := by
  unfold getVar
  cases h : lookupVar s i <;> simp

theorem lookupVar_getVar_self (s : TJState) (i : Nat) :
    lookupVar (getVar s i).2 i = some (getVar s i).1 := by
  unfold getVar
  cases h : lookupVar s i with
  | some v => simpa using h
  | none =>
    simp only
    unfold lookupVar
    rw [List.find?_cons_of_pos _ (by simp)]
    rfl

theorem lookupVar_getVar_stable {s : TJState} {j : Nat} {v : Var}
    (h : lookupVar s j = some v) (i : Nat) :
    lookupVar (getVar s i).2 j = some v := by
  unfold getVar
  cases hi : lookupVar s i with
  | some w => simpa using h
  | none =>
    have hij : i ≠ j := fun he => by rw [he, h] at hi; cases hi
    simp only
    unfold lookupVar
    rw [List.find?_cons_of_neg _ (by simpa using hij)]
    exact h

theorem lookupVar_getVar_inv {s : TJState} {i j : Nat} {v : Var}
    (h : lookupVar (getVar s i).2 j = some v) :
    lookupVar s j = some v ∨ (j = i ∧ lookupVar s i = none ∧ v = .v s.counter) := by
  unfold getVar at h
  cases hi : lookupVar s i with
  | some w => rw [hi] at h; exact Or.inl h
  | none =>
    rw [hi] at h
    simp only at h
    by_cases hji : j = i
    · unfold lookupVar at h
      rw [List.find?_cons_of_pos _ (by simpa using hji.symm)] at h
      refine Or.inr ⟨hji, rfl, ?_⟩
      exact (Option.some.inj h).symm
    · unfold lookupVar at h
      rw [List.find?_cons_of_neg _ (by simpa using fun he => hji he.symm)] at h
      exact Or.inl h

theorem getVars_fields : ∀ (ids : List Nat) (s : TJState),
    (getVars s ids).2.eqns = s.eqns ∧ (getVars s ids).2.consts = s.consts ∧
      (getVars s ids).2.env = s.env ∧ (getVars s ids).2.dvars = s.dvars := by
  intro ids
  induction ids with
  | nil => intro s; exact ⟨rfl, rfl, rfl, rfl⟩
  | cons i is ih =>
    intro s
    rw [getVars]
    obtain ⟨h1, h2, h3, h4⟩ := ih (getVar s i).2
    obtain ⟨g1, g2, g3, g4⟩ := getVar_fields s i
    exact ⟨h1.trans g1, h2.trans g2, h3.trans g3, h4.trans g4⟩

theorem getVars_sourced : ∀ (ids : List Nat) (s : TJState),
    (∀ i ∈ ids, ∃ v, lookupVar s i = some v) →
    (getVars s ids).2 = s ∧
      ∀ w ∈ (getVars s ids).1, ∃ i ∈ ids, lookupVar s i = some w := by
  intro ids
  induction ids with
  | nil => intro s _; exact ⟨rfl, by simp [getVars]⟩
  | cons i is ih =>
    intro s hall
    obtain ⟨v, hv⟩ := hall i (List.mem_cons_self _ _)
    have hgi : getVar s i = (v, s) := by
      unfold getVar
      rw [hv]
    rw [getVars, hgi]
    obtain ⟨hst, hsrc⟩ := ih s (fun j hj => hall j (List.mem_cons_of_mem _ hj))
    simp only [hst]
    refine ⟨trivial, ?_⟩
    intro w hw
    rcases List.mem_cons.mp hw with rfl | hw
    · exact ⟨i, List.mem_cons_self _ _, hv⟩
    · obtain ⟨j, hj, hlj⟩ := hsrc w hw
      exact ⟨j, List.mem_cons_of_mem _ hj, hlj⟩

theorem sbound_mono {invars0 : List Var} {s s' : TJState} {v : Var}
    (hc : s'.consts = s.consts ∨ ∃ d, s'.consts = s.consts ++ d)
    (he : s'.env = s.env ∨ ∃ d, s'.env = s.env ++ d)
    (hq : s'.eqns = s.eqns ∨ ∃ d, s'.eqns = s.eqns ++ d)
    (h : SBound invars0 s v) : SBound invars0 s' v := by
  rcases h with h | h | h | ⟨eqn, heq, hv⟩ | h
  · exact Or.inl h
  · refine Or.inr (Or.inl ?_)
    rcases hc with hc | ⟨d, hc⟩ <;> rw [hc]
    · exact h
    · rw [List.map_append]; exact List.mem_append_left _ h
  · refine Or.inr (Or.inr (Or.inl ?_))
    rcases he with he | ⟨d, he⟩ <;> rw [he]
    · exact h
    · rw [List.map_append]; exact List.mem_append_left _ h
  · refine Or.inr (Or.inr (Or.inr (Or.inl ⟨eqn, ?_, hv⟩)))
    rcases hq with hq | ⟨d, hq⟩ <;> rw [hq]
    · exact heq
    · exact List.mem_append_left _ heq
  · exact Or.inr (Or.inr (Or.inr (Or.inr h)))

theorem parentsOf_eqn {st : Arena} {t : Nat} {r : TRec} {e : EqnRec}
    (hget : st.get? t = some r) (hrec : r.recipe = .eqnR e) :
    parentsOf st t = e.invars := by
  unfold parentsOf
  rw [hget]
  simp [hrec]

theorem parentsOf_destr {st : Arena} {t : Nat} {r : TRec} {i : Nat} {e : EqnRec}
    {k : Nat} (hget : st.get? t = some r) (hrec : r.recipe = .destructuringR i e k) :
    parentsOf st t = e.invars := by
  unfold parentsOf
  rw [hget]
  simp [hrec]

end PE

namespace PE

theorem lget_some_lt {α : Type} {l : List α} {i : Nat} {a : α}
    (h : l.get? i = some a) : i < l.length := by
  obtain ⟨h1, -⟩ := List.get?_eq_some.mp h
  exact h1

theorem lget_append_left {α : Type} {l : List α} {i : Nat} {a : α}
    (h : l.get? i = some a) (d : List α) : (l ++ d).get? i = some a := by
  rw [List.get?_append (lget_some_lt h)]
  exact h

theorem lmem_get {α : Type} {l : List α} {a : α} (h : a ∈ l) :
    ∃ i, l.get? i = some a := by
  obtain ⟨⟨i, hi⟩, rfl⟩ := List.mem_iff_get.mp h
  exact ⟨i, List.get?_eq_get hi⟩

theorem lookupVar_varmap {s s' : TJState} (h : s.varmap = s'.varmap) (i : Nat) :
    lookupVar s i = lookupVar s' i := by
  unfold lookupVar
  rw [h]

theorem lookupVar_getVars_stable : ∀ (ids : List Nat) {s : TJState} {j : Nat}
    {v : Var}, lookupVar s j = some v → lookupVar (getVars s ids).2 j = some v := by
  intro ids
  induction ids with
  | nil => intro s j v h; exact h
  | cons i is ih =>
    intro s j v h
    rw [getVars]
    exact ih (lookupVar_getVar_stable h i)

theorem lookupVar_getVars_inv : ∀ (ids : List Nat) {s : TJState} {j : Nat}
    {v : Var}, lookupVar (getVars s ids).2 j = some v →
    lookupVar s j = some v ∨ j ∈ ids := by
  intro ids
  induction ids with
  | nil => intro s j v h; exact Or.inl h
  | cons i is ih =>
    intro s j v h
    rw [getVars] at h
    rcases ih h with h | h
    · rcases lookupVar_getVar_inv h with h | ⟨rfl, -, -⟩
      · exact Or.inl h
      · exact Or.inr (List.mem_cons_self _ _)
    · exact Or.inr (List.mem_cons_of_mem _ h)

theorem lookupVar_getVars_dom : ∀ (ids : List Nat) (s : TJState) {i : Nat},
    i ∈ ids → ∃ v, lookupVar (getVars s ids).2 i = some v := by
  intro ids
  induction ids with
  | nil => intro s i h; cases h
  | cons j js ih =>
    intro s i h
    rw [getVars]
    rcases List.mem_cons.mp h with rfl | h
    · exact ⟨_, lookupVar_getVars_stable js (lookupVar_getVar_self s i)⟩
    · exact ih _ h

theorem lookupVar_getVars_val : ∀ (ids : List Nat) {s : TJState} {j : Nat}
    {v : Var}, lookupVar (getVars s ids).2 j = some v →
    lookupVar s j = some v ∨ v ∈ (getVars s ids).1 := by
  intro ids
  induction ids with
  | nil => intro s j v h; exact Or.inl h
  | cons i is ih =>
    intro s j v h
    rw [getVars] at h
    rw [getVars]
    rcases ih h with h | h
    · rcases lookupVar_getVar_inv h with h | ⟨rfl, hn, rfl⟩
      · exact Or.inl h
      · have hhd : (getVar s j).1 = .v s.counter := by
          unfold getVar
          rw [hn]
        exact Or.inr (hhd ▸ List.mem_cons_self _ _)
    · exact Or.inr (List.mem_cons_of_mem _ h)

end PE

namespace PE

theorem ebound_mono {invars0 : List Var} {s s1 : TJState} {q : Nat} {w : Var}
    (hc : s1.consts = s.consts ∨ ∃ d, s1.consts = s.consts ++ d)
    (he : s1.env = s.env ∨ ∃ d, s1.env = s.env ++ d)
    (hq : s1.eqns = s.eqns ∨ ∃ d, s1.eqns = s.eqns ++ d)
    (h : EBound invars0 s q w) : EBound invars0 s1 q w := by
  rcases h with h | h | h | ⟨q', eqn', hq', hg, hv⟩ | h
  · exact Or.inl h
  · refine Or.inr (Or.inl ?_)
    rcases hc with hc | ⟨d, hc⟩ <;> rw [hc]
    · exact h
    · rw [List.map_append]; exact List.mem_append_left _ h
  · refine Or.inr (Or.inr (Or.inl ?_))
    rcases he with he | ⟨d, he⟩ <;> rw [he]
    · exact h
    · rw [List.map_append]; exact List.mem_append_left _ h
  · refine Or.inr (Or.inr (Or.inr (Or.inl ⟨q', eqn', hq', ?_, hv⟩)))
    rcases hq with hq' | ⟨d, hq2⟩
    · rw [hq']; exact hg
    · rw [hq2]; exact lget_append_left hg d
  · exact Or.inr (Or.inr (Or.inr (Or.inr h)))

theorem sbound_to_ebound {invars0 : List Var} {s : TJState} {w : Var} {q : Nat}
    (hlen : s.eqns.length ≤ q) (h : SBound invars0 s w) : EBound invars0 s q w := by
  rcases h with h | h | h | ⟨eqn, heq, hv⟩ | h
  · exact Or.inl h
  · exact Or.inr (Or.inl h)
  · exact Or.inr (Or.inr (Or.inl h))
  · obtain ⟨q', hg⟩ := lmem_get heq
    exact Or.inr (Or.inr (Or.inr (Or.inl
      ⟨q', eqn, lt_of_lt_of_le (lget_some_lt hg) hlen, hg, hv⟩)))
  · exact Or.inr (Or.inr (Or.inr (Or.inr h)))

theorem tjStep_eqn_eq {st : Arena} (it : List Nat) (s : TJState) {t : Nat}
    {r : TRec} {e : EqnRec} (hget : st.get? t = some r)
    (hrec : r.recipe = .eqnR e) :
    tjStep st it s t = .ok { (getVars (getVar s t).2 e.invars).2 with
      eqns := (getVars (getVar s t).2 e.invars).2.eqns ++
        [⟨(getVars (getVar s t).2 e.invars).1, [(getVar s t).1],
          e.prim, e.destructure⟩] } := by
  unfold tjStep
  rw [hget]
  dsimp only
  rw [hrec]

theorem tjStep_lambda_eq {st : Arena} (it : List Nat) (s : TJState) {t : Nat}
    {r : TRec} (hget : st.get? t = some r)
    (hrec : r.recipe = .lambdaBinding) :
    tjStep st it s t = if it.isEmpty then .error .assertionError else .ok s := by
  unfold tjStep
  rw [hget]
  dsimp only
  rw [hrec]

theorem tjStep_free_eq {st : Arena} (it : List Nat) (s : TJState) {t : Nat}
    {r : TRec} {val : Val} (hget : st.get? t = some r)
    (hrec : r.recipe = .freeVar val) :
    tjStep st it s t = .ok { (getVar s t).2 with
      env := (getVar s t).2.env ++ [((getVar s t).1, val)] } := by
  unfold tjStep
  rw [hget]
  dsimp only
  rw [hrec]

theorem tjStep_const_eq {st : Arena} (it : List Nat) (s : TJState) {t : Nat}
    {r : TRec} {val : Val} (hget : st.get? t = some r)
    (hrec : r.recipe = .constVar val) :
    tjStep st it s t = .ok { (getVar s t).2 with
      consts := (getVar s t).2.consts ++ [((getVar s t).1, val)] } := by
  unfold tjStep
  rw [hget]
  dsimp only
  rw [hrec]

theorem tjStep_unit_eq {st : Arena} (it : List Nat) (s : TJState) {t : Nat}
    {r : TRec} (hget : st.get? t = some r) (hrec : r.recipe = .unitR) :
    tjStep st it s t = .ok (setVar s t .unitvar) := by
  unfold tjStep
  rw [hget]
  dsimp only
  rw [hrec]

theorem tjStep_destr_eq {st : Arena} (it : List Nat) (s : TJState) {t : Nat}
    {r : TRec} {i : Nat} {e : EqnRec} {key : Nat} (hget : st.get? t = some r)
    (hrec : r.recipe = .destructuringR i e key) :
    tjStep st it s t =
      match s.dvars.find? fun q => q.1 = key with
      | none =>
          match (freshVars s e.nouts).1.get? i with
          | some vi => .ok (setVar
              { (getVars (freshVars s e.nouts).2 e.invars).2 with
                eqns := (getVars (freshVars s e.nouts).2 e.invars).2.eqns ++
                  [⟨(getVars (freshVars s e.nouts).2 e.invars).1,
                    (freshVars s e.nouts).1, e.prim, e.destructure⟩],
                dvars := (getVars (freshVars s e.nouts).2 e.invars).2.dvars ++
                  [(key, (freshVars s e.nouts).1)] } t vi)
          | none => .error .assertionError
      | some q =>
          match q.2.get? i with
          | some vi => .ok (setVar s t vi)
          | none => .error .assertionError := by
  unfold tjStep
  rw [hget]
  dsimp only
  rw [hrec]

end PE

namespace PE

theorem lget_concat {α : Type} (l : List α) (x : α) :
    (l ++ [x]).get? l.length = some x := by
  rw [List.get?_eq_getElem?]
  exact List.getElem?_concat_length l x

/-- Abstract successor-state conditions under which processing tracer `t`
preserves the `tracers_to_jaxpr` invariant. -/
theorem S3_step_abs {st : Arena} {it : List Nat} {invars0 : List Var}
    {P : List Nat} {s s1 : TJState} {t : Nat} (vt : Var)
    (hS : S3 st it invars0 P s)
    (hfwd : ∀ j w, lookupVar s1 j = some w →
      lookupVar s j = some w ∨ (j = t ∧ w = vt))
    (hbwd : ∀ j w, lookupVar s j = some w → j ≠ t → lookupVar s1 j = some w)
    (ht : lookupVar s1 t = some vt)
    (hc : s1.consts = s.consts ∨ ∃ d, s1.consts = s.consts ++ d)
    (he : s1.env = s.env ∨ ∃ d, s1.env = s.env ++ d)
    (hq : s1.eqns = s.eqns ∨ ∃ d, s1.eqns = s.eqns ++ d)
    (hvt : SBound invars0 s1 vt)
    (hdl : ∀ kv ∈ s1.dvars, ∃ eqn ∈ s1.eqns, kv.2 = eqn.outvars)
    (heb : ∀ q eqn, s1.eqns.get? q = some eqn → ∀ v ∈ eqn.invars,
      EBound invars0 s1 q v) :
    S3 st it invars0 (P ++ [t]) s1 := by
  refine ⟨?_, ?_, ?_, hdl, heb⟩
  · intro i hi
    by_cases hit : i = t
    · exact ⟨vt, hit ▸ ht⟩
    · have hi' : i ∈ it ∨ i ∈ P := by
        rcases hi with hi | hi
        · exact Or.inl hi
        · rcases List.mem_append.mp hi with hi | hi
          · exact Or.inr hi
          · exact absurd (List.mem_singleton.mp hi) hit
      obtain ⟨v, hv⟩ := hS.dom i hi'
      exact ⟨v, hbwd i v hv hit⟩
  · intro i v hv
    rcases hfwd i v hv with hv | ⟨rfl, -⟩
    · rcases hS.dom_inv i v hv with h | h
      · exact Or.inl h
      · exact Or.inr (List.mem_append_left _ h)
    · exact Or.inr (List.mem_append_right _ (List.mem_singleton.mpr rfl))
  · intro i v hv
    rcases hfwd i v hv with hv | ⟨-, rfl⟩
    · exact sbound_mono hc he hq (hS.bound_all i v hv)
    · exact hvt

/-- Processing a `LambdaBinding` tracer leaves the state unchanged. -/
theorem tjStep_S3_lambda {st : Arena} {it : List Nat} {invars0 : List Var}
    {P : List Nat} {s s1 : TJState} {t : Nat} {r : TRec}
    (hwf : ArenaWF st it) (hget : st.get? t = some r)
    (hrec : r.recipe = .lambdaBinding)
    (hS : S3 st it invars0 P s)
    (hstep : tjStep st it s t = .ok s1) :
    S3 st it invars0 (P ++ [t]) s1 := by
  rw [tjStep_lambda_eq it s hget hrec] at hstep
  cases hie : it.isEmpty with
  | true => rw [hie] at hstep; cases hstep
  | false =>
    rw [hie] at hstep
    obtain rfl := Except.ok.inj hstep
    have htm : t ∈ it := hwf.lambda_in t r hget hrec
    refine ⟨?_, ?_, ?_, hS.dvars_link, hS.eqn_bound⟩
    · intro i hi
      by_cases hit : i = t
      · exact hS.dom i (Or.inl (hit ▸ htm))
      · refine hS.dom i ?_
        rcases hi with hi | hi
        · exact Or.inl hi
        · rcases List.mem_append.mp hi with hi | hi
          · exact Or.inr hi
          · exact absurd (List.mem_singleton.mp hi) hit
    · intro i v hv
      rcases hS.dom_inv i v hv with h | h
      · exact Or.inl h
      · exact Or.inr (List.mem_append_left _ h)
    · exact hS.bound_all

end PE

namespace PE

/-- Processing an equation-recipe tracer emits one equation whose inputs
are variables of already-processed parents. -/
theorem tjStep_S3_eqn {st : Arena} {it : List Nat} {invars0 : List Var}
    {P : List Nat} {s s1 : TJState} {t : Nat} {r : TRec} {e : EqnRec}
    (hwf : ArenaWF st it) (hget : st.get? t = some r)
    (hrec : r.recipe = .eqnR e)
    (hpar : ∀ p ∈ parentsOf st t, p ∈ P)
    (hS : S3 st it invars0 P s)
    (hstep : tjStep st it s t = .ok s1) :
    S3 st it invars0 (P ++ [t]) s1 := by
  rw [tjStep_eqn_eq it s hget hrec] at hstep
  have hM := Except.ok.inj hstep
  have hpar' : ∀ p ∈ e.invars, p ∈ P := by
    rw [parentsOf_eqn hget hrec] at hpar
    exact hpar
  have hplt : ∀ p ∈ e.invars, p < t := fun p hp =>
    hwf.parents_lt t p (by rw [parentsOf_eqn hget hrec]; exact hp)
  have hall : ∀ p ∈ e.invars, ∃ v, lookupVar (getVar s t).2 p = some v := by
    intro p hp
    obtain ⟨v, hv⟩ := hS.dom p (Or.inr (hpar' p hp))
    exact ⟨v, lookupVar_getVar_stable hv t⟩
  obtain ⟨hst2, hsrc⟩ := getVars_sourced e.invars (getVar s t).2 hall
  have hlk : ∀ j, lookupVar s1 j = lookupVar (getVar s t).2 j := by
    intro j
    rw [← hM]
    exact lookupVar_varmap (by rw [hst2]) j
  have hceq : s1.consts = s.consts := by
    rw [← hM]
    show (getVars (getVar s t).2 e.invars).2.consts = s.consts
    rw [hst2]
    exact (getVar_fields s t).2.1
  have henv : s1.env = s.env := by
    rw [← hM]
    show (getVars (getVar s t).2 e.invars).2.env = s.env
    rw [hst2]
    exact (getVar_fields s t).2.2.1
  have hdveq : s1.dvars = s.dvars := by
    rw [← hM]
    show (getVars (getVar s t).2 e.invars).2.dvars = s.dvars
    rw [hst2]
    exact (getVar_fields s t).2.2.2
  have hqeq : s1.eqns = s.eqns ++
      [⟨(getVars (getVar s t).2 e.invars).1, [(getVar s t).1],
        e.prim, e.destructure⟩] := by
    rw [← hM]
    show (getVars (getVar s t).2 e.invars).2.eqns ++
        [⟨(getVars (getVar s t).2 e.invars).1, [(getVar s t).1],
          e.prim, e.destructure⟩] =
      s.eqns ++
        [⟨(getVars (getVar s t).2 e.invars).1, [(getVar s t).1],
          e.prim, e.destructure⟩]
    rw [hst2, (getVar_fields s t).1]
  refine S3_step_abs (getVar s t).1 hS ?_ ?_ ?_ (Or.inl hceq) (Or.inl henv)
    (Or.inr ⟨_, hqeq⟩) ?_ ?_ ?_
  · intro j w hjw
    rw [hlk j] at hjw
    rcases lookupVar_getVar_inv hjw with h | ⟨heq, hn, hw⟩
    · exact Or.inl h
    · refine Or.inr ⟨heq, ?_⟩
      have hfr : (getVar s t).1 = Var.v s.counter := by
        unfold getVar
        rw [hn]
      rw [hw, hfr]
  · intro j w hjw _
    rw [hlk j]
    exact lookupVar_getVar_stable hjw t
  · rw [hlk t]
    exact lookupVar_getVar_self s t
  · refine Or.inr (Or.inr (Or.inr (Or.inl
      ⟨⟨(getVars (getVar s t).2 e.invars).1, [(getVar s t).1],
        e.prim, e.destructure⟩, ?_, ?_⟩)))
    · rw [hqeq]
      exact List.mem_append_right _ (List.mem_singleton.mpr rfl)
    · exact List.mem_singleton.mpr rfl
  · intro kv hkv
    rw [hdveq] at hkv
    obtain ⟨eqn, heqn, hkv2⟩ := hS.dvars_link kv hkv
    exact ⟨eqn, by rw [hqeq]; exact List.mem_append_left _ heqn, hkv2⟩
  · intro q eqn hgq v hv
    rw [hqeq] at hgq
    rcases Nat.lt_or_ge q s.eqns.length with hlt | hge
    · rw [List.get?_append hlt] at hgq
      exact ebound_mono (Or.inl hceq) (Or.inl henv) (Or.inr ⟨_, hqeq⟩)
        (hS.eqn_bound q eqn hgq v hv)
    · have hqlen : q = s.eqns.length := by
        have h2 := lget_some_lt hgq
        rw [List.length_append, List.length_singleton] at h2
        omega
      subst hqlen
      rw [lget_concat] at hgq
      obtain rfl := Option.some.inj hgq
      have hv' : v ∈ (getVars (getVar s t).2 e.invars).1 := hv
      obtain ⟨i, hiP, hlkp⟩ := hsrc v hv'
      rcases lookupVar_getVar_inv hlkp with h | ⟨heq, -, -⟩
      · exact ebound_mono (Or.inl hceq) (Or.inl henv) (Or.inr ⟨_, hqeq⟩)
          (sbound_to_ebound (le_refl _) (hS.bound_all i v h))
      · exact absurd heq (Nat.ne_of_lt (hplt i hiP))

end PE

namespace PE

/-- Processing a `FreeVar` tracer adds one environment binding. -/
theorem tjStep_S3_free {st : Arena} {it : List Nat} {invars0 : List Var}
    {P : List Nat} {s s1 : TJState} {t : Nat} {r : TRec} {val : Val}
    (hget : st.get? t = some r) (hrec : r.recipe = .freeVar val)
    (hS : S3 st it invars0 P s)
    (hstep : tjStep st it s t = .ok s1) :
    S3 st it invars0 (P ++ [t]) s1 := by
  rw [tjStep_free_eq it s hget hrec] at hstep
  have hM := Except.ok.inj hstep
  have hlk : ∀ j, lookupVar s1 j = lookupVar (getVar s t).2 j := by
    intro j
    rw [← hM]
    exact lookupVar_varmap rfl j
  have hceq : s1.consts = s.consts := by
    rw [← hM]
    show (getVar s t).2.consts = s.consts
    exact (getVar_fields s t).2.1
  have henv : s1.env = s.env ++ [((getVar s t).1, val)] := by
    rw [← hM]
    show (getVar s t).2.env ++ [((getVar s t).1, val)] =
      s.env ++ [((getVar s t).1, val)]
    rw [(getVar_fields s t).2.2.1]
  have hqeq : s1.eqns = s.eqns := by
    rw [← hM]
    show (getVar s t).2.eqns = s.eqns
    exact (getVar_fields s t).1
  have hdveq : s1.dvars = s.dvars := by
    rw [← hM]
    show (getVar s t).2.dvars = s.dvars
    exact (getVar_fields s t).2.2.2
  refine S3_step_abs (getVar s t).1 hS ?_ ?_ ?_ (Or.inl hceq) (Or.inr ⟨_, henv⟩)
    (Or.inl hqeq) ?_ ?_ ?_
  · intro j w hjw
    rw [hlk j] at hjw
    rcases lookupVar_getVar_inv hjw with h | ⟨heq, hn, hw⟩
    · exact Or.inl h
    · refine Or.inr ⟨heq, ?_⟩
      have hfr : (getVar s t).1 = Var.v s.counter := by
        unfold getVar
        rw [hn]
      rw [hw, hfr]
  · intro j w hjw _
    rw [hlk j]
    exact lookupVar_getVar_stable hjw t
  · rw [hlk t]
    exact lookupVar_getVar_self s t
  · refine Or.inr (Or.inr (Or.inl ?_))
    rw [henv, List.map_append]
    exact List.mem_append_right _ (List.mem_singleton.mpr rfl)
  · intro kv hkv
    rw [hdveq] at hkv
    obtain ⟨eqn, heqn, hkv2⟩ := hS.dvars_link kv hkv
    exact ⟨eqn, by rw [hqeq]; exact heqn, hkv2⟩
  · intro q eqn hgq v hv
    rw [hqeq] at hgq
    exact ebound_mono (Or.inl hceq) (Or.inr ⟨_, henv⟩) (Or.inl hqeq)
      (hS.eqn_bound q eqn hgq v hv)

/-- Processing a `ConstVar` tracer adds one constant binding. -/
theorem tjStep_S3_const {st : Arena} {it : List Nat} {invars0 : List Var}
    {P : List Nat} {s s1 : TJState} {t : Nat} {r : TRec} {val : Val}
    (hget : st.get? t = some r) (hrec : r.recipe = .constVar val)
    (hS : S3 st it invars0 P s)
    (hstep : tjStep st it s t = .ok s1) :
    S3 st it invars0 (P ++ [t]) s1 := by
  rw [tjStep_const_eq it s hget hrec] at hstep
  have hM := Except.ok.inj hstep
  have hlk : ∀ j, lookupVar s1 j = lookupVar (getVar s t).2 j := by
    intro j
    rw [← hM]
    exact lookupVar_varmap rfl j
  have hceq : s1.consts = s.consts ++ [((getVar s t).1, val)] := by
    rw [← hM]
    show (getVar s t).2.consts ++ [((getVar s t).1, val)] =
      s.consts ++ [((getVar s t).1, val)]
    rw [(getVar_fields s t).2.1]
  have henv : s1.env = s.env := by
    rw [← hM]
    show (getVar s t).2.env = s.env
    exact (getVar_fields s t).2.2.1
  have hqeq : s1.eqns = s.eqns := by
    rw [← hM]
    show (getVar s t).2.eqns = s.eqns
    exact (getVar_fields s t).1
  have hdveq : s1.dvars = s.dvars := by
    rw [← hM]
    show (getVar s t).2.dvars = s.dvars
    exact (getVar_fields s t).2.2.2
  refine S3_step_abs (getVar s t).1 hS ?_ ?_ ?_ (Or.inr ⟨_, hceq⟩) (Or.inl henv)
    (Or.inl hqeq) ?_ ?_ ?_
  · intro j w hjw
    rw [hlk j] at hjw
    rcases lookupVar_getVar_inv hjw with h | ⟨heq, hn, hw⟩
    · exact Or.inl h
    · refine Or.inr ⟨heq, ?_⟩
      have hfr : (getVar s t).1 = Var.v s.counter := by
        unfold getVar
        rw [hn]
      rw [hw, hfr]
  · intro j w hjw _
    rw [hlk j]
    exact lookupVar_getVar_stable hjw t
  · rw [hlk t]
    exact lookupVar_getVar_self s t
  · refine Or.inr (Or.inl ?_)
    rw [hceq, List.map_append]
    exact List.mem_append_right _ (List.mem_singleton.mpr rfl)
  · intro kv hkv
    rw [hdveq] at hkv
    obtain ⟨eqn, heqn, hkv2⟩ := hS.dvars_link kv hkv
    exact ⟨eqn, by rw [hqeq]; exact heqn, hkv2⟩
  · intro q eqn hgq v hv
    rw [hqeq] at hgq
    exact ebound_mono (Or.inr ⟨_, hceq⟩) (Or.inl henv) (Or.inl hqeq)
      (hS.eqn_bound q eqn hgq v hv)

/-- Processing a unit tracer binds it to the unit variable. -/
theorem tjStep_S3_unit {st : Arena} {it : List Nat} {invars0 : List Var}
    {P : List Nat} {s s1 : TJState} {t : Nat} {r : TRec}
    (hget : st.get? t = some r) (hrec : r.recipe = .unitR)
    (hS : S3 st it invars0 P s)
    (hstep : tjStep st it s t = .ok s1) :
    S3 st it invars0 (P ++ [t]) s1 := by
  rw [tjStep_unit_eq it s hget hrec] at hstep
  have hM := Except.ok.inj hstep
  have hceq : s1.consts = s.consts := by rw [← hM]; rfl
  have henv : s1.env = s.env := by rw [← hM]; rfl
  have hqeq : s1.eqns = s.eqns := by rw [← hM]; rfl
  have hdveq : s1.dvars = s.dvars := by rw [← hM]; rfl
  refine S3_step_abs .unitvar hS ?_ ?_ ?_ (Or.inl hceq) (Or.inl henv)
    (Or.inl hqeq) ?_ ?_ ?_
  · intro j w hjw
    rw [← hM] at hjw
    rcases lookupVar_setVar_inv hjw with ⟨heq, hw⟩ | h
    · exact Or.inr ⟨heq, hw⟩
    · exact Or.inl h
  · intro j w hjw hne
    rw [← hM, lookupVar_setVar_ne s t j _ hne]
    exact hjw
  · rw [← hM]
    exact lookupVar_setVar_self s t _
  · exact Or.inr (Or.inr (Or.inr (Or.inr rfl)))
  · intro kv hkv
    rw [hdveq] at hkv
    obtain ⟨eqn, heqn, hkv2⟩ := hS.dvars_link kv hkv
    exact ⟨eqn, by rw [hqeq]; exact heqn, hkv2⟩
  · intro q eqn hgq v hv
    rw [hqeq] at hgq
    exact ebound_mono (Or.inl hceq) (Or.inl henv) (Or.inl hqeq)
      (hS.eqn_bound q eqn hgq v hv)

end PE

namespace PE

/-- Processing a `Destructuring` tracer either reuses the shared
equation's output variables or emits the shared equation once. -/
theorem tjStep_S3_destr {st : Arena} {it : List Nat} {invars0 : List Var}
    {P : List Nat} {s s1 : TJState} {t : Nat} {r : TRec} {i : Nat}
    {e : EqnRec} {key : Nat}
    (hwf : ArenaWF st it) (hget : st.get? t = some r)
    (hrec : r.recipe = .destructuringR i e key)
    (hpar : ∀ p ∈ parentsOf st t, p ∈ P)
    (hS : S3 st it invars0 P s)
    (hstep : tjStep st it s t = .ok s1) :
    S3 st it invars0 (P ++ [t]) s1 := by
  rw [tjStep_destr_eq it s hget hrec] at hstep
  have hpar' : ∀ p ∈ e.invars, p ∈ P := by
    rw [parentsOf_destr hget hrec] at hpar
    exact hpar
  cases hfind : s.dvars.find? fun q => q.1 = key with
  | some q0 =>
    rw [hfind] at hstep
    dsimp only at hstep
    cases hvi : q0.2.get? i with
    | none => rw [hvi] at hstep; cases hstep
    | some vi =>
      rw [hvi] at hstep
      dsimp only at hstep
      have hM := Except.ok.inj hstep
      have hq0 : q0 ∈ s.dvars := List.mem_of_find?_eq_some hfind
      obtain ⟨eqn0, heqn0, hout0⟩ := hS.dvars_link q0 hq0
      have hceq : s1.consts = s.consts := by rw [← hM]; rfl
      have henv : s1.env = s.env := by rw [← hM]; rfl
      have hqeq : s1.eqns = s.eqns := by rw [← hM]; rfl
      have hdveq : s1.dvars = s.dvars := by rw [← hM]; rfl
      refine S3_step_abs vi hS ?_ ?_ ?_ (Or.inl hceq) (Or.inl henv)
        (Or.inl hqeq) ?_ ?_ ?_
      · intro j w hjw
        rw [← hM] at hjw
        rcases lookupVar_setVar_inv hjw with ⟨heq, hw⟩ | h
        · exact Or.inr ⟨heq, hw⟩
        · exact Or.inl h
      · intro j w hjw hne
        rw [← hM, lookupVar_setVar_ne s t j _ hne]
        exact hjw
      · rw [← hM]
        exact lookupVar_setVar_self s t _
      · refine Or.inr (Or.inr (Or.inr (Or.inl ⟨eqn0, ?_, ?_⟩)))
        · rw [hqeq]
          exact heqn0
        · rw [← hout0]
          exact List.get?_mem hvi
      · intro kv hkv
        rw [hdveq] at hkv
        obtain ⟨eqn, heqn, hkv2⟩ := hS.dvars_link kv hkv
        exact ⟨eqn, by rw [hqeq]; exact heqn, hkv2⟩
      · intro q eqn hgq v hv
        rw [hqeq] at hgq
        exact ebound_mono (Or.inl hceq) (Or.inl henv) (Or.inl hqeq)
          (hS.eqn_bound q eqn hgq v hv)
  | none =>
    rw [hfind] at hstep
    dsimp only at hstep
    have hlkf : ∀ j, lookupVar (freshVars s e.nouts).2 j = lookupVar s j :=
      fun j => lookupVar_varmap rfl j
    have hall : ∀ p ∈ e.invars, ∃ v,
        lookupVar (freshVars s e.nouts).2 p = some v := by
      intro p hp
      obtain ⟨v, hv⟩ := hS.dom p (Or.inr (hpar' p hp))
      exact ⟨v, by rw [hlkf p]; exact hv⟩
    obtain ⟨hst2, hsrc⟩ :=
      getVars_sourced e.invars (freshVars s e.nouts).2 hall
    cases hvi : (freshVars s e.nouts).1.get? i with
    | none => rw [hvi] at hstep; cases hstep
    | some vi =>
      rw [hvi] at hstep
      dsimp only at hstep
      have hM := Except.ok.inj hstep
      have hlk3 : ∀ j, lookupVar
          ({ (getVars (freshVars s e.nouts).2 e.invars).2 with
             eqns := (getVars (freshVars s e.nouts).2 e.invars).2.eqns ++
               [⟨(getVars (freshVars s e.nouts).2 e.invars).1,
                 (freshVars s e.nouts).1, e.prim, e.destructure⟩],
             dvars := (getVars (freshVars s e.nouts).2 e.invars).2.dvars ++
               [(key, (freshVars s e.nouts).1)] } : TJState) j =
          lookupVar s j := by
        intro j
        exact lookupVar_varmap (by rw [hst2]; rfl) j
      have hceq : s1.consts = s.consts := by
        rw [← hM]
        show (getVars (freshVars s e.nouts).2 e.invars).2.consts = s.consts
        rw [hst2]
        rfl
      have henv : s1.env = s.env := by
        rw [← hM]
        show (getVars (freshVars s e.nouts).2 e.invars).2.env = s.env
        rw [hst2]
        rfl
      have hqeq : s1.eqns = s.eqns ++
          [⟨(getVars (freshVars s e.nouts).2 e.invars).1,
            (freshVars s e.nouts).1, e.prim, e.destructure⟩] := by
        rw [← hM]
        show (getVars (freshVars s e.nouts).2 e.invars).2.eqns ++
            [⟨(getVars (freshVars s e.nouts).2 e.invars).1,
              (freshVars s e.nouts).1, e.prim, e.destructure⟩] =
          s.eqns ++
            [⟨(getVars (freshVars s e.nouts).2 e.invars).1,
              (freshVars s e.nouts).1, e.prim, e.destructure⟩]
        rw [hst2]
        rfl
      have hdveq : s1.dvars = s.dvars ++ [(key, (freshVars s e.nouts).1)] := by
        rw [← hM]
        show (getVars (freshVars s e.nouts).2 e.invars).2.dvars ++
            [(key, (freshVars s e.nouts).1)] =
          s.dvars ++ [(key, (freshVars s e.nouts).1)]
        rw [hst2]
        rfl
      refine S3_step_abs vi hS ?_ ?_ ?_ (Or.inl hceq) (Or.inl henv)
        (Or.inr ⟨_, hqeq⟩) ?_ ?_ ?_
      · intro j w hjw
        rw [← hM] at hjw
        rcases lookupVar_setVar_inv hjw with ⟨heq, hw⟩ | h
        · exact Or.inr ⟨heq, hw⟩
        · rw [hlk3 j] at h
          exact Or.inl h
      · intro j w hjw hne
        rw [← hM, lookupVar_setVar_ne _ t j _ hne, hlk3 j]
        exact hjw
      · rw [← hM]
        exact lookupVar_setVar_self _ t _
      · refine Or.inr (Or.inr (Or.inr (Or.inl
          ⟨⟨(getVars (freshVars s e.nouts).2 e.invars).1,
            (freshVars s e.nouts).1, e.prim, e.destructure⟩, ?_, ?_⟩)))
        · rw [hqeq]
          exact List.mem_append_right _ (List.mem_singleton.mpr rfl)
        · exact List.get?_mem hvi
      · intro kv hkv
        rw [hdveq] at hkv
        rcases List.mem_append.mp hkv with hkv | hkv
        · obtain ⟨eqn, heqn, hkv2⟩ := hS.dvars_link kv hkv
          exact ⟨eqn, by rw [hqeq]; exact List.mem_append_left _ heqn, hkv2⟩
        · obtain rfl := List.mem_singleton.mp hkv
          refine ⟨⟨(getVars (freshVars s e.nouts).2 e.invars).1,
            (freshVars s e.nouts).1, e.prim, e.destructure⟩, ?_, rfl⟩
          rw [hqeq]
          exact List.mem_append_right _ (List.mem_singleton.mpr rfl)
      · intro q eqn hgq v hv
        rw [hqeq] at hgq
        rcases Nat.lt_or_ge q s.eqns.length with hlt | hge
        · rw [List.get?_append hlt] at hgq
          exact ebound_mono (Or.inl hceq) (Or.inl henv) (Or.inr ⟨_, hqeq⟩)
            (hS.eqn_bound q eqn hgq v hv)
        · have hqlen : q = s.eqns.length := by
            have h2 := lget_some_lt hgq
            rw [List.length_append, List.length_singleton] at h2
            omega
          subst hqlen
          rw [lget_concat] at hgq
          obtain rfl := Option.some.inj hgq
          have hv' : v ∈ (getVars (freshVars s e.nouts).2 e.invars).1 := hv
          obtain ⟨i2, hi2, hlkp⟩ := hsrc v hv'
          rw [hlkf i2] at hlkp
          exact ebound_mono (Or.inl hceq) (Or.inl henv) (Or.inr ⟨_, hqeq⟩)
            (sbound_to_ebound (le_refl _) (hS.bound_all i2 v hlkp))

end PE

namespace PE

/-- Dispatch of one `tracers_to_jaxpr` loop step over the recipe. -/
theorem tjStep_S3 {st : Arena} {it : List Nat} {invars0 : List Var}
    {P : List Nat} {s s1 : TJState} {t : Nat}
    (hwf : ArenaWF st it)
    (hpar : ∀ p ∈ parentsOf st t, p ∈ P)
    (hS : S3 st it invars0 P s)
    (hstep : tjStep st it s t = .ok s1) :
    S3 st it invars0 (P ++ [t]) s1 := by
  cases hget : st.get? t with
  | none =>
    unfold tjStep at hstep
    rw [hget] at hstep
    dsimp only at hstep
    cases hstep
  | some r =>
    cases hrecipe : r.recipe with
    | eqnR e => exact tjStep_S3_eqn hwf hget hrecipe hpar hS hstep
    | lambdaBinding => exact tjStep_S3_lambda hwf hget hrecipe hS hstep
    | freeVar val => exact tjStep_S3_free hget hrecipe hS hstep
    | constVar val => exact tjStep_S3_const hget hrecipe hS hstep
    | destructuringR i e key =>
        exact tjStep_S3_destr hwf hget hrecipe hpar hS hstep
    | unitR => exact tjStep_S3_unit hget hrecipe hS hstep

/-- The fold invariant: processing a chain-ordered list of tracers
preserves `S3`. -/
theorem tj_fold_bound {st : Arena} {it : List Nat} {invars0 : List Var}
    (hwf : ArenaWF st it) :
    ∀ (l P : List Nat) (s : TJState),
      (∀ k t, l.get? k = some t → ∀ p ∈ parentsOf st t, p ∈ P ++ l.take k) →
      S3 st it invars0 P s →
      ∀ s2, l.foldlM (tjStep st it) s = .ok s2 →
      S3 st it invars0 (P ++ l) s2 := by
  intro l
  induction l with
  | nil =>
    intro P s _ hS s2 hf
    rw [List.foldlM_nil] at hf
    obtain rfl := Except.ok.inj hf
    rw [List.append_nil]
    exact hS
  | cons t l ih =>
    intro P s hchain hS s2 hf
    rw [List.foldlM_cons] at hf
    cases hstep : tjStep st it s t with
    | error e =>
      rw [hstep, exc_bind_err] at hf
      cases hf
    | ok s1 =>
      rw [hstep, exc_bind_ok] at hf
      have hpar : ∀ p ∈ parentsOf st t, p ∈ P := by
        intro p hp
        have h0 := hchain 0 t rfl p hp
        rw [List.take_zero, List.append_nil] at h0
        exact h0
      have hS1 := tjStep_S3 hwf hpar hS hstep
      have hchain' : ∀ k u, l.get? k = some u → ∀ p ∈ parentsOf st u,
          p ∈ (P ++ [t]) ++ l.take k := by
        intro k u hk p hp
        have h1 := hchain (k + 1) u hk p hp
        rw [List.append_assoc]
        exact h1
      have h2 := ih (P ++ [t]) s1 hchain' hS1 s2 hf
      rw [List.append_assoc] at h2
      exact h2

end PE

namespace PE

theorem contains_mem {S : List Nat} {i : Nat} : S.contains i = true ↔ i ∈ S :=
  List.elem_iff

theorem parentsOf_ge {st : Arena} {j : Nat} (h : st.length ≤ j) :
    parentsOf st j = [] := by
  unfold parentsOf
  rw [List.get?_eq_none.mpr h]

theorem reachDown_subset (st : Arena) : ∀ (n : Nat) (S : List Nat),
    ∀ i ∈ S, i ∈ reachDown st n S := by
  intro n
  induction n with
  | zero =>
    intro S i hi
    rw [reachDown]
    exact hi
  | succ n ihn =>
    intro S i hi
    rw [reachDown]
    apply ihn
    by_cases hcn : S.contains n = true
    · rw [if_pos hcn]
      exact List.mem_append_left _ hi
    · rw [if_neg hcn]
      exact hi

theorem reachDown_closed {st : Arena}
    (hwf : ∀ j, ∀ p ∈ parentsOf st j, p < j) :
    ∀ (n : Nat) (S : List Nat),
      (∀ j ∈ S, n ≤ j → ∀ p ∈ parentsOf st j, p ∈ reachDown st n S) →
      ∀ i ∈ reachDown st n S, ∀ p ∈ parentsOf st i, p ∈ reachDown st n S := by
  intro n
  induction n with
  | zero =>
    intro S H i hi p hp
    rw [reachDown] at hi ⊢
    rw [reachDown] at H
    exact H i hi (Nat.zero_le i) p hp
  | succ n ihn =>
    intro S H i hi p hp
    rw [reachDown] at H hi ⊢
    refine ihn _ ?_ i hi p hp
    intro j hj hnj q hq
    by_cases hcn : S.contains n = true
    · rw [if_pos hcn] at hj ⊢
      rcases List.mem_append.mp hj with hjS | hjpn
      · rcases Nat.lt_or_ge j (n + 1) with hlt | hge
        · have hjn : j = n := by omega
          subst hjn
          exact reachDown_subset _ _ _ q (List.mem_append_right _ hq)
        · have h1 := H j hjS hge q hq
          rw [if_pos hcn] at h1
          exact h1
      · exact absurd (hwf n j hjpn) (by omega)
    · rw [if_neg hcn] at hj ⊢
      rcases Nat.lt_or_ge j (n + 1) with hlt | hge
      · have hjn : j = n := by omega
        subst hjn
        exact absurd (contains_mem.mpr hj) hcn
      · have h1 := H j hj hge q hq
        rw [if_neg hcn] at h1
        exact h1

theorem reachDown_out_closed {st : Arena}
    (hwf : ∀ j, ∀ p ∈ parentsOf st j, p < j) (out : Nat) :
    ∀ i ∈ reachDown st st.length [out], ∀ p ∈ parentsOf st i,
      p ∈ reachDown st st.length [out] := by
  apply reachDown_closed hwf
  intro j hj hnj p hp
  rw [parentsOf_ge hnj] at hp
  cases hp

theorem pairwise_get?_mono {l : List Nat} (hp : l.Pairwise (· < ·))
    {m k : Nat} {a b : Nat} (hm : l.get? m = some a) (hk : l.get? k = some b)
    (hmk : m < k) : a < b := by
  obtain ⟨hml, hma⟩ := List.get?_eq_some.mp hm
  obtain ⟨hkl, hkb⟩ := List.get?_eq_some.mp hk
  subst hma
  subst hkb
  exact List.pairwise_iff_get.mp hp ⟨m, hml⟩ ⟨k, hkl⟩ hmk

theorem toposort_chain {st : Arena} {it : List Nat} (hwf : ArenaWF st it)
    (out : Nat) :
    ∀ k t, (toposortIds st out).get? k = some t → ∀ p ∈ parentsOf st t,
      p ∈ (toposortIds st out).take k := by
  intro k t hk p hp
  have hpw : (toposortIds st out).Pairwise (· < ·) := by
    simp only [toposortIds]
    exact List.Pairwise.filter _ (List.pairwise_lt_range _)
  have htmem : t ∈ toposortIds st out := List.get?_mem hk
  simp only [toposortIds] at htmem
  obtain ⟨htr, htc⟩ := List.mem_filter.mp htmem
  have htL : t < st.length := List.mem_range.mp htr
  have htR : t ∈ reachDown st st.length [out] := contains_mem.mp htc
  have hpR : p ∈ reachDown st st.length [out] :=
    reachDown_out_closed hwf.parents_lt out t htR p hp
  have hpt : p < t := hwf.parents_lt t p hp
  have hpmem : p ∈ toposortIds st out := by
    simp only [toposortIds]
    exact List.mem_filter.mpr
      ⟨List.mem_range.mpr (lt_trans hpt htL), contains_mem.mpr hpR⟩
  obtain ⟨m, hm⟩ := lmem_get hpmem
  rcases Nat.lt_or_ge m k with hmk | hmk
  · refine List.get?_mem (n := m) ?_
    rw [List.get?_take hmk]
    exact hm
  · exfalso
    rcases Nat.eq_or_lt_of_le hmk with heq | hlt
    · rw [← heq] at hm
      rw [hk] at hm
      obtain rfl := Option.some.inj hm
      exact lt_irrefl _ hpt
    · exact absurd (pairwise_get?_mono hpw hk hm hlt) (by omega)

theorem S3_init {st : Arena} (it : List Nat) :
    S3 st it (getVars ⟨[], 0, [], [], [], []⟩ it).1 []
      (getVars ⟨[], 0, [], [], [], []⟩ it).2 := by
  have h0 : ∀ j v, lookupVar (⟨[], 0, [], [], [], []⟩ : TJState) j = some v →
      False := by
    intro j v h
    simp [lookupVar] at h
  refine ⟨?_, ?_, ?_, ?_, ?_⟩
  · intro i hi
    rcases hi with hi | hi
    · exact lookupVar_getVars_dom it _ hi
    · cases hi
  · intro i v hv
    rcases lookupVar_getVars_inv it hv with h | h
    · exact (h0 i v h).elim
    · exact Or.inl h
  · intro i v hv
    rcases lookupVar_getVars_val it hv with h | h
    · exact (h0 i v h).elim
    · exact Or.inl h
  · intro kv hkv
    have hd : (getVars (⟨[], 0, [], [], [], []⟩ : TJState) it).2.dvars = [] :=
      (getVars_fields it _).2.2.2
    rw [hd] at hkv
    cases hkv
  · intro q eqn hg v _
    have hq : (getVars (⟨[], 0, [], [], [], []⟩ : TJState) it).2.eqns = [] :=
      (getVars_fields it _).1
    rw [hq] at hg
    exact absurd (lget_some_lt hg) (by simp)

end PE

namespace PE

/-- C3: every input variable of every equation in a program emitted by
`tracers_to_jaxpr` is a declared input variable, a free variable, a
constant variable, the output of a strictly earlier equation in the
list — or, the amendment the code requires, the unit variable standing
for a non-instantiated known operand of a pack equation (the spec's four
categories alone are refuted by `topological_validity_cex`). -/
theorem topological_validity_amended (st : Arena) (it : List Nat) (out : Nat)
    (res : Jaxpr × List Val × List Val)
    (hwf : ArenaWF st it)
    (h : tracers_to_jaxpr st it out = .ok res) :
    ∀ q eqn, res.1.eqns.get? q = some eqn → ∀ v ∈ eqn.invars,
      BoundVar res.1 q v := by
  simp only [tracers_to_jaxpr] at h
  cases hf : List.foldlM (tjStep st it)
      (getVars (⟨[], 0, [], [], [], []⟩ : TJState) it).2 (toposortIds st out) with
  | error err =>
    rw [hf, exc_bind_err] at h
    cases h
  | ok sF =>
    rw [hf, exc_bind_ok] at h
    have h3 := Except.ok.inj h
    subst h3
    intro q eqn hg v hv
    have hS0 := @S3_init st it
    have hchain : ∀ k t, (toposortIds st out).get? k = some t →
        ∀ p ∈ parentsOf st t, p ∈ ([] : List Nat) ++ (toposortIds st out).take k := by
      intro k t hk p hp
      rw [List.nil_append]
      exact toposort_chain hwf out k t hk p hp
    have hSF := tj_fold_bound hwf (toposortIds st out) [] _ hchain hS0 sF hf
    rw [List.nil_append] at hSF
    have hfe : (getVar sF out).2.eqns = sF.eqns := (getVar_fields sF out).1
    have hfc : (getVar sF out).2.consts = sF.consts := (getVar_fields sF out).2.1
    have hfv : (getVar sF out).2.env = sF.env := (getVar_fields sF out).2.2.1
    have hg2 : sF.eqns.get? q = some eqn := by
      rw [← hfe]
      exact hg
    have hEB := hSF.eqn_bound q eqn hg2 v hv
    unfold BoundVar
    rcases hEB with hb | hb | hb | ⟨q2, eqn2, hq2, hge2, hve2⟩ | hb
    · exact Or.inl hb
    · refine Or.inr (Or.inr (Or.inl ?_))
      show v ∈ ((getVar sF out).2.consts.map (·.1))
      rw [hfc]
      exact hb
    · refine Or.inr (Or.inl ?_)
      show v ∈ ((getVar sF out).2.env.map (·.1))
      rw [hfv]
      exact hb
    · refine Or.inr (Or.inr (Or.inr (Or.inl ⟨q2, eqn2, hq2, ?_, hve2⟩)))
      show (getVar sF out).2.eqns.get? q2 = some eqn2
      rw [hfe]
      exact hge2
    · exact Or.inr (Or.inr (Or.inr (Or.inr hb)))

/-- C3 counterexample: packing a lambda-bound tracer together with a
non-instantiated known constant emits a pack equation whose second input
is the unit variable, which is neither a declared input, a free
variable, a constant variable, nor an earlier equation's output — the
claim's four categories are incomplete. -/
theorem topological_validity_cex :
    ∃ res, tracers_to_jaxpr cexArena [0] 2 = .ok res ∧
      ∃ q eqn, res.1.eqns.get? q = some eqn ∧
        ∃ v ∈ eqn.invars, ¬ BoundVarStrict res.1 q v := by
  refine ⟨_, rfl, 0, _, rfl, .unitvar, by decide, ?_⟩
  intro h
  rcases h with h | h | h | ⟨q2, eqn2, hq2, -, -⟩
  · exact absurd h (by decide)
  · exact absurd h (by decide)
  · exact absurd h (by decide)
  · omega

/-- Witness for C3: the pack scenario satisfies the well-formedness
hypotheses, and every equation input of its emitted program falls in one
of the five amended categories. -/
theorem topological_validity_amended_witness :
    ArenaWF cexArena [0] ∧
    ∃ res, tracers_to_jaxpr cexArena [0] 2 = .ok res ∧
      ∀ q eqn, res.1.eqns.get? q = some eqn → ∀ v ∈ eqn.invars,
        BoundVar res.1 q v := by
  have hwf : ArenaWF cexArena [0] := by
    constructor
    · intro i p hp
      rcases Nat.lt_or_ge i 3 with hi | hi
      · interval_cases i
        · rw [show parentsOf cexArena 0 = [] from rfl] at hp
          cases hp
        · rw [show parentsOf cexArena 1 = [] from rfl] at hp
          cases hp
        · rw [show parentsOf cexArena 2 = [0, 1] from rfl] at hp
          rcases List.mem_cons.mp hp with rfl | hp
          · omega
          · obtain rfl := List.mem_singleton.mp hp
            omega
      · rw [parentsOf_ge (show cexArena.length ≤ i from hi)] at hp
        cases hp
    · intro i r hgr hrec
      rcases i with _ | _ | _ | i
      · exact List.mem_singleton.mpr rfl
      · obtain rfl := Option.some.inj hgr
        exact Recipe.noConfusion hrec
      · obtain rfl := Option.some.inj hgr
        exact Recipe.noConfusion hrec
      · exact Option.noConfusion hgr
  exact ⟨hwf, _, rfl, topological_validity_amended cexArena [0] 2 _ hwf rfl⟩

end PE

namespace PE

theorem find?_eq_some_append {α : Type} {l : List α} {pr : α → Bool} {a : α}
    (h : l.find? pr = some a) (d : List α) : (l ++ d).find? pr = some a := by
  induction l with
  | nil => cases h
  | cons x xs ih =>
    rw [List.cons_append]
    cases hx : pr x with
    | true =>
      rw [List.find?_cons_of_pos _ hx] at h ⊢
      exact h
    | false =>
      rw [List.find?_cons_of_neg _ (by simp [hx])] at h ⊢
      exact ih h

theorem find?_append_of_none {α : Type} {l : List α} {pr : α → Bool}
    (h : l.find? pr = none) (d : List α) : (l ++ d).find? pr = d.find? pr := by
  induction l with
  | nil => rfl
  | cons x xs ih =>
    rw [List.cons_append]
    cases hx : pr x with
    | true =>
      rw [List.find?_cons_of_pos _ hx] at h
      cases h
    | false =>
      rw [List.find?_cons_of_neg _ (by simp [hx])] at h ⊢
      exact ih h

theorem exc_bind_ok_inv {ε α β : Type} {x : Except ε α} {f : α → Except ε β}
    {b : β} (h : (x >>= f) = .ok b) : ∃ a, x = .ok a ∧ f a = .ok b := by
  cases x with
  | error e => rw [exc_bind_err] at h; cases h
  | ok a => rw [exc_bind_ok] at h; exact ⟨a, rfl, h⟩

/-- The effect of one `tracers_to_jaxpr` step on the equation list and
destructuring table: nothing, one fresh named equation, or one fresh
destructuring equation registered under its key. -/
theorem tjStep_shape {st : Arena} {it : List Nat} {s s1 : TJState} {t : Nat}
    (hstep : tjStep st it s t = .ok s1) :
    (s1.eqns = s.eqns ∧ s1.dvars = s.dvars) ∨
    (∃ r e vs vo, st.get? t = some r ∧ r.recipe = .eqnR e ∧
      s1.eqns = s.eqns ++ [⟨vs, vo, e.prim, e.destructure⟩] ∧
      s1.dvars = s.dvars) ∨
    (∃ r i e key vs vo, st.get? t = some r ∧
      r.recipe = .destructuringR i e key ∧
      (s.dvars.find? fun q => q.1 = key) = none ∧
      s1.eqns = s.eqns ++ [⟨vs, vo, e.prim, e.destructure⟩] ∧
      s1.dvars = s.dvars ++ [(key, vo)]) := by
  cases hget : st.get? t with
  | none =>
    unfold tjStep at hstep
    rw [hget] at hstep
    dsimp only at hstep
    cases hstep
  | some r =>
    cases hrec : r.recipe with
    | eqnR e =>
      rw [tjStep_eqn_eq it s hget hrec] at hstep
      have hM := Except.ok.inj hstep
      refine Or.inr (Or.inl ⟨r, e, (getVars (getVar s t).2 e.invars).1,
        [(getVar s t).1], rfl, hrec, ?_, ?_⟩)
      · rw [← hM]
        show (getVars (getVar s t).2 e.invars).2.eqns ++
            [⟨(getVars (getVar s t).2 e.invars).1, [(getVar s t).1],
              e.prim, e.destructure⟩] =
          s.eqns ++
            [⟨(getVars (getVar s t).2 e.invars).1, [(getVar s t).1],
              e.prim, e.destructure⟩]
        rw [(getVars_fields e.invars (getVar s t).2).1, (getVar_fields s t).1]
      · rw [← hM]
        show (getVars (getVar s t).2 e.invars).2.dvars = s.dvars
        rw [(getVars_fields e.invars (getVar s t).2).2.2.2]
        exact (getVar_fields s t).2.2.2
    | lambdaBinding =>
      rw [tjStep_lambda_eq it s hget hrec] at hstep
      cases hie : it.isEmpty with
      | true => rw [hie] at hstep; cases hstep
      | false =>
        rw [hie] at hstep
        obtain rfl := Except.ok.inj hstep
        exact Or.inl ⟨rfl, rfl⟩
    | freeVar val =>
      rw [tjStep_free_eq it s hget hrec] at hstep
      have hM := Except.ok.inj hstep
      refine Or.inl ⟨?_, ?_⟩
      · rw [← hM]
        show (getVar s t).2.eqns = s.eqns
        exact (getVar_fields s t).1
      · rw [← hM]
        show (getVar s t).2.dvars = s.dvars
        exact (getVar_fields s t).2.2.2
    | constVar val =>
      rw [tjStep_const_eq it s hget hrec] at hstep
      have hM := Except.ok.inj hstep
      refine Or.inl ⟨?_, ?_⟩
      · rw [← hM]
        show (getVar s t).2.eqns = s.eqns
        exact (getVar_fields s t).1
      · rw [← hM]
        show (getVar s t).2.dvars = s.dvars
        exact (getVar_fields s t).2.2.2
    | unitR =>
      rw [tjStep_unit_eq it s hget hrec] at hstep
      have hM := Except.ok.inj hstep
      exact Or.inl ⟨by rw [← hM]; rfl, by rw [← hM]; rfl⟩
    | destructuringR i e key =>
      rw [tjStep_destr_eq it s hget hrec] at hstep
      cases hfind : s.dvars.find? fun q => q.1 = key with
      | some q0 =>
        rw [hfind] at hstep
        dsimp only at hstep
        cases hvi : q0.2.get? i with
        | none => rw [hvi] at hstep; cases hstep
        | some vi =>
          rw [hvi] at hstep
          dsimp only at hstep
          have hM := Except.ok.inj hstep
          exact Or.inl ⟨by rw [← hM]; rfl, by rw [← hM]; rfl⟩
      | none =>
        rw [hfind] at hstep
        dsimp only at hstep
        cases hvi : (freshVars s e.nouts).1.get? i with
        | none => rw [hvi] at hstep; cases hstep
        | some vi =>
          rw [hvi] at hstep
          dsimp only at hstep
          have hM := Except.ok.inj hstep
          refine Or.inr (Or.inr ⟨r, i, e, key,
            (getVars (freshVars s e.nouts).2 e.invars).1,
            (freshVars s e.nouts).1, rfl, hrec, hfind, ?_, ?_⟩)
          · rw [← hM]
            show (getVars (freshVars s e.nouts).2 e.invars).2.eqns ++
                [⟨(getVars (freshVars s e.nouts).2 e.invars).1,
                  (freshVars s e.nouts).1, e.prim, e.destructure⟩] =
              s.eqns ++
                [⟨(getVars (freshVars s e.nouts).2 e.invars).1,
                  (freshVars s e.nouts).1, e.prim, e.destructure⟩]
            rw [(getVars_fields e.invars (freshVars s e.nouts).2).1]
            rfl
          · rw [← hM]
            show (getVars (freshVars s e.nouts).2 e.invars).2.dvars ++
                [(key, (freshVars s e.nouts).1)] =
              s.dvars ++ [(key, (freshVars s e.nouts).1)]
            rw [(getVars_fields e.invars (freshVars s e.nouts).2).2.2.2]
            rfl

end PE

namespace PE

/-- One step preserves the once-per-key equation count for primitive
`p` deduplicated under key `k`. -/
theorem tjStep_cnt {st : Arena} {it : List Nat} {s s1 : TJState} {t : Nat}
    {p k : Nat}
    (hprims : ∀ t2 r, st.get? t2 = some r → ∀ e : EqnRec,
      r.recipe = .eqnR e → e.prim ≠ p)
    (hkeys : ∀ t2 r, st.get? t2 = some r → ∀ i e key,
      r.recipe = .destructuringR i e key → (e.prim = p ↔ key = k))
    (hstep : tjStep st it s t = .ok s1)
    (hcnt : s.eqns.countP (fun eq => decide (eq.prim = p)) =
      if (s.dvars.find? fun q => q.1 = k).isSome then 1 else 0) :
    s1.eqns.countP (fun eq => decide (eq.prim = p)) =
      if (s1.dvars.find? fun q => q.1 = k).isSome then 1 else 0 := by
  rcases tjStep_shape hstep with ⟨hq, hd⟩ |
    ⟨r, e, vs, vo, hget, hrec, hq, hd⟩ |
    ⟨r, i, e, key, vs, vo, hget, hrec, hfind, hq, hd⟩
  · rw [hq, hd]
    exact hcnt
  · rw [hq, hd, List.countP_append]
    have hne : e.prim ≠ p := hprims t r hget e hrec
    have hz : List.countP (fun eq : JEqn => decide (eq.prim = p))
        [⟨vs, vo, e.prim, e.destructure⟩] = 0 := by
      simp [List.countP_cons, hne]
    rw [hz, Nat.add_zero]
    exact hcnt
  · by_cases hpk : e.prim = p
    · have hkk : key = k := (hkeys t r hget i e key hrec).mp hpk
      subst hkk
      rw [hfind] at hcnt
      simp only [Option.isSome_none, Bool.false_eq_true, if_false] at hcnt
      rw [hq, hd, List.countP_append, hcnt,
        find?_append_of_none hfind, List.find?_cons_of_pos _ (by simp)]
      have ho : List.countP (fun eq : JEqn => decide (eq.prim = p))
          [⟨vs, vo, e.prim, e.destructure⟩] = 1 := by
        simp [List.countP_cons, hpk]
      rw [ho]
      rfl
    · have hkk : key ≠ k := fun hk => hpk ((hkeys t r hget i e key hrec).mpr hk)
      rw [hq, hd, List.countP_append]
      have hz : List.countP (fun eq : JEqn => decide (eq.prim = p))
          [⟨vs, vo, e.prim, e.destructure⟩] = 0 := by
        simp [List.countP_cons, hpk]
      rw [hz, Nat.add_zero]
      cases hfs : s.dvars.find? fun q => q.1 = k with
      | some a =>
        rw [find?_eq_some_append hfs]
        rw [hfs] at hcnt
        exact hcnt
      | none =>
        rw [find?_append_of_none hfs,
          List.find?_cons_of_neg _ (by simpa using hkk), List.find?_nil]
        rw [hfs] at hcnt
        exact hcnt

/-- The fold preserves the count invariant. -/
theorem fold_cnt {st : Arena} {it : List Nat} {p k : Nat}
    (hprims : ∀ t2 r, st.get? t2 = some r → ∀ e : EqnRec,
      r.recipe = .eqnR e → e.prim ≠ p)
    (hkeys : ∀ t2 r, st.get? t2 = some r → ∀ i e key,
      r.recipe = .destructuringR i e key → (e.prim = p ↔ key = k)) :
    ∀ (l : List Nat) (s : TJState),
      s.eqns.countP (fun eq => decide (eq.prim = p)) =
        (if (s.dvars.find? fun q => q.1 = k).isSome then 1 else 0) →
      ∀ s2, l.foldlM (tjStep st it) s = .ok s2 →
      s2.eqns.countP (fun eq => decide (eq.prim = p)) =
        (if (s2.dvars.find? fun q => q.1 = k).isSome then 1 else 0) := by
  intro l
  induction l with
  | nil =>
    intro s hc s2 hf
    rw [List.foldlM_nil] at hf
    obtain rfl := Except.ok.inj hf
    exact hc
  | cons t l ih =>
    intro s hc s2 hf
    rw [List.foldlM_cons] at hf
    obtain ⟨s1, hstep, hf2⟩ := exc_bind_ok_inv hf
    exact ih s1 (tjStep_cnt hprims hkeys hstep hc) s2 hf2

/-- Once a destructuring key is registered it stays registered. -/
theorem fold_key_mono {st : Arena} {it : List Nat} {k : Nat} :
    ∀ (l : List Nat) (s : TJState),
      ((s.dvars.find? fun q => q.1 = k).isSome) →
      ∀ s2, l.foldlM (tjStep st it) s = .ok s2 →
      ((s2.dvars.find? fun q => q.1 = k).isSome) := by
  intro l
  induction l with
  | nil =>
    intro s hk s2 hf
    rw [List.foldlM_nil] at hf
    obtain rfl := Except.ok.inj hf
    exact hk
  | cons t l ih =>
    intro s hk s2 hf
    rw [List.foldlM_cons] at hf
    obtain ⟨s1, hstep, hf2⟩ := exc_bind_ok_inv hf
    refine ih s1 ?_ s2 hf2
    rcases tjStep_shape hstep with ⟨-, hd⟩ | ⟨r, e, vs, vo, -, -, -, hd⟩ |
      ⟨r, i, e, key, vs, vo, -, -, -, -, hd⟩
    · rw [hd]; exact hk
    · rw [hd]; exact hk
    · rw [hd]
      cases hfs : s.dvars.find? fun q => q.1 = k with
      | some a => rw [find?_eq_some_append hfs]; rfl
      | none => rw [hfs] at hk; cases hk

/-- Processing a destructuring tracer with key `k` registers `k`. -/
theorem tjStep_key_establish {st : Arena} {it : List Nat} {s s1 : TJState}
    {t0 : Nat} {r0 : TRec} {i0 : Nat} {e0 : EqnRec} {k : Nat}
    (hget : st.get? t0 = some r0)
    (hrec : r0.recipe = .destructuringR i0 e0 k)
    (hstep : tjStep st it s t0 = .ok s1) :
    ((s1.dvars.find? fun q => q.1 = k).isSome) := by
  rw [tjStep_destr_eq it s hget hrec] at hstep
  cases hfind : s.dvars.find? fun q => q.1 = k with
  | some q0 =>
    rw [hfind] at hstep
    dsimp only at hstep
    cases hvi : q0.2.get? i0 with
    | none => rw [hvi] at hstep; cases hstep
    | some vi =>
      rw [hvi] at hstep
      dsimp only at hstep
      have hM := Except.ok.inj hstep
      have hd : s1.dvars = s.dvars := by rw [← hM]; rfl
      rw [hd, hfind]
      rfl
  | none =>
    rw [hfind] at hstep
    dsimp only at hstep
    cases hvi : (freshVars s e0.nouts).1.get? i0 with
    | none => rw [hvi] at hstep; cases hstep
    | some vi =>
      rw [hvi] at hstep
      dsimp only at hstep
      have hM := Except.ok.inj hstep
      have hd : s1.dvars = s.dvars ++ [(k, (freshVars s e0.nouts).1)] := by
        rw [← hM]
        show (getVars (freshVars s e0.nouts).2 e0.invars).2.dvars ++
            [(k, (freshVars s e0.nouts).1)] =
          s.dvars ++ [(k, (freshVars s e0.nouts).1)]
        rw [(getVars_fields e0.invars (freshVars s e0.nouts).2).2.2.2]
        rfl
      rw [hd, find?_append_of_none hfind, List.find?_cons_of_pos _ (by simp)]
      rfl

end PE

namespace PE

/-- C6: when the destructuring tracers of a multi-output operation share
one key (their shared equation being the only source of the primitive
`p`), and at least one of them is reached by the traversal,
`tracers_to_jaxpr` emits the underlying equation exactly once — the
first sibling processed registers the key in `destructuring_vars`
(lines 400-408) and every later sibling reuses the registered output
variables instead of emitting again. -/
theorem destructuring_dedup (st : Arena) (it : List Nat) (out : Nat)
    (res : Jaxpr × List Val × List Val) (p k : Nat)
    (hprims : ∀ t r, st.get? t = some r → ∀ e : EqnRec,
      r.recipe = .eqnR e → e.prim ≠ p)
    (hkeys : ∀ t r, st.get? t = some r → ∀ i e key,
      r.recipe = .destructuringR i e key → (e.prim = p ↔ key = k))
    (hreach : ∃ t0 r0 i0 e0, t0 ∈ toposortIds st out ∧
      st.get? t0 = some r0 ∧ r0.recipe = .destructuringR i0 e0 k)
    (h : tracers_to_jaxpr st it out = .ok res) :
    res.1.eqns.countP (fun eq => decide (eq.prim = p)) = 1 := by
  simp only [tracers_to_jaxpr] at h
  obtain ⟨sF, hf, h2⟩ := exc_bind_ok_inv h
  have h3 := Except.ok.inj h2
  subst h3
  have he0 : (getVars (⟨[], 0, [], [], [], []⟩ : TJState) it).2.eqns = [] :=
    (getVars_fields it _).1
  have hd0 : (getVars (⟨[], 0, [], [], [], []⟩ : TJState) it).2.dvars = [] :=
    (getVars_fields it _).2.2.2
  have hc0 : (getVars (⟨[], 0, [], [], [], []⟩ : TJState) it).2.eqns.countP
      (fun eq => decide (eq.prim = p)) =
      if ((getVars (⟨[], 0, [], [], [], []⟩ : TJState) it).2.dvars.find?
        fun q => q.1 = k).isSome then 1 else 0 := by
    rw [he0, hd0]
    rfl
  have hcF := fold_cnt hprims hkeys (toposortIds st out) _ hc0 sF hf
  obtain ⟨t0, r0, i0, e0, ht0mem, hg0, hr0⟩ := hreach
  obtain ⟨l1, l2, hsplit⟩ := List.append_of_mem ht0mem
  have hf2 := hf
  rw [hsplit, List.foldlM_append] at hf2
  obtain ⟨sA, hfA, hf3⟩ := exc_bind_ok_inv hf2
  rw [List.foldlM_cons] at hf3
  obtain ⟨sB, hfB, hf4⟩ := exc_bind_ok_inv hf3
  have hkeyB := tjStep_key_establish hg0 hr0 hfB
  have hkeyF := fold_key_mono l2 sB hkeyB sF hf4
  show ((getVar sF out).2.eqns.countP fun eq => decide (eq.prim = p)) = 1
  rw [(getVar_fields sF out).1, hcF, if_pos hkeyF]

/-- Witness for C6: both siblings of the two-output operation are
consumed, yet the finalized program holds exactly one `identity_p`
equation. -/
theorem destructuring_dedup_witness :
    (∀ t r, dedupArena.get? t = some r → ∀ e : EqnRec,
      r.recipe = .eqnR e → e.prim ≠ identity_p) ∧
    (∀ t r, dedupArena.get? t = some r → ∀ i e key,
      r.recipe = .destructuringR i e key → (e.prim = identity_p ↔ key = 0)) ∧
    ∃ res, tracers_to_jaxpr dedupArena [0] 4 = .ok res ∧
      res.1.eqns.countP (fun eq => decide (eq.prim = identity_p)) = 1 := by
  have hprims : ∀ t r, dedupArena.get? t = some r → ∀ e : EqnRec,
      r.recipe = .eqnR e → e.prim ≠ identity_p := by
    intro t r hg e hr
    rcases t with _ | _ | _ | _ | _ | t
    · obtain rfl := Option.some.inj hg
      exact Recipe.noConfusion hr
    · obtain rfl := Option.some.inj hg
      obtain rfl := Recipe.eqnR.inj hr
      decide
    · obtain rfl := Option.some.inj hg
      exact Recipe.noConfusion hr
    · obtain rfl := Option.some.inj hg
      exact Recipe.noConfusion hr
    · obtain rfl := Option.some.inj hg
      obtain rfl := Recipe.eqnR.inj hr
      decide
    · exact Option.noConfusion hg
  have hkeys : ∀ t r, dedupArena.get? t = some r → ∀ i e key,
      r.recipe = .destructuringR i e key → (e.prim = identity_p ↔ key = 0) := by
    intro t r hg i e key hr
    rcases t with _ | _ | _ | _ | _ | t
    · obtain rfl := Option.some.inj hg
      exact Recipe.noConfusion hr
    · obtain rfl := Option.some.inj hg
      exact Recipe.noConfusion hr
    · obtain rfl := Option.some.inj hg
      obtain ⟨rfl, rfl, rfl⟩ := Recipe.destructuringR.inj hr
      exact ⟨fun _ => rfl, fun _ => rfl⟩
    · obtain rfl := Option.some.inj hg
      obtain ⟨rfl, rfl, rfl⟩ := Recipe.destructuringR.inj hr
      exact ⟨fun _ => rfl, fun _ => rfl⟩
    · obtain rfl := Option.some.inj hg
      exact Recipe.noConfusion hr
    · exact Option.noConfusion hg
  refine ⟨hprims, hkeys, _, rfl,
    destructuring_dedup dedupArena [0] 4 _ identity_p 0 hprims hkeys
      ⟨2, _, 0, ⟨[1], 2, identity_p, true⟩, by decide, rfl, rfl⟩ rfl⟩

end PE

namespace PE

theorem mapM_ext_opt {α β : Type} {g h : α → Option β} :
    ∀ (l : List α), (∀ y ∈ l, g y = h y) → l.mapM g = l.mapM h := by
  intro l
  induction l with
  | nil => intro _; rfl
  | cons y ys ih =>
    intro he
    rw [List.mapM_cons, List.mapM_cons, he y (List.mem_cons_self _ _),
      ih fun z hz => he z (List.mem_cons_of_mem _ hz)]

theorem parentsOf_spec (st : Arena) (i : Nat) :
    parentsOf st i = [] ∨
    ∃ r e, st.get? i = some r ∧ parentsOf st i = e.invars ∧
      (r.recipe = .eqnR e ∨ ∃ i2 k2, r.recipe = .destructuringR i2 e k2) := by
  cases hg : st.get? i with
  | none => exact Or.inl (by unfold parentsOf; rw [hg])
  | some r =>
    cases hrec : r.recipe with
    | eqnR e => exact Or.inr ⟨r, e, rfl, parentsOf_eqn hg hrec, Or.inl hrec⟩
    | destructuringR i2 e k2 =>
      exact Or.inr ⟨r, e, rfl, parentsOf_destr hg hrec, Or.inr ⟨i2, k2, hrec⟩⟩
    | lambdaBinding =>
      refine Or.inl ?_
      unfold parentsOf
      rw [hg]
      dsimp only
      rw [hrec]
    | freeVar v =>
      refine Or.inl ?_
      unfold parentsOf
      rw [hg]
      dsimp only
      rw [hrec]
    | constVar v =>
      refine Or.inl ?_
      unfold parentsOf
      rw [hg]
      dsimp only
      rw [hrec]
    | unitR =>
      refine Or.inl ?_
      unfold parentsOf
      rw [hg]
      dsimp only
      rw [hrec]

theorem trwf_plt {st : Arena} (hT : TrWF st) :
    ∀ i, ∀ p ∈ parentsOf st i, p < i := by
  intro i p hp
  rcases parentsOf_spec st i with hnil | ⟨r, e, hg, hpe, hre⟩
  · rw [hnil] at hp
    cases hp
  · rw [hpe] at hp
    rcases hre with hre | ⟨i2, k2, hre⟩
    · exact (((hT i r hg).2.1 e hre).2 p hp).1
    · exact absurd hre ((hT i r hg).2.2.1 i2 e k2)

theorem tval_irrel {impl : PrimName → List Val → Option Val} {x : Val}
    {st : Arena} (hplt : ∀ i, ∀ p ∈ parentsOf st i, p < i) :
    ∀ i f f2, i < f → i < f2 →
      tval impl st x f i = tval impl st x f2 i := by
  intro i
  induction i using Nat.strong_induction_on with
  | _ i ih =>
    intro f f2 hf hf2
    cases f with
    | zero => omega
    | succ f =>
      cases f2 with
      | zero => omega
      | succ f2 =>
        simp only [tval]
        cases hg : st.get? i with
        | none => rfl
        | some r =>
          dsimp only
          cases hrec : r.recipe with
          | lambdaBinding => rfl
          | unitR => rfl
          | constVar v => rfl
          | freeVar v => rfl
          | destructuringR i2 e k2 => rfl
          | eqnR e =>
            dsimp only
            have hpar : ∀ p ∈ e.invars, p < i := by
              intro p hp
              refine hplt i p ?_
              rw [parentsOf_eqn hg hrec]
              exact hp
            rw [mapM_ext_opt e.invars fun p hp =>
              ih p (hpar p hp) f f2 (by have := hpar p hp; omega)
                (by have := hpar p hp; omega)]

theorem tval_ext {impl : PrimName → List Val → Option Val} {x : Val}
    {st d : Arena} (hplt : ∀ i, ∀ p ∈ parentsOf st i, p < i) :
    ∀ f i, i < st.length →
      tval impl (st ++ d) x f i = tval impl st x f i := by
  intro f
  induction f with
  | zero => intro i _; rfl
  | succ f ih =>
    intro i hi
    simp only [tval]
    rw [List.get?_append hi]
    cases hg : st.get? i with
    | none => rfl
    | some r =>
      dsimp only
      cases hrec : r.recipe with
      | lambdaBinding => rfl
      | unitR => rfl
      | constVar v => rfl
      | freeVar v => rfl
      | destructuringR i2 e k2 => rfl
      | eqnR e =>
        dsimp only
        have hpar : ∀ p ∈ e.invars, p < i := by
          intro p hp
          refine hplt i p ?_
          rw [parentsOf_eqn hg hrec]
          exact hp
        rw [mapM_ext_opt e.invars fun p hp =>
          ih p (lt_trans (hpar p hp) hi)]

theorem TrWF_snoc {st : Arena} (hT : TrWF st) (r : TRec)
    (h1 : (∃ av, r.pv = .aval av) ∨ (r.pv = .known ∧ r.recipe = .unitR))
    (h2 : ∀ e, r.recipe = .eqnR e → e.destructure = false ∧
      ∀ p ∈ e.invars, p < st.length ∧ ∃ q av, st.get? p = some q ∧
        q.pv = .aval av)
    (h3 : ∀ i2 e2 k2, ¬ r.recipe = .destructuringR i2 e2 k2)
    (h3b : ∀ v, ¬ r.recipe = .freeVar v)
    (h4 : ¬ r.recipe = .lambdaBinding)
    (h5 : r.recipe = .unitR → r.pv = .known) :
    TrWF (st ++ [r]) := by
  intro i q hq
  rcases Nat.lt_or_ge i st.length with hi | hi
  · rw [List.get?_append hi] at hq
    obtain ⟨c1, c2, c3, c3b, c4, c5⟩ := hT i q hq
    refine ⟨c1, ?_, c3, c3b, c4, c5⟩
    intro e he
    obtain ⟨hd, hps⟩ := c2 e he
    refine ⟨hd, ?_⟩
    intro p hp
    obtain ⟨hlt, q2, av, hq2, hav⟩ := hps p hp
    exact ⟨hlt, q2, av, get?_extend hq2 [r], hav⟩
  · have hieq : i = st.length := by
      have h5 := lget_some_lt hq
      rw [List.length_append, List.length_singleton] at h5
      omega
    subst hieq
    rw [lget_concat] at hq
    obtain rfl := Option.some.inj hq
    refine ⟨h1, ?_, h3, h3b, fun hl => absurd hl h4, h5⟩
    intro e he
    obtain ⟨hd, hps⟩ := h2 e he
    refine ⟨hd, ?_⟩
    intro p hp
    obtain ⟨hlt, q2, av, hq2, hav⟩ := hps p hp
    exact ⟨hlt, q2, av, get?_extend hq2 [r], hav⟩

theorem Seed_ext {a : AVal} {st : Arena} (h : Seed a st) (d : Arena) :
    Seed a (st ++ d) := get?_extend h d

theorem Seed_pos {a : AVal} {st : Arena} (h : Seed a st) : 0 < st.length :=
  lget_some_lt h

theorem DefinedAll_snoc {impl : PrimName → List Val → Option Val} {x : Val}
    {st : Arena} (hT : TrWF st) (hD : DefinedAll impl x st) (r : TRec)
    (hnew : (tval impl (st ++ [r]) x (st.length + 1) st.length).isSome) :
    DefinedAll impl x (st ++ [r]) := by
  intro t q hq
  rcases Nat.lt_or_ge t st.length with ht | ht
  · rw [List.get?_append ht] at hq
    rw [tval_ext (trwf_plt hT) (t + 1) t ht]
    exact hD t q hq
  · have hteq : t = st.length := by
      have h5 := lget_some_lt hq
      rw [List.length_append, List.length_singleton] at h5
      omega
    subst hteq
    exact hnew

end PE

namespace PE

theorem opt_bind_some_inv {α β : Type} {x : Option α} {f : α → Option β}
    {b : β} (h : (x >>= f) = some b) : ∃ a, x = some a ∧ f a = some b := by
  cases x with
  | none => exact Option.noConfusion h
  | some a => exact ⟨a, rfl, h⟩

theorem tval_lambda {impl : PrimName → List Val → Option Val} {x : Val}
    {st : Arena} {f i : Nat} {r : TRec} (hg : st.get? i = some r)
    (hr : r.recipe = .lambdaBinding) :
    tval impl st x (f + 1) i = some x := by
  simp only [tval]
  rw [hg]
  dsimp only
  rw [hr]

theorem tval_unit {impl : PrimName → List Val → Option Val} {x : Val}
    {st : Arena} {f i : Nat} {r : TRec} (hg : st.get? i = some r)
    (hr : r.recipe = .unitR) :
    tval impl st x (f + 1) i = some r.const := by
  simp only [tval]
  rw [hg]
  dsimp only
  rw [hr]

theorem tval_const {impl : PrimName → List Val → Option Val} {x : Val}
    {st : Arena} {f i : Nat} {r : TRec} {c : Val} (hg : st.get? i = some r)
    (hr : r.recipe = .constVar c) :
    tval impl st x (f + 1) i = some c := by
  simp only [tval]
  rw [hg]
  dsimp only
  rw [hr]

theorem tval_eqn {impl : PrimName → List Val → Option Val} {x : Val}
    {st : Arena} {f i : Nat} {r : TRec} {e : EqnRec} (hg : st.get? i = some r)
    (hr : r.recipe = .eqnR e) :
    tval impl st x (f + 1) i =
      (e.invars.mapM (tval impl st x f)).bind (impl e.prim) := by
  simp only [tval]
  rw [hg]
  dsimp only
  rw [hr]

/-- `instantiate_const` on an abstract tracer returns it unchanged
(lines 57-59). -/
theorem instantiate_const_aval {ts : TraceSt} {t : Nat} {r : TRec}
    {av : AVal} (fuel : Nat) (hg : ts.arena.get? t = some r)
    (hpv : r.pv = .aval av) :
    instantiate_const (fuel + 1) ts t = .ok (t, ts) := by
  rw [instantiate_const, hg]
  dsimp only
  rw [hpv]

/-- `instantiate_const` on a known tracer allocates an instantiated
constant (lines 60, 50-51). -/
theorem instantiate_const_known {ts : TraceSt} {t : Nat} {r : TRec}
    (fuel : Nat) (hg : ts.arena.get? t = some r) (hpv : r.pv = .known) :
    instantiate_const (fuel + 1) ts t = .ok (ts.arena.length,
      { ts with arena := ts.arena ++
        [⟨.aval (get_aval r.const), unitVal, .constVar r.const⟩] }) := by
  rw [instantiate_const, hg]
  dsimp only
  rw [hpv]
  dsimp only [alloc, new_instantiated_const_rec]

end PE

namespace PE

/-- Instantiating a list of abstract-or-known tracer arguments succeeds,
extends the arena with instantiated constants only, yields abstract
tracers, and preserves every argument's reference denotation. -/
theorem instantiateList_tval {impl : PrimName → List Val → Option Val}
    {x : Val} {a : AVal} :
    ∀ (ids : List Nat) (fuel : Nat) (ts : TraceSt),
      Seed a ts.arena → TrWF ts.arena → DefinedAll impl x ts.arena →
      (∀ t ∈ ids, t < ts.arena.length) →
      ∃ ids2 ts2,
        instantiateList (fuel + 1) ts (ids.map .tr) = .ok (ids2, ts2) ∧
        (∃ d, ts2.arena = ts.arena ++ d) ∧ Seed a ts2.arena ∧
        TrWF ts2.arena ∧ DefinedAll impl x ts2.arena ∧
        (∀ t2 ∈ ids2, t2 < ts2.arena.length ∧
          ∃ q av, ts2.arena.get? t2 = some q ∧ q.pv = .aval av) ∧
        (∀ t ∈ ids, ∃ t2 ∈ ids2, t ≤ t2) ∧
        (∀ f, (∀ t2 ∈ ids2, t2 < f) →
          ids2.mapM (tval impl ts2.arena x f) =
            ids.mapM (tval impl ts.arena x f)) := by
  intro ids
  induction ids with
  | nil =>
    intro fuel ts hSeed hT hD _
    refine ⟨[], ts, by rw [List.map_nil]; rw [instantiateList],
      ⟨[], (List.append_nil _).symm⟩, hSeed, hT, hD, by simp, by simp,
      fun f _ => rfl⟩
  | cons t ids ih =>
    intro fuel ts hSeed hT hD hvalid
    obtain ⟨r, hr⟩ := get?_of_lt (hvalid t (List.mem_cons_self _ _))
    have hvrest : ∀ u ∈ ids, u < ts.arena.length :=
      fun u hu => hvalid u (List.mem_cons_of_mem _ hu)
    rcases (hT t r hr).1 with ⟨av, hpv⟩ | ⟨hpv, hrec⟩
    · -- abstract argument: unchanged
      obtain ⟨ids2, ts2, heq, ⟨d, hext⟩, hSeed2, hT2, hD2, hvalid2, hdom2,
        hmap2⟩ := ih fuel ts hSeed hT hD hvrest
      refine ⟨t :: ids2, ts2, ?_, ⟨d, hext⟩, hSeed2, hT2, hD2, ?_, ?_, ?_⟩
      · rw [List.map_cons, instantiateList.eq_def]
        dsimp only [full_raise]
        rw [instantiate_const_aval fuel hr hpv, exc_bind_ok, heq, exc_bind_ok]
      · intro t2 ht2
        rcases List.mem_cons.mp ht2 with ht2eq | ht2
        · rw [ht2eq]
          constructor
          · rw [hext, List.length_append]
            have h6 := hvalid t (List.mem_cons_self _ _)
            omega
          · refine ⟨r, av, ?_, hpv⟩
            rw [hext]
            exact get?_extend hr d
        · exact hvalid2 t2 ht2
      · intro u hu
        rcases List.mem_cons.mp hu with rfl | hu
        · exact ⟨u, List.mem_cons_self _ _, le_refl u⟩
        · obtain ⟨t2, ht2, hle⟩ := hdom2 u hu
          exact ⟨t2, List.mem_cons_of_mem _ ht2, hle⟩
      · intro f hf
        rw [List.mapM_cons, List.mapM_cons]
        rw [hmap2 f fun u hu => hf u (List.mem_cons_of_mem _ hu)]
        rw [hext, tval_ext (trwf_plt hT) f t (hvalid t (List.mem_cons_self _ _))]
    · -- known argument: allocate an instantiated constant
      have hTm : TrWF (ts.arena ++
          [(⟨.aval (get_aval r.const), unitVal, .constVar r.const⟩ : TRec)]) := by
        refine TrWF_snoc hT
          ⟨.aval (get_aval r.const), unitVal, .constVar r.const⟩
          (Or.inl ⟨get_aval r.const, rfl⟩) ?_ ?_ ?_ ?_ ?_
        · intro e he; exact Recipe.noConfusion he
        · intro i2 e2 k2 he; exact Recipe.noConfusion he
        · intro v he; exact Recipe.noConfusion he
        · intro he; exact Recipe.noConfusion he
        · intro he; exact Recipe.noConfusion he
      have hgm : (ts.arena ++
          [(⟨.aval (get_aval r.const), unitVal, .constVar r.const⟩ : TRec)]).get?
            ts.arena.length =
          some (⟨.aval (get_aval r.const), unitVal, .constVar r.const⟩ : TRec) :=
        lget_concat _ _
      have hDm : DefinedAll impl x (ts.arena ++
          [(⟨.aval (get_aval r.const), unitVal, .constVar r.const⟩ : TRec)]) := by
        refine DefinedAll_snoc hT hD
          ⟨.aval (get_aval r.const), unitVal, .constVar r.const⟩ ?_
        rw [tval_const hgm rfl]
        rfl
      have hSeedm : Seed a (ts.arena ++
          [(⟨.aval (get_aval r.const), unitVal, .constVar r.const⟩ : TRec)]) :=
        Seed_ext hSeed _
      have hvrest2 : ∀ u ∈ ids, u < (ts.arena ++
          [(⟨.aval (get_aval r.const), unitVal, .constVar r.const⟩ : TRec)]).length := by
        intro u hu
        have h6 := hvrest u hu
        rw [List.length_append]
        omega
      obtain ⟨ids2, ts2, heq, ⟨d, hext⟩, hSeed2, hT2, hD2, hvalid2, hdom2,
        hmap2⟩ := ih fuel { ts with arena := ts.arena ++
            [(⟨.aval (get_aval r.const), unitVal, .constVar r.const⟩ : TRec)] }
          hSeedm hTm hDm hvrest2
      have hlenm : (ts.arena ++
          [(⟨.aval (get_aval r.const), unitVal, .constVar r.const⟩ : TRec)]).length =
          ts.arena.length + 1 := by
        rw [List.length_append, List.length_singleton]
      refine ⟨ts.arena.length :: ids2, ts2, ?_, ?_, hSeed2, hT2, hD2, ?_, ?_,
        ?_⟩
      · rw [List.map_cons, instantiateList.eq_def]
        dsimp only [full_raise]
        rw [instantiate_const_known fuel hr hpv, exc_bind_ok, heq, exc_bind_ok]
      · refine ⟨[(⟨.aval (get_aval r.const), unitVal, .constVar r.const⟩ : TRec)] ++ d, ?_⟩
        rw [hext, List.append_assoc]
      · intro t2 ht2
        rcases List.mem_cons.mp ht2 with ht2eq | ht2
        · rw [ht2eq]
          constructor
          · rw [hext, List.length_append, hlenm]
            omega
          · refine ⟨⟨.aval (get_aval r.const), unitVal, .constVar r.const⟩,
              get_aval r.const, ?_, rfl⟩
            rw [hext]
            exact get?_extend hgm d
        · exact hvalid2 t2 ht2
      · intro u hu
        rcases List.mem_cons.mp hu with rfl | hu
        · exact ⟨ts.arena.length, List.mem_cons_self _ _,
            le_of_lt (hvalid u (List.mem_cons_self _ _))⟩
        · obtain ⟨t2, ht2, hle⟩ := hdom2 u hu
          exact ⟨t2, List.mem_cons_of_mem _ ht2, hle⟩
      · intro f hf
        have hfl : ts.arena.length < f := hf _ (List.mem_cons_self _ _)
        cases f with
        | zero => omega
        | succ f =>
          rw [List.mapM_cons, List.mapM_cons]
          rw [hmap2 (f + 1) fun u hu => hf u (List.mem_cons_of_mem _ hu)]
          rw [hext, tval_ext (trwf_plt hTm) (f + 1) ts.arena.length
            (by rw [hlenm]; omega)]
          rw [tval_const hgm rfl, tval_unit hr hrec]
          dsimp only
          rw [mapM_ext_opt ids fun u hu =>
            tval_ext (trwf_plt hT) (f + 1) u (hvrest u hu)]

end PE

namespace PE

mutual

/-- Tracing a primitive-only expression extends the arena, keeps it
well-formed, and the produced tracer's reference denotation is the
direct evaluation of the expression. -/
theorem traceExpr_tval (impl : PrimName → List Val → Option Val)
    (absEval : PrimName → List AVal → Option AVal) (a : AVal) (x : Val)
    (e : Expr) :
    ∀ (ts : TraceSt) (tid : Nat) (ts2 : TraceSt),
      traceExpr absEval ts e = .ok (tid, ts2) →
      Seed a ts.arena → TrWF ts.arena → DefinedAll impl x ts.arena →
      (evalExpr impl x e).isSome →
      (∃ d, ts2.arena = ts.arena ++ d) ∧ Seed a ts2.arena ∧ TrWF ts2.arena ∧
      DefinedAll impl x ts2.arena ∧ tid < ts2.arena.length ∧
      (∀ f, tid < f → tval impl ts2.arena x f tid = evalExpr impl x e) := by
  cases e with
  | input =>
    intro ts tid ts2 hstep hSeed hT hD _
    rw [traceExpr] at hstep
    have hpair := Except.ok.inj hstep
    injection hpair with h1 h2
    subst h1
    subst h2
    refine ⟨⟨[], (List.append_nil _).symm⟩, hSeed, hT, hD, Seed_pos hSeed, ?_⟩
    intro f hf
    cases f with
    | zero => omega
    | succ f =>
      rw [tval_lambda hSeed rfl, evalExpr]
  | lit c =>
    intro ts tid ts2 hstep hSeed hT hD _
    rw [traceExpr] at hstep
    dsimp only [alloc, new_const_rec] at hstep
    have hpair := Except.ok.inj hstep
    injection hpair with h1 h2
    subst h1
    subst h2
    have hgc : (ts.arena ++ [(⟨.known, c, .unitR⟩ : TRec)]).get?
        ts.arena.length = some (⟨.known, c, .unitR⟩ : TRec) := lget_concat _ _
    have hTc : TrWF (ts.arena ++ [(⟨.known, c, .unitR⟩ : TRec)]) := by
      refine TrWF_snoc hT _ (Or.inr ⟨rfl, rfl⟩) ?_ ?_ ?_ ?_ ?_
      · intro e2 he; exact Recipe.noConfusion he
      · intro i2 e2 k2 he; exact Recipe.noConfusion he
      · intro v he; exact Recipe.noConfusion he
      · intro he; exact Recipe.noConfusion he
      · intro he; rfl
    have hDc : DefinedAll impl x (ts.arena ++ [(⟨.known, c, .unitR⟩ : TRec)]) := by
      refine DefinedAll_snoc hT hD _ ?_
      rw [tval_unit hgc rfl]
      rfl
    refine ⟨⟨[(⟨.known, c, .unitR⟩ : TRec)], rfl⟩, Seed_ext hSeed _, hTc, hDc, ?_, ?_⟩
    · show ts.arena.length < (ts.arena ++ [(⟨.known, c, .unitR⟩ : TRec)]).length
      rw [List.length_append, List.length_singleton]
      omega
    · intro f hf
      cases f with
      | zero => omega
      | succ f =>
        rw [tval_unit hgc rfl, evalExpr]
  | prim p args =>
    intro ts tid ts2 hstep hSeed hT hD hv
    rw [traceExpr] at hstep
    obtain ⟨trr, htr, hpp⟩ := exc_bind_ok_inv hstep
    rw [evalExpr] at hv
    cases hevs : evalExprs impl x args with
    | none =>
      rw [hevs] at hv
      simp at hv
    | some vs =>
      rw [hevs] at hv
      dsimp only at hv
      obtain ⟨⟨d1, hext1⟩, hSeed1, hT1, hD1, hvalid1, hmap1⟩ :=
        traceExprs_tval impl absEval a x args ts trr.1 trr.2 htr hSeed hT hD
          (by rw [hevs]; rfl)
      rw [process_primitive] at hpp
      obtain ⟨ids2ts, hil, hpp2⟩ := exc_bind_ok_inv hpp
      obtain ⟨ids2, ts4, hil2, ⟨d2, hext2⟩, hSeed4, hT4, hD4, hvalid4, hdom4,
        hmap4⟩ := @instantiateList_tval impl x a trr.1
          (arenaDepth trr.2.arena + 1) trr.2 hSeed1 hT1 hD1 hvalid1
      have hids : ids2ts = (ids2, ts4) := Except.ok.inj (hil.symm.trans hil2)
      subst hids
      dsimp only at hpp2
      cases hmg : ids2.mapM ts4.arena.get? with
      | none =>
        rw [hmg] at hpp2
        dsimp only at hpp2
        cases hpp2
      | some recs =>
        rw [hmg] at hpp2
        dsimp only at hpp2
        cases hpva : recs.mapM (fun rr => partial_val_aval rr.pv rr.const) with
        | none =>
          rw [hpva] at hpp2
          dsimp only at hpp2
          cases hpp2
        | some avals =>
          rw [hpva] at hpp2
          dsimp only at hpp2
          cases hae : absEval p avals with
          | none =>
            rw [hae] at hpp2
            dsimp only at hpp2
            cases hpp2
          | some outav =>
            rw [hae] at hpp2
            dsimp only [alloc] at hpp2
            have hpair := Except.ok.inj hpp2
            injection hpair with h1 h2
            subst h1
            subst h2
            have hbound : ∀ u ∈ trr.1, ∀ f, (∀ t2 ∈ ids2, t2 < f) → u < f := by
              intro u hu f hf
              obtain ⟨t2, ht2, hle⟩ := hdom4 u hu
              exact lt_of_le_of_lt hle (hf t2 ht2)
            have hchain : ∀ f, (∀ t2 ∈ ids2, t2 < f) →
                ids2.mapM (tval impl (ts4.arena ++
                  [(⟨.aval outav, unitVal,
                    .eqnR ⟨ids2, 0, p, false⟩⟩ : TRec)]) x f) = some vs := by
              intro f hf
              rw [mapM_ext_opt ids2 fun u hu =>
                tval_ext (trwf_plt hT4) f u (hvalid4 u hu).1]
              rw [hmap4 f hf]
              rw [hmap1 f fun u hu => hbound u hu f hf]
              exact hevs
            have hgE : (ts4.arena ++ [(⟨.aval outav, unitVal,
                .eqnR ⟨ids2, 0, p, false⟩⟩ : TRec)]).get? ts4.arena.length =
                some (⟨.aval outav, unitVal,
                  .eqnR ⟨ids2, 0, p, false⟩⟩ : TRec) := lget_concat _ _
            have hTE : TrWF (ts4.arena ++ [(⟨.aval outav, unitVal,
                .eqnR ⟨ids2, 0, p, false⟩⟩ : TRec)]) := by
              refine TrWF_snoc hT4 _ (Or.inl ⟨outav, rfl⟩) ?_ ?_ ?_ ?_ ?_
              · intro e2 he
                obtain rfl := Recipe.eqnR.inj he
                refine ⟨rfl, ?_⟩
                intro u hu
                obtain ⟨hlt, q, av, hq, hav⟩ := hvalid4 u hu
                exact ⟨hlt, q, av, hq, hav⟩
              · intro i2 e2 k2 he; exact Recipe.noConfusion he
              · intro v he; exact Recipe.noConfusion he
              · intro he; exact Recipe.noConfusion he
              · intro he; exact Recipe.noConfusion he
            have hvbE : ∀ t2 ∈ ids2, t2 < ts4.arena.length :=
              fun t2 ht2 => (hvalid4 t2 ht2).1
            have hDE : DefinedAll impl x (ts4.arena ++ [(⟨.aval outav, unitVal,
                .eqnR ⟨ids2, 0, p, false⟩⟩ : TRec)]) := by
              refine DefinedAll_snoc hT4 hD4 _ ?_
              rw [tval_eqn hgE rfl]
              dsimp only
              rw [hchain ts4.arena.length hvbE]
              show (impl p vs).isSome
              exact hv
            refine ⟨⟨d1 ++ (d2 ++ [(⟨.aval outav, unitVal,
              .eqnR ⟨ids2, 0, p, false⟩⟩ : TRec)]), ?_⟩, Seed_ext hSeed4 _,
              hTE, hDE, ?_, ?_⟩
            · show ts4.arena ++ _ = ts.arena ++ _
              rw [hext2, hext1, List.append_assoc, List.append_assoc]
            · show ts4.arena.length < (ts4.arena ++ _).length
              rw [List.length_append, List.length_singleton]
              omega
            · intro f hf
              cases f with
              | zero => omega
              | succ f =>
                rw [tval_eqn hgE rfl]
                dsimp only
                rw [hchain f fun t2 ht2 => lt_of_lt_of_le (hvbE t2 ht2)
                  (Nat.lt_succ_iff.mp hf)]
                rw [evalExpr, hevs]
                rfl

theorem traceExprs_tval (impl : PrimName → List Val → Option Val)
    (absEval : PrimName → List AVal → Option AVal) (a : AVal) (x : Val)
    (es : List Expr) :
    ∀ (ts : TraceSt) (ids : List Nat) (ts2 : TraceSt),
      traceExprs absEval ts es = .ok (ids, ts2) →
      Seed a ts.arena → TrWF ts.arena → DefinedAll impl x ts.arena →
      (evalExprs impl x es).isSome →
      (∃ d, ts2.arena = ts.arena ++ d) ∧ Seed a ts2.arena ∧ TrWF ts2.arena ∧
      DefinedAll impl x ts2.arena ∧ (∀ t ∈ ids, t < ts2.arena.length) ∧
      (∀ f, (∀ t ∈ ids, t < f) →
        ids.mapM (tval impl ts2.arena x f) = evalExprs impl x es) := by
  cases es with
  | nil =>
    intro ts ids ts2 hstep hSeed hT hD _
    rw [traceExprs] at hstep
    have hpair := Except.ok.inj hstep
    injection hpair with h1 h2
    subst h1
    subst h2
    refine ⟨⟨[], (List.append_nil _).symm⟩, hSeed, hT, hD, by simp, ?_⟩
    intro f _
    rfl
  | cons e es =>
    intro ts ids ts2 hstep hSeed hT hD hv
    rw [traceExprs] at hstep
    obtain ⟨t1, h1, hrest⟩ := exc_bind_ok_inv hstep
    obtain ⟨t2, h2, hfin⟩ := exc_bind_ok_inv hrest
    have hpair := Except.ok.inj hfin
    injection hpair with hi1 hi2
    subst hi1
    subst hi2
    rw [evalExprs] at hv
    cases hev : evalExpr impl x e with
    | none =>
      rw [hev] at hv
      simp at hv
    | some v =>
      rw [hev] at hv
      dsimp only at hv
      cases hevs : evalExprs impl x es with
      | none =>
        rw [hevs] at hv
        simp at hv
      | some vs =>
        obtain ⟨⟨d1, hext1⟩, hSeed1, hT1, hD1, hlt1, htv1⟩ :=
          traceExpr_tval impl absEval a x e ts t1.1 t1.2 h1 hSeed hT hD
            (by rw [hev]; rfl)
        obtain ⟨⟨d2, hext2⟩, hSeed2, hT2, hD2, hvalid2, hmap2⟩ :=
          traceExprs_tval impl absEval a x es t1.2 t2.1 t2.2 h2 hSeed1 hT1 hD1
            (by rw [hevs]; rfl)
        refine ⟨⟨d1 ++ d2, by rw [hext2, hext1, List.append_assoc]⟩, hSeed2,
          hT2, hD2, ?_, ?_⟩
        · intro t ht
          rcases List.mem_cons.mp ht with rfl | ht
          · rw [hext2, List.length_append]
            omega
          · exact hvalid2 t ht
        · intro f hf
          rw [List.mapM_cons]
          have hhd : tval impl t2.2.arena x f t1.1 = some v := by
            rw [hext2, tval_ext (trwf_plt hT1) f t1.1 hlt1]
            rw [htv1 f (hf _ (List.mem_cons_self _ _))]
            exact hev
          rw [hhd, hmap2 f fun u hu => hf u (List.mem_cons_of_mem _ hu), hevs]
          rw [evalExprs, hev]
          dsimp only
          rw [hevs]
          rfl

end

end PE

namespace PE

theorem envRead_head (env : List (Var × Val)) (v : Var) (c : Val) :
    envRead ((v, c) :: env) v = some c := by
  unfold envRead
  rw [List.find?_cons_of_pos _ (by simp)]
  rfl

theorem envRead_ne (env : List (Var × Val)) {v w : Var} (c : Val)
    (h : w ≠ v) : envRead ((v, c) :: env) w = envRead env w := by
  unfold envRead
  rw [List.find?_cons_of_neg _ (by simpa using fun he => h he.symm)]

theorem envRead_skip {add env : List (Var × Val)} {v : Var}
    (h : ∀ pr ∈ add, ¬ pr.1 = v) :
    envRead (add ++ env) v = envRead env v := by
  unfold envRead
  rw [find?_append_of_none (List.find?_eq_none.mpr fun pr hpr => by
    simpa using h pr hpr)]

theorem envRead_mem_nodup : ∀ {l : List (Var × Val)},
    (l.Pairwise fun p q => p.1 ≠ q.1) → ∀ {v : Var} {c : Val},
    (v, c) ∈ l → envRead l v = some c := by
  intro l
  induction l with
  | nil => intro _ v c h; cases h
  | cons p ps ih =>
    intro hnd v c hm
    obtain ⟨hp, hps⟩ := List.pairwise_cons.mp hnd
    rcases List.mem_cons.mp hm with heq | hm
    · rw [← heq]
      exact envRead_head ps v c
    · rw [envRead_ne ps p.2 (fun he => hp (v, c) hm (by rw [he]))]
      · exact ih hps hm
      
theorem envRead_rev_mem {l : List (Var × Val)}
    (hnd : l.Pairwise fun p q => p.1 ≠ q.1) {v : Var} {c : Val}
    (hm : (v, c) ∈ l) : envRead l.reverse v = some c := by
  refine envRead_mem_nodup ?_ (List.mem_reverse.mpr hm)
  rw [List.pairwise_reverse]
  exact hnd.imp fun h => Ne.symm h

theorem evalEqns_append (impl : PrimName → List Val → Option Val) :
    ∀ (l1 l2 : List JEqn) (env : List (Var × Val)),
      evalEqns impl (l1 ++ l2) env =
        (evalEqns impl l1 env).bind fun env1 => evalEqns impl l2 env1 := by
  intro l1
  induction l1 with
  | nil => intro l2 env; rfl
  | cons eqn rest ih =>
    intro l2 env
    rw [List.cons_append]
    simp only [evalEqns]
    cases h1 : eqn.invars.mapM (envRead env) with
    | none => rfl
    | some ivs =>
      simp only [Option.bind_eq_bind, Option.some_bind]
      cases h2 : impl eqn.prim ivs with
      | none => rfl
      | some ans =>
        simp only [Option.some_bind]
        cases hde : eqn.destructure with
        | false =>
          simp only [hde, Bool.false_eq_true, if_false]
          cases h4 : zipStrict eqn.outvars [ans] with
          | none => simp only [h4, Option.none_bind]
          | some pairs =>
            simp only [h4, Option.some_bind]
            exact ih l2 (pairs.reverse ++ env)
        | true =>
          simp only [hde, if_true]
          cases h3 : valElems? ans with
          | none => simp only [h3, Option.none_bind]
          | some outs =>
            simp only [h3, Option.some_bind]
            cases h4 : zipStrict eqn.outvars outs with
            | none => simp only [h4, Option.none_bind]
            | some pairs =>
              simp only [h4, Option.some_bind]
              exact ih l2 (pairs.reverse ++ env)

theorem getVars_map : ∀ (ids : List Nat) (s : TJState),
    (∀ i ∈ ids, (lookupVar s i).isSome) →
    getVars s ids = (ids.map fun i => (lookupVar s i).getD .unitvar, s) := by
  intro ids
  induction ids with
  | nil => intro s _; rfl
  | cons i is ih =>
    intro s hall
    cases hv : lookupVar s i with
    | none =>
      have h6 := hall i (List.mem_cons_self _ _)
      rw [hv] at h6
      simp at h6
    | some v =>
      have hgv : getVar s i = (v, s) := by
        unfold getVar
        rw [hv]
      rw [getVars, hgv, ih s fun j hj => hall j (List.mem_cons_of_mem _ hj),
        List.map_cons, hv]
      rfl

theorem mapM_map_opt {α β γ : Type} (g : β → Option γ) (f : α → β) :
    ∀ (l : List α), (l.map f).mapM g = l.mapM fun y => g (f y) := by
  intro l
  induction l with
  | nil => rfl
  | cons y ys ih =>
    rw [List.map_cons, List.mapM_cons, List.mapM_cons, ih]

end PE

namespace PE

/-- The lambda-bound tracer leaves the replay invariant unchanged. -/
theorem rstep_lambda {st : Arena} {impl : PrimName → List Val → Option Val}
    {x : Val} {s s1 : TJState} {t : Nat} {r : TRec}
    (hg : st.get? t = some r) (hrec : r.recipe = .lambdaBinding)
    (hR : RInv st impl x s)
    (hstep : tjStep st [0] s t = .ok s1) : RInv st impl x s1 := by
  rw [tjStep_lambda_eq [0] s hg hrec] at hstep
  rw [show (([0] : List Nat).isEmpty) = false from rfl] at hstep
  simp only [Bool.false_eq_true, if_false] at hstep
  obtain rfl := Except.ok.inj hstep
  exact hR

/-- Processing a known (unit-recipe) tracer binds it to the unit
variable and leaves the replay data unchanged. -/
theorem rstep_unit {st : Arena} {impl : PrimName → List Val → Option Val}
    {x : Val} {a : AVal} {s s1 : TJState} {t : Nat} {r : TRec}
    (hSeed : Seed a st) (hT : TrWF st)
    (hg : st.get? t = some r) (hrec : r.recipe = .unitR)
    (hnone : lookupVar s t = none)
    (hR : RInv st impl x s)
    (hstep : tjStep st [0] s t = .ok s1) : RInv st impl x s1 := by
  rw [tjStep_unit_eq [0] s hg hrec] at hstep
  obtain rfl := (Except.ok.inj hstep)
  have htne : t ≠ 0 := by
    intro h0
    rw [h0, hSeed] at hg
    obtain rfl := Option.some.inj hg
    exact Recipe.noConfusion hrec
  have hstab : ∀ j v, lookupVar s j = some v →
      lookupVar (setVar s t .unitvar) j = some v := by
    intro j v hj
    have hjne : j ≠ t := fun he => by rw [he, hnone] at hj; cases hj
    rw [lookupVar_setVar_ne s t j _ hjne]
    exact hj
  have hinv : ∀ j v, lookupVar (setVar s t .unitvar) j = some v →
      (j = t ∧ v = .unitvar) ∨ lookupVar s j = some v :=
    fun j v hj => lookupVar_setVar_inv hj
  refine ⟨hR.env_nil, hR.ctr_pos, ?_, hR.consts_keys, hR.consts_nodup,
    ?_, ?_, ?_, hR.eqn_outs, ?_⟩
  · rw [lookupVar_setVar_ne s t 0 _ htne.symm]
    exact hR.look0
  · intro t2 v hv
    rcases hinv t2 v hv with ⟨-, rfl⟩ | hv2
    · exact Or.inl rfl
    · exact hR.vars_lt t2 v hv2
  · intro t2 v r2 c hv hg2 hrec2
    rcases hinv t2 v hv with ⟨rfl, rfl⟩ | hv2
    · rw [hg] at hg2
      obtain rfl := Option.some.inj hg2
      rw [hrec] at hrec2
      exact Recipe.noConfusion hrec2
    · exact hR.const_link t2 v r2 c hv2 hg2 hrec2
  · intro t2 v r2 hv hg2 hrec2
    rcases hinv t2 v hv with ⟨rfl, rfl⟩ | hv2
    · rfl
    · exact hR.known_link t2 v r2 hv2 hg2 hrec2
  · intro env0 hpre
    have hpre0 : PreEnv st x s env0 := by
      refine ⟨hpre.1, ?_⟩
      intro t2 v r2 hv hg2
      exact hpre.2 t2 v r2 (hstab t2 v hv) hg2
    obtain ⟨envF, heval, hreads, add, hadd, haddk⟩ := hR.replay env0 hpre0
    refine ⟨envF, heval, ⟨hreads.1, ?_⟩, add, hadd, haddk⟩
    intro t2 v r2 av hv hg2 hav
    rcases hinv t2 v hv with ⟨rfl, rfl⟩ | hv2
    · rw [hg] at hg2
      obtain rfl := Option.some.inj hg2
      rw [(hT t2 r hg).2.2.2.2.2 hrec] at hav
      exact PV.noConfusion hav
    · exact hreads.2 t2 v r2 av hv2 hg2 hav

end PE

namespace PE

/-- Processing an instantiated-constant tracer assigns it a fresh
variable and collects the constant binding. -/
theorem rstep_const {st : Arena} {impl : PrimName → List Val → Option Val}
    {x : Val} {a : AVal} {s s1 : TJState} {t : Nat} {r : TRec} {c : Val}
    (hSeed : Seed a st)
    (hg : st.get? t = some r) (hrec : r.recipe = .constVar c)
    (hnone : lookupVar s t = none)
    (hR : RInv st impl x s)
    (hstep : tjStep st [0] s t = .ok s1) : RInv st impl x s1 := by
  have htne : t ≠ 0 := by
    intro h0
    rw [h0, hSeed] at hg
    obtain rfl := Option.some.inj hg
    exact Recipe.noConfusion hrec
  have hgv : getVar s t = (Var.v s.counter,
      { s with varmap := (t, Var.v s.counter) :: s.varmap,
               counter := s.counter + 1 }) := by
    unfold getVar
    rw [hnone]
  rw [tjStep_const_eq [0] s hg hrec, hgv] at hstep
  have hM := Except.ok.inj hstep
  have hlk : ∀ j, lookupVar s1 j =
      lookupVar (setVar s t (Var.v s.counter)) j := by
    intro j
    rw [← hM]
    exact lookupVar_varmap rfl j
  have hctr : s1.counter = s.counter + 1 := by rw [← hM]
  have hqeq : s1.eqns = s.eqns := by rw [← hM]
  have henv : s1.env = s.env := by rw [← hM]
  have hceq : s1.consts = s.consts ++ [(Var.v s.counter, c)] := by rw [← hM]
  have hstab : ∀ j v, lookupVar s j = some v → lookupVar s1 j = some v := by
    intro j v hj
    have hjne : j ≠ t := fun he => by rw [he, hnone] at hj; cases hj
    rw [hlk j, lookupVar_setVar_ne s t j _ hjne]
    exact hj
  refine ⟨?_, ?_, ?_, ?_, ?_, ?_, ?_, ?_, ?_, ?_⟩
  · rw [henv]
    exact hR.env_nil
  · rw [hctr]
    omega
  · rw [hlk 0, lookupVar_setVar_ne s t 0 _ htne.symm]
    exact hR.look0
  · intro p hp
    rw [hceq] at hp
    rcases List.mem_append.mp hp with hp | hp
    · obtain ⟨k, h1, h2, h3⟩ := hR.consts_keys p hp
      exact ⟨k, h1, h2, by rw [hctr]; omega⟩
    · obtain rfl := List.mem_singleton.mp hp
      exact ⟨s.counter, rfl, hR.ctr_pos, by rw [hctr]; omega⟩
  · rw [hceq]
    refine List.pairwise_append.mpr ⟨hR.consts_nodup, List.pairwise_singleton _ _, ?_⟩
    intro p hp q hq
    obtain rfl := List.mem_singleton.mp hq
    obtain ⟨k, hk1, -, hk3⟩ := hR.consts_keys p hp
    rw [hk1]
    intro he
    have h7 := Var.v.inj he
    omega
  · intro t2 v hv
    rw [hlk t2] at hv
    rcases lookupVar_setVar_inv hv with ⟨-, rfl⟩ | hv2
    · exact Or.inr ⟨s.counter, rfl, by rw [hctr]; omega⟩
    · rcases hR.vars_lt t2 v hv2 with h | ⟨k, rfl, hk⟩
      · exact Or.inl h
      · exact Or.inr ⟨k, rfl, by rw [hctr]; omega⟩
  · intro t2 v r2 c2 hv hg2 hrec2
    rw [hlk t2] at hv
    rcases lookupVar_setVar_inv hv with ⟨heq2, rfl⟩ | hv2
    · subst heq2
      rw [hg] at hg2
      obtain rfl := Option.some.inj hg2
      rw [hrec] at hrec2
      obtain rfl := Recipe.constVar.inj hrec2
      rw [hceq]
      exact List.mem_append_right _ (List.mem_singleton.mpr rfl)
    · rw [hceq]
      exact List.mem_append_left _ (hR.const_link t2 v r2 c2 hv2 hg2 hrec2)
  · intro t2 v r2 hv hg2 hrec2
    rw [hlk t2] at hv
    rcases lookupVar_setVar_inv hv with ⟨heq2, rfl⟩ | hv2
    · subst heq2
      rw [hg] at hg2
      obtain rfl := Option.some.inj hg2
      rw [hrec] at hrec2
      exact Recipe.noConfusion hrec2
    · exact hR.known_link t2 v r2 hv2 hg2 hrec2
  · intro eqn h
    rw [hqeq] at h
    obtain ⟨k, h1, h2⟩ := hR.eqn_outs eqn h
    exact ⟨k, h1, by rw [hctr]; omega⟩
  · intro env0 hpre
    have hpre0 : PreEnv st x s env0 :=
      ⟨hpre.1, fun t2 v r2 hv hg2 => hpre.2 t2 v r2 (hstab t2 v hv) hg2⟩
    obtain ⟨envF, heval, hreads, add, hadd, haddk⟩ := hR.replay env0 hpre0
    refine ⟨envF, by rw [hqeq]; exact heval, ⟨hreads.1, ?_⟩, add, hadd, ?_⟩
    · intro t2 v r2 av hv hg2 hav
      rw [hlk t2] at hv
      rcases lookupVar_setVar_inv hv with ⟨heq2, rfl⟩ | hv2
      · subst heq2
        rw [hg] at hg2
        obtain rfl := Option.some.inj hg2
        rw [tval_const hg hrec, hadd, envRead_skip ?_]
        · exact (hpre.2 t2 (Var.v s.counter) r
            (by rw [hlk t2]; exact lookupVar_setVar_self s t2 _) hg).2 c hrec
        · intro pr hpr
          obtain ⟨eqn, heqn, hprk⟩ := haddk pr hpr
          obtain ⟨k, hout, hklt⟩ := hR.eqn_outs eqn heqn
          rw [hout] at hprk
          have h8 := List.mem_singleton.mp hprk
          rw [h8]
          intro he
          have h9 := Var.v.inj he
          omega
      · exact hreads.2 t2 v r2 av hv2 hg2 hav
    · intro pr hpr
      obtain ⟨eqn, heqn, hk⟩ := haddk pr hpr
      exact ⟨eqn, by rw [hqeq]; exact heqn, hk⟩

end PE

namespace PE

/-- Processing an equation tracer emits its equation; replaying that
equation extends the environment with the tracer's denotation. -/
theorem rstep_eqn {st : Arena} {impl : PrimName → List Val → Option Val}
    {x : Val} {a : AVal} {s s1 : TJState} {t : Nat} {r : TRec} {e : EqnRec}
    (hSeed : Seed a st) (hT : TrWF st) (hD : DefinedAll impl x st)
    (hg : st.get? t = some r) (hrec : r.recipe = .eqnR e)
    (hnone : lookupVar s t = none)
    (hdomp : ∀ p2 ∈ e.invars, ∃ w, lookupVar s p2 = some w)
    (hR : RInv st impl x s)
    (hstep : tjStep st [0] s t = .ok s1) : RInv st impl x s1 := by
  have htne : t ≠ 0 := by
    intro h0
    rw [h0, hSeed] at hg
    obtain rfl := Option.some.inj hg
    exact Recipe.noConfusion hrec
  have hgv : getVar s t = (Var.v s.counter,
      { s with varmap := (t, Var.v s.counter) :: s.varmap,
               counter := s.counter + 1 }) := by
    unfold getVar
    rw [hnone]
  have hde : e.destructure = false := ((hT t r hg).2.1 e hrec).1
  have hplt2 : ∀ p2 ∈ e.invars, p2 < t :=
    fun p2 hp => (((hT t r hg).2.1 e hrec).2 p2 hp).1
  have hpav : ∀ p2 ∈ e.invars, ∃ q av, st.get? p2 = some q ∧ q.pv = .aval av :=
    fun p2 hp => (((hT t r hg).2.1 e hrec).2 p2 hp).2
  have hlkmid : ∀ p2, lookupVar { s with
      varmap := (t, Var.v s.counter) :: s.varmap,
      counter := s.counter + 1 } p2 =
      lookupVar (setVar s t (Var.v s.counter)) p2 :=
    fun p2 => lookupVar_varmap rfl p2
  have hmidlk : ∀ p2 w, lookupVar s p2 = some w →
      lookupVar (setVar s t (Var.v s.counter)) p2 = some w := by
    intro p2 w hw
    have hpne : p2 ≠ t := fun he => by rw [he, hnone] at hw; cases hw
    rw [lookupVar_setVar_ne s t p2 _ hpne]
    exact hw
  have hsome : ∀ p2 ∈ e.invars, (lookupVar { s with
      varmap := (t, Var.v s.counter) :: s.varmap,
      counter := s.counter + 1 } p2).isSome := by
    intro p2 hp
    obtain ⟨w, hw⟩ := hdomp p2 hp
    rw [hlkmid p2, hmidlk p2 w hw]
    rfl
  have hgvs := getVars_map e.invars _ hsome
  rw [tjStep_eqn_eq [0] s hg hrec, hgv] at hstep
  dsimp only at hstep
  rw [hgvs] at hstep
  dsimp only at hstep
  simp only [hlkmid] at hstep
  rw [hde] at hstep
  have hM := Except.ok.inj hstep
  have hlk : ∀ j, lookupVar s1 j =
      lookupVar (setVar s t (Var.v s.counter)) j := by
    intro j
    rw [← hM]
    exact lookupVar_varmap rfl j
  have hctr : s1.counter = s.counter + 1 := by rw [← hM]
  have henv : s1.env = s.env := by rw [← hM]
  have hceq : s1.consts = s.consts := by rw [← hM]
  have hqeq : s1.eqns = s.eqns ++
      [⟨e.invars.map fun p2 =>
          (lookupVar (setVar s t (Var.v s.counter)) p2).getD Var.unitvar,
        [Var.v s.counter], e.prim, false⟩] := by
    rw [← hM]
  have hstab : ∀ j v, lookupVar s j = some v → lookupVar s1 j = some v := by
    intro j v hj
    rw [hlk j]
    exact hmidlk j v hj
  refine ⟨?_, ?_, ?_, ?_, ?_, ?_, ?_, ?_, ?_, ?_⟩
  · rw [henv]
    exact hR.env_nil
  · rw [hctr]
    omega
  · rw [hlk 0, lookupVar_setVar_ne s t 0 _ htne.symm]
    exact hR.look0
  · intro p hp
    rw [hceq] at hp
    obtain ⟨k, h1, h2, h3⟩ := hR.consts_keys p hp
    exact ⟨k, h1, h2, by rw [hctr]; omega⟩
  · rw [hceq]
    exact hR.consts_nodup
  · intro t2 v hv
    rw [hlk t2] at hv
    rcases lookupVar_setVar_inv hv with ⟨-, rfl⟩ | hv2
    · exact Or.inr ⟨s.counter, rfl, by rw [hctr]; omega⟩
    · rcases hR.vars_lt t2 v hv2 with h | ⟨k, rfl, hk⟩
      · exact Or.inl h
      · exact Or.inr ⟨k, rfl, by rw [hctr]; omega⟩
  · intro t2 v r2 c2 hv hg2 hrec2
    rw [hlk t2] at hv
    rcases lookupVar_setVar_inv hv with ⟨heq2, rfl⟩ | hv2
    · subst heq2
      rw [hg] at hg2
      obtain rfl := Option.some.inj hg2
      rw [hrec] at hrec2
      exact Recipe.noConfusion hrec2
    · rw [hceq]
      exact hR.const_link t2 v r2 c2 hv2 hg2 hrec2
  · intro t2 v r2 hv hg2 hrec2
    rw [hlk t2] at hv
    rcases lookupVar_setVar_inv hv with ⟨heq2, rfl⟩ | hv2
    · subst heq2
      rw [hg] at hg2
      obtain rfl := Option.some.inj hg2
      rw [hrec] at hrec2
      exact Recipe.noConfusion hrec2
    · exact hR.known_link t2 v r2 hv2 hg2 hrec2
  · intro eqn h
    rw [hqeq] at h
    rcases List.mem_append.mp h with h | h
    · obtain ⟨k, h1, h2⟩ := hR.eqn_outs eqn h
      exact ⟨k, h1, by rw [hctr]; omega⟩
    · obtain rfl := List.mem_singleton.mp h
      exact ⟨s.counter, rfl, by rw [hctr]; omega⟩
  · intro env0 hpre
    have hpre0 : PreEnv st x s env0 :=
      ⟨hpre.1, fun t2 v r2 hv hg2 => hpre.2 t2 v r2 (hstab t2 v hv) hg2⟩
    obtain ⟨envF, heval, hreads, add, hadd, haddk⟩ := hR.replay env0 hpre0
    have htv : (tval impl st x (t + 1) t).isSome := hD t r hg
    rw [tval_eqn hg hrec] at htv
    obtain ⟨vt, hvt⟩ := Option.isSome_iff_exists.mp htv
    obtain ⟨vals, hvals, himpl⟩ := opt_bind_some_inv hvt
    have hvread : (e.invars.map fun p2 =>
        (lookupVar (setVar s t (Var.v s.counter)) p2).getD Var.unitvar).mapM
          (envRead envF) = some vals := by
      rw [mapM_map_opt]
      rw [mapM_ext_opt e.invars ?_]
      · exact hvals
      · intro p2 hp
        obtain ⟨w, hw⟩ := hdomp p2 hp
        rw [hmidlk p2 w hw]
        show envRead envF w = tval impl st x t p2
        obtain ⟨q, av, hq, hav⟩ := hpav p2 hp
        rw [hreads.2 p2 w q av hw hq hav]
        exact tval_irrel (trwf_plt hT) p2 (p2 + 1) t (by omega) (hplt2 p2 hp)
    refine ⟨(Var.v s.counter, vt) :: envF, ?_, ⟨?_, ?_⟩,
      (Var.v s.counter, vt) :: add, ?_, ?_⟩
    · rw [hqeq, evalEqns_append impl, heval]
      simp only [Option.bind_eq_bind, Option.some_bind]
      rw [evalEqns]
      dsimp only
      rw [hvread]
      simp only [Option.bind_eq_bind, Option.some_bind]
      rw [himpl]
      simp only [Option.some_bind]
      rfl
    · rw [envRead_ne envF vt fun h => Var.noConfusion h]
      exact hreads.1
    · intro t2 v r2 av hv hg2 hav
      rw [hlk t2] at hv
      rcases lookupVar_setVar_inv hv with ⟨heq2, rfl⟩ | hv2
      · subst heq2
        rw [hg] at hg2
        obtain rfl := Option.some.inj hg2
        rw [envRead_head, tval_eqn hg hrec, hvals]
        exact himpl.symm
      · have hvne : v ≠ Var.v s.counter := by
          rcases hR.vars_lt t2 v hv2 with h | ⟨k2, rfl, hk2⟩
          · rw [h]; exact fun he => Var.noConfusion he
          · intro he
            have h9 := Var.v.inj he
            omega
        rw [envRead_ne envF vt hvne]
        exact hreads.2 t2 v r2 av hv2 hg2 hav
    · rw [hadd]
      rfl
    · intro pr hpr
      rcases List.mem_cons.mp hpr with rfl | hpr
      · refine ⟨⟨e.invars.map fun p2 =>
            (lookupVar (setVar s t (Var.v s.counter)) p2).getD Var.unitvar,
          [Var.v s.counter], e.prim, false⟩, ?_, ?_⟩
        · rw [hqeq]
          exact List.mem_append_right _ (List.mem_singleton.mpr rfl)
        · exact List.mem_singleton.mpr rfl
      · obtain ⟨eqn, heqn, hprk⟩ := haddk pr hpr
        exact ⟨eqn, by rw [hqeq]; exact List.mem_append_left _ heqn, hprk⟩

end PE

namespace PE

theorem trwf_arenaWF {st : Arena} (hT : TrWF st) : ArenaWF st [0] := by
  refine ⟨trwf_plt hT, ?_⟩
  intro i r hg hrec
  have h0 := (hT i r hg).2.2.2.2.1 hrec
  rw [h0]
  exact List.mem_singleton.mpr rfl

theorem mem_toposort_self {st : Arena} {out : Nat} (h : out < st.length) :
    out ∈ toposortIds st out := by
  simp only [toposortIds]
  exact List.mem_filter.mpr ⟨List.mem_range.mpr h,
    contains_mem.mpr (reachDown_subset st st.length [out] out
      (List.mem_singleton.mpr rfl))⟩

theorem zipStrict_fst_snd {α β : Type} (l : List (α × β)) :
    zipStrict (l.map fun p => p.1) (l.map fun p => p.2) = some l := by
  unfold zipStrict
  rw [if_pos (by rw [List.length_map, List.length_map])]
  rw [List.zip_map']
  simp

theorem envRead_append_of_some {l l2 : List (Var × Val)} {v : Var} {c : Val}
    (h : envRead l v = some c) : envRead (l ++ l2) v = some c := by
  unfold envRead at h ⊢
  cases hf : l.find? fun q => q.1 = v with
  | none => rw [hf] at h; cases h
  | some pr =>
    rw [find?_eq_some_append hf]
    rw [hf] at h
    exact h

theorem merge_pvals_aval (v : Val) (av : AVal) (c : Val) :
    merge_pvals v ⟨.aval av, c⟩ = some v := by
  rw [merge_pvals]

theorem merge_pvals_known (v c : Val) :
    merge_pvals v ⟨.known, c⟩ = some c := by
  cases v with
  | arr s t d => rw [merge_pvals]
  | tup vs => rw [merge_pvals]

/-- The replay invariant of the initial `tracers_to_jaxpr` state. -/
theorem rinv_init {st : Arena} {impl : PrimName → List Val → Option Val}
    {x : Val} {a : AVal} (hSeed : Seed a st) :
    RInv st impl x (getVars ⟨[], 0, [], [], [], []⟩ [0]).2 := by
  have hinit : (getVars (⟨[], 0, [], [], [], []⟩ : TJState) [0]).2 =
      ⟨[(0, Var.v 0)], 1, [], [], [], []⟩ := rfl
  rw [hinit]
  have hlkc : ∀ j v, lookupVar (⟨[(0, Var.v 0)], 1, [], [], [], []⟩ : TJState) j =
      some v → j = 0 ∧ v = Var.v 0 := by
    intro j v hv
    by_cases h0 : j = 0
    · subst h0
      have hv2 : some (Var.v 0) = some v := hv
      exact ⟨rfl, (Option.some.inj hv2).symm⟩
    · have hn : lookupVar (⟨[(0, Var.v 0)], 1, [], [], [], []⟩ : TJState) j =
          none := by
        unfold lookupVar
        rw [List.find?_cons_of_neg _ (by simpa using fun he => h0 he.symm)]
        rfl
      rw [hn] at hv
      cases hv
  refine ⟨rfl, Nat.le_refl 1, rfl, ?_, List.Pairwise.nil, ?_, ?_, ?_, ?_, ?_⟩
  · intro p hp
    cases hp
  · intro t2 v hv
    obtain ⟨-, rfl⟩ := hlkc t2 v hv
    exact Or.inr ⟨0, rfl, Nat.zero_lt_one⟩
  · intro t2 v r2 c hv hg2 hrec2
    obtain ⟨rfl, rfl⟩ := hlkc t2 v hv
    rw [hSeed] at hg2
    obtain rfl := Option.some.inj hg2
    exact Recipe.noConfusion hrec2
  · intro t2 v r2 hv hg2 hrec2
    obtain ⟨rfl, rfl⟩ := hlkc t2 v hv
    rw [hSeed] at hg2
    obtain rfl := Option.some.inj hg2
    exact Recipe.noConfusion hrec2
  · intro eqn h
    cases h
  · intro env0 hpre
    refine ⟨env0, rfl, ⟨hpre.1, ?_⟩, [], rfl, fun pr hpr => absurd hpr
      (List.not_mem_nil pr)⟩
    intro t2 v r2 av hv hg2 hav
    obtain ⟨rfl, rfl⟩ := hlkc t2 v hv
    rw [hSeed] at hg2
    obtain rfl := Option.some.inj hg2
    rw [tval_lambda hSeed rfl]
    exact (hpre.2 0 (Var.v 0) _ hv hSeed).1 rfl

/-- The combined topological-order and replay invariant through the
`tracers_to_jaxpr` fold. -/
theorem tj_fold_replay {st : Arena} {impl : PrimName → List Val → Option Val}
    {x : Val} {a : AVal} {invars0 : List Var}
    (hSeed : Seed a st) (hT : TrWF st) (hD : DefinedAll impl x st) :
    ∀ (l P : List Nat) (s : TJState),
      (∀ k t2, l.get? k = some t2 → ∀ p2 ∈ parentsOf st t2,
        p2 ∈ P ++ l.take k) →
      (∀ u ∈ l, u ∉ P) → l.Pairwise (· ≠ ·) →
      S3 st [0] invars0 P s → RInv st impl x s →
      ∀ s2, l.foldlM (tjStep st [0]) s = .ok s2 →
      S3 st [0] invars0 (P ++ l) s2 ∧ RInv st impl x s2 := by
  intro l
  induction l with
  | nil =>
    intro P s _ _ _ hS hR s2 hf
    rw [List.foldlM_nil] at hf
    obtain rfl := Except.ok.inj hf
    rw [List.append_nil]
    exact ⟨hS, hR⟩
  | cons t l ih =>
    intro P s hchain hdisj hnd hS hR s2 hf
    rw [List.foldlM_cons] at hf
    obtain ⟨s1, hstep, hf2⟩ := exc_bind_ok_inv hf
    have hpar : ∀ p2 ∈ parentsOf st t, p2 ∈ P := by
      intro p2 hp
      have h0 := hchain 0 t rfl p2 hp
      rw [List.take_zero, List.append_nil] at h0
      exact h0
    have hS1 := tjStep_S3 (trwf_arenaWF hT) hpar hS hstep
    have hR1 : RInv st impl x s1 := by
      cases hget : st.get? t with
      | none =>
        unfold tjStep at hstep
        rw [hget] at hstep
        dsimp only at hstep
        cases hstep
      | some r =>
        have hnone : ¬ r.recipe = .lambdaBinding → lookupVar s t = none := by
          intro hnl
          cases hl : lookupVar s t with
          | none => rfl
          | some v =>
            rcases hS.dom_inv t v hl with h0 | hP
            · obtain rfl := List.mem_singleton.mp h0
              rw [hSeed] at hget
              obtain rfl := Option.some.inj hget
              exact absurd rfl hnl
            · exact absurd hP (hdisj t (List.mem_cons_self _ _))
        cases hrecipe : r.recipe with
        | lambdaBinding => exact rstep_lambda hget hrecipe hR hstep
        | unitR =>
          exact rstep_unit hSeed hT hget hrecipe
            (hnone (by rw [hrecipe]; exact fun h => Recipe.noConfusion h))
            hR hstep
        | constVar c =>
          exact rstep_const hSeed hget hrecipe
            (hnone (by rw [hrecipe]; exact fun h => Recipe.noConfusion h))
            hR hstep
        | eqnR e =>
          refine rstep_eqn hSeed hT hD hget hrecipe
            (hnone (by rw [hrecipe]; exact fun h => Recipe.noConfusion h))
            ?_ hR hstep
          intro p2 hp
          refine hS.dom p2 (Or.inr (hpar p2 ?_))
          rw [parentsOf_eqn hget hrecipe]
          exact hp
        | freeVar v => exact absurd hrecipe ((hT t r hget).2.2.2.1 v)
        | destructuringR i2 e2 k2 =>
          exact absurd hrecipe ((hT t r hget).2.2.1 i2 e2 k2)
    have hchain2 : ∀ k u, l.get? k = some u → ∀ p2 ∈ parentsOf st u,
        p2 ∈ (P ++ [t]) ++ l.take k := by
      intro k u hk p2 hp
      have h1 := hchain (k + 1) u hk p2 hp
      rw [List.append_assoc]
      exact h1
    have hdisj2 : ∀ u ∈ l, u ∉ P ++ [t] := by
      intro u hu hmem
      rcases List.mem_append.mp hmem with h | h
      · exact hdisj u (List.mem_cons_of_mem _ hu) h
      · obtain rfl := List.mem_singleton.mp h
        exact (List.pairwise_cons.mp hnd).1 u hu rfl
    obtain ⟨hSf, hRf⟩ := ih (P ++ [t]) s1 hchain2 hdisj2
      (List.pairwise_cons.mp hnd).2 hS1 hR1 s2 hf2
    rw [List.append_assoc] at hSf
    exact ⟨hSf, hRf⟩

end PE

namespace PE

/-- C1 (amended): tracing a primitive-only function at an abstract
argument and replaying the traced program on a concrete input with
`eval_jaxpr_raw` — supplying the captured constants and (empty)
free-variable values — then merging the replayed value with the output
tracer's residual partial value, as `compiled_call_impl` (lines 472-479)
does via `merge_pvals`, produces exactly the direct evaluation of the
function; the unmerged raw replay alone is refuted by
`round_trip_replay_cex`. -/
theorem round_trip_replay_amended
    (impl : PrimName → List Val → Option Val)
    (absEval : PrimName → List AVal → Option AVal)
    (a : AVal) (x : Val) (e : Expr) (tr : TraceResult) (res : Val)
    (ht : trace_to_jaxpr absEval ⟨.aval a, unitVal⟩ e = .ok tr)
    (hv : evalExpr impl x e = some res) :
    (eval_jaxpr_raw impl tr.jaxpr tr.consts [] [x]).bind
      (fun w => merge_pvals w tr.out_pval) = some res := by
  simp only [trace_to_jaxpr] at ht
  obtain ⟨t1, htr, ht2⟩ := exc_bind_ok_inv ht
  obtain ⟨w, hw, ht3⟩ := exc_bind_ok_inv ht2
  have hSeed0 : Seed a (⟨[new_arg_rec ⟨.aval a, unitVal⟩], 0⟩ : TraceSt).arena :=
    rfl
  have hT0 : TrWF (⟨[new_arg_rec ⟨.aval a, unitVal⟩], 0⟩ : TraceSt).arena := by
    intro i r hgr
    match i, hgr with
    | 0, hgr =>
      obtain rfl := Option.some.inj hgr
      exact ⟨Or.inl ⟨a, rfl⟩, fun e2 he => Recipe.noConfusion he,
        fun i2 e2 k2 he => Recipe.noConfusion he,
        fun v he => Recipe.noConfusion he, fun _ => rfl,
        fun he => Recipe.noConfusion he⟩
  have hD0 : DefinedAll impl x
      (⟨[new_arg_rec ⟨.aval a, unitVal⟩], 0⟩ : TraceSt).arena := by
    intro t r hgr
    match t, hgr with
    | 0, hgr =>
      rw [tval_lambda hSeed0 (by obtain rfl := Option.some.inj hgr; rfl)]
      rfl
  obtain ⟨⟨d, hext⟩, hSeedF, hTF, hDF, houtlt, htvout⟩ :=
    traceExpr_tval impl absEval a x e _ t1.1 t1.2 htr hSeed0 hT0 hD0
      (by rw [hv]; rfl)
  simp only [tracers_to_jaxpr] at hw
  obtain ⟨sF, hf, hw2⟩ := exc_bind_ok_inv hw
  have h3 := Except.ok.inj hw2
  subst h3
  have hS0 := @S3_init t1.2.arena [0]
  have hR0 := @rinv_init _ impl x _ hSeedF
  have hchain : ∀ k t2, (toposortIds t1.2.arena t1.1).get? k = some t2 →
      ∀ p2 ∈ parentsOf t1.2.arena t2,
        p2 ∈ ([] : List Nat) ++ (toposortIds t1.2.arena t1.1).take k := by
    intro k t2 hk p2 hp
    rw [List.nil_append]
    exact toposort_chain (trwf_arenaWF hTF) t1.1 k t2 hk p2 hp
  have hnodup : (toposortIds t1.2.arena t1.1).Pairwise (· ≠ ·) := by
    have hpl : (toposortIds t1.2.arena t1.1).Pairwise (· < ·) := by
      simp only [toposortIds]
      exact List.Pairwise.filter _ (List.pairwise_lt_range _)
    exact hpl.imp Nat.ne_of_lt
  obtain ⟨hSF, hRF⟩ := tj_fold_replay hSeedF hTF hDF
    (toposortIds t1.2.arena t1.1) [] _ hchain (by simp) hnodup hS0 hR0 sF hf
  have houtmem : t1.1 ∈ toposortIds t1.2.arena t1.1 :=
    mem_toposort_self houtlt
  have houtmem2 : t1.1 ∈ ([] : List Nat) ++ toposortIds t1.2.arena t1.1 := by
    rw [List.nil_append]
    exact houtmem
  obtain ⟨vout, hvout⟩ := hSF.dom t1.1 (Or.inr houtmem2)
  obtain ⟨rout, hrout⟩ := get?_of_lt houtlt
  have hgvout : getVar sF t1.1 = (vout, sF) := by
    unfold getVar
    rw [hvout]
  rw [hrout] at ht3
  dsimp only at ht3
  rw [hgvout] at ht3
  dsimp only at ht3
  rw [hRF.env_nil] at ht3
  rw [show (([] : List (Var × Val)).map fun p => p.2).isEmpty = true from rfl]
    at ht3
  simp only [if_true] at ht3
  have h4 := Except.ok.inj ht3
  subst h4
  -- replay computation
  simp only [eval_jaxpr_raw]
  rw [zipStrict_fst_snd sF.consts]
  rw [show (getVars (⟨[], 0, [], [], [], []⟩ : TJState) [0]).1 = [Var.v 0]
    from rfl]
  rw [show zipStrict [Var.v 0] [x] = some [(Var.v 0, x)] from rfl]
  rw [show zipStrict (([] : List (Var × Val)).map fun p => p.1)
    ([] : List Val) = some [] from rfl]
  simp only [Option.bind_eq_bind, Option.some_bind]
  have hE0 : (([] : List (Var × Val)).reverse ++
      ([(Var.v 0, x)]).reverse ++ sF.consts.reverse ++
      [(Var.unitvar, unitVal)]) =
      (Var.v 0, x) :: (sF.consts.reverse ++ [(Var.unitvar, unitVal)]) := by
    simp
  have hpre : PreEnv t1.2.arena x sF
      ((Var.v 0, x) :: (sF.consts.reverse ++ [(Var.unitvar, unitVal)])) := by
    constructor
    · rw [envRead_ne _ x (fun he => Var.noConfusion he)]
      rw [envRead_skip ?_]
      · exact envRead_head _ _ _
      · intro pr hpr
        obtain ⟨k, hk1, -, -⟩ :=
          hRF.consts_keys pr (List.mem_reverse.mp hpr)
        rw [hk1]
        exact fun he => Var.noConfusion he
    · intro t2 v r2 hv2 hg2
      constructor
      · intro hrec2
        have h0 := (hTF t2 r2 hg2).2.2.2.2.1 hrec2
        subst h0
        have hveq : v = Var.v 0 := by
          have h5 := hRF.look0
          rw [hv2] at h5
          exact Option.some.inj h5
        rw [hveq]
        exact envRead_head _ _ _
      · intro c hrec2
        have hmem := hRF.const_link t2 v r2 c hv2 hg2 hrec2
        obtain ⟨k, hk1, hk2, -⟩ := hRF.consts_keys (v, c) hmem
        have hvne : v ≠ Var.v 0 := by
          have hk1b : v = Var.v k := hk1
          rw [hk1b]
          intro he
          have h9 := Var.v.inj he
          omega
        rw [envRead_ne _ x hvne]
        refine envRead_append_of_some (envRead_rev_mem hRF.consts_nodup ?_)
        exact hmem
  rw [hE0]
  obtain ⟨envF, heval, hreads, add, hadd, haddk⟩ := hRF.replay _ hpre
  rw [heval]
  simp only [Option.some_bind]
  rcases (hTF t1.1 rout hrout).1 with ⟨av, hav⟩ | ⟨hpvk, hreck⟩
  · rw [hreads.2 t1.1 vout rout av hvout hrout hav]
    rw [htvout (t1.1 + 1) (by omega), hv]
    show merge_pvals res ⟨rout.pv, rout.const⟩ = some res
    rw [hav]
    exact merge_pvals_aval res av rout.const
  · have hvu : vout = Var.unitvar :=
      hRF.known_link t1.1 vout rout hvout hrout hreck
    rw [hvu, hreads.1]
    show merge_pvals unitVal ⟨rout.pv, rout.const⟩ = some res
    rw [hpvk, merge_pvals_known]
    have h6 : tval impl t1.2.arena x (t1.1 + 1) t1.1 = some rout.const :=
      tval_unit hrout hreck
    rw [htvout (t1.1 + 1) (by omega), hv] at h6
    exact h6.symm

/-- C1 counterexample: for the constant function returning the array 7,
traced at an abstract argument, the trace succeeds but the constant is
folded into the output tracer as a known partial value, so the emitted
program's output variable is `unitvar`; replaying the program with
`eval_jaxpr_raw` alone therefore returns the unit value, which differs
from the direct evaluation of the function (the array 7). -/
theorem round_trip_replay_cex :
    ∃ tr : TraceResult,
      trace_to_jaxpr (fun _ _ => none)
        ⟨.aval (.shaped [] 0), unitVal⟩ (.lit (.arr [] 0 [7])) = .ok tr ∧
      eval_jaxpr_raw (fun _ _ => none) tr.jaxpr tr.consts []
        [.arr [] 0 [5]] = some unitVal ∧
      evalExpr (fun _ _ => none) (.arr [] 0 [5]) (.lit (.arr [] 0 [7])) =
        some (.arr [] 0 [7]) ∧
      (unitVal : Val) ≠ .arr [] 0 [7] := by
  refine ⟨_, rfl, rfl, rfl, ?_⟩
  intro he
  exact Val.noConfusion he

/-- Witness for C1: the identity function traced at an abstract scalar
argument and replayed at the array 5 yields the array 5 after the
`compiled_call_impl` merge. -/
theorem round_trip_replay_amended_witness :
    (eval_jaxpr_raw (fun _ _ => none)
        (⟨⟨[], [], [Var.v 0], Var.v 0, []⟩,
          ⟨.aval (.shaped [] 0), unitVal⟩, []⟩ : TraceResult).jaxpr
        (⟨⟨[], [], [Var.v 0], Var.v 0, []⟩,
          ⟨.aval (.shaped [] 0), unitVal⟩, []⟩ : TraceResult).consts
        [] [Val.arr [] 0 [5]]).bind
      (fun w => merge_pvals w
        (⟨⟨[], [], [Var.v 0], Var.v 0, []⟩,
          ⟨.aval (.shaped [] 0), unitVal⟩, []⟩ : TraceResult).out_pval) =
      some (Val.arr [] 0 [5]) :=
  round_trip_replay_amended (fun _ _ => none) (fun _ _ => none)
    (.shaped [] 0) (.arr [] 0 [5]) .input
    ⟨⟨[], [], [Var.v 0], Var.v 0, []⟩, ⟨.aval (.shaped [] 0), unitVal⟩, []⟩
    (.arr [] 0 [5]) rfl rfl

end PE
